import Mathlib

/-!
# Spectrograph: windowed FFT, chunking and rasterisation

A shallow embedding of `src/Spectrograph.cpp` (the `Spectrograph` class of the
cpp-spectrogram repository) together with theorems about it.

Conventions of the embedding.

* `std::complex<double>` is the field `ℂ`, `double`/`float` results of `cos`, `sin`,
  `log`, `log10` are real numbers: the arithmetic of the transform and of the raster
  is exact.  The `float` argument `OVERLAP` of `compute` is a rational number (every
  finite `float` is one), and the step of `compute` is computed as the machine does
  it, with both `double` operations rounded to nearest (`round_double`).
* `int` is `Int` (no overflow is modelled; signed overflow is undefined in C++).
  Loop counters that start at `0` and only grow are `Nat`.  A comparison of an `int`
  with an unsigned size is the comparison of the two numbers, as it is in C++ whenever
  the `int` is not negative.
* `std::vector<T>` is `List T`; `v[i]` is `v.getD i 0` and `v[i] = x` is `v.set i x`.
* Loops that always terminate are total functions.  `compute`, `chunkify` and the
  recursive `_transform` can fail to terminate, and take a `fuel` argument; a run of
  `compute` ends in an `Outcome`, which records how it ended and the members then.
* `Utility.h` and `Spectrograph.h` are not among the sources: `Utility::reverse_bits`,
  `Utility::mag` and the default of `min_size` are modelled from the specification.
-/

namespace Spectrograph

/-- The source's `typedef std::complex<double> complex_d`, in exact arithmetic. -/
abbrev complex_d : Type := ℂ

/-- The conversion `static_cast<int>(x)` of a floating point value: truncation
towards zero. -/
def truncate {α : Type} [LinearOrderedField α] [FloorRing α] (x : α) : Int :=
  if 0 ≤ x then ⌊x⌋ else ⌈x⌉

/-- The members of `Spectrograph` that the transform pipeline reads or writes:
the waveform `data_` (a `std::vector<short>`), the matrix `spectrogram_`, the
window function `window_` (a `std::function<double(int, int)>`) and the raster
height `height_`. -/
structure State where
  data_ : List Int
  spectrogram_ : List (List complex_d)
  window_ : Int → Int → ℝ
  height_ : Int

/-- `Spectrograph::set_window` (lines 20-22). -/
def set_window (self : State) (window : Int → Int → ℝ) : State :=
  { self with window_ := window }

/-- `Spectrograph::omega` (lines 41-46): the function returns at the first
`return`, so the cache below it is never reached. -/
noncomputable def omega (p q : ℝ) : complex_d :=
  let trig_arg : ℝ := 2 * Real.pi * q / p
  ⟨Real.cos trig_arg, Real.sin trig_arg⟩

/-- Modelled from the spec: `Utility::reverse_bits` is declared in `Utility.h`, which
is not part of the sources at hand.  The spec describes it as "reversing the low `p`
bits of `i`": bit `0` of `val` becomes bit `power - 1` of the result, bit `1` becomes
bit `power - 2`, and so on. -/
def reverse_bits (val : Nat) : Nat → Nat
  | 0 => 0
  | power + 1 => (val % 2) * 2 ^ power + reverse_bits (val / 2) power

/-- `Spectrograph::pad` (lines 233-238).  Its only caller, `pad_to_power2`, passes a
`new_size` of at least `2`, so the comparison of the `int` with the unsigned size is
the comparison of the numbers. -/
def pad (signal : List complex_d) (new_size : Int) : List complex_d :=
  if new_size > (signal.length : Int) then
    signal ++ List.replicate (new_size - (signal.length : Int)).toNat 0
  else signal

/-- The `while (new_size < min_size)` loop of `pad_to_power2` (lines 244-247), from
the state `(new_size, power)`.  The loop variable `new_size` starts at `2` and is
doubled, so it stays positive; that is what makes the loop terminate. -/
def pad_to_power2_loop (min_size : Int) (new_size : Int) (power : Nat)
    (hpos : 0 < new_size) : Int × Nat :=
  if hlt : new_size < min_size then
    pad_to_power2_loop min_size (new_size * 2) (power + 1) (by omega)
  else (new_size, power)
termination_by (min_size - new_size).toNat
decreasing_by omega

/-- `Spectrograph::pad_to_power2` (lines 240-250): the padded signal and the
returned `power`. -/
def pad_to_power2 (signal : List complex_d) (min_size : Int) : List complex_d × Nat :=
  let r := pad_to_power2_loop min_size 2 1 (by decide)
  (pad signal r.1, r.2)

/-- First loop of `transform` (lines 167-170): apply the window function and store
each sample at its bit-reversed index. -/
def window_and_sort (self : State) (power : Nat) (signal : List complex_d)
    (transformed : List complex_d) : List complex_d :=
  (List.range signal.length).foldl
    (fun t i => t.set (reverse_bits i power)
      (signal.getD i 0 * ((self.window_ (i : Int) (signal.length : Int) : ℝ) : ℂ)))
    transformed

/-- Body of the innermost loop of `transform` (lines 178-182). -/
noncomputable def butterfly (n : Nat) (transformed : List complex_d) (m : Nat) :
    List complex_d :=
  let term1 := transformed.getD m 0
  let term2 := omega (n : ℝ) (-(m : ℝ)) * transformed.getD (m + n / 2) 0
  (transformed.set m (term1 + term2)).set (m + n / 2) (term1 - term2)

/-- The loop `for (int m = i; m < i + n/2; m++)` of `transform` (lines 177-183). -/
noncomputable def combine_segment (n : Nat) (transformed : List complex_d) (i : Nat) :
    List complex_d :=
  (List.range' i (n / 2)).foldl (butterfly n) transformed

theorem length_butterfly (n : Nat) (t : List complex_d) (m : Nat) :
    (butterfly n t m).length = t.length := by
  simp [butterfly]

theorem length_combine_segment (n : Nat) (t : List complex_d) (i : Nat) :
    (combine_segment n t i).length = t.length := by
  unfold combine_segment
  generalize List.range' i (n / 2) = l
  induction l generalizing t with
  | nil => rfl
  | cons a l ih => simp [List.foldl_cons, ih, length_butterfly]

/-- The loop `for (int i = 0; i <= transformed.size() - n; i += n)` of `transform`
(lines 175-184), from the loop state `i`.  It runs inside `while (n <= transformed.size())`,
where the unsigned difference `transformed.size() - n` does not wrap, so the test is
`i + n ≤ transformed.size()`. -/
noncomputable def segments_loop (n : Nat) (hn : 0 < n) (transformed : List complex_d)
    (i : Nat) : List complex_d :=
  if _h : i + n ≤ transformed.length then
    segments_loop n hn (combine_segment n transformed i) (i + n)
  else transformed
termination_by transformed.length - i
decreasing_by rw [length_combine_segment]; omega

theorem length_segments_loop (n : Nat) (hn : 0 < n) (t : List complex_d) (i : Nat) :
    (segments_loop n hn t i).length = t.length := by
  generalize hk : t.length - i = k
  induction k using Nat.strong_induction_on generalizing t i with
  | _ k ih =>
    rw [segments_loop]
    split
    · rw [ih (t.length - (i + n)) (by omega) _ _ (by rw [length_combine_segment]),
        length_combine_segment]
    · rfl

/-- The loop `while (n <= transformed.size())` of `transform` (lines 173-186), from
the loop state `n`.  `n` starts at `2` and is doubled, so it stays positive. -/
noncomputable def stages_loop (transformed : List complex_d) (n : Nat) (hn : 0 < n) :
    List complex_d :=
  if _h : n ≤ transformed.length then
    stages_loop (segments_loop n hn transformed 0) (n * 2) (by omega)
  else transformed
termination_by transformed.length + 1 - n
decreasing_by rw [length_segments_loop]; omega

/-- Modelled from the spec: the default value of the parameter `min_size` of
`transform` is given in `Spectrograph.h`, which is not part of the sources at hand.
The spec says that `min_size` "may be negative, meaning pad only to the segment's
own next power of two"; the default is taken to be `-1`. -/
def default_min_size : Int := -1

/-- `Spectrograph::transform` (lines 155-188): the new value of `signal`. -/
noncomputable def transform (self : State) (signal : List complex_d) (min_size : Int) :
    List complex_d :=
  let min_size := if min_size < 0 then (signal.length : Int) else min_size
  let padded := pad_to_power2 signal min_size
  let signal := padded.1
  let power := padded.2
  if power = 0 then signal
  else
    let transformed := window_and_sort self power signal (List.replicate signal.length 0)
    stages_loop transformed 2 (by decide)

/-- The loop of `_transform` that splits `signal` into its entries of even and of
odd index (lines 215-221): the pair `(f_even, f_odd)`. -/
def split_even_odd (signal : List complex_d) : List complex_d × List complex_d :=
  (List.range signal.length).foldl
    (fun (acc : List complex_d × List complex_d) i =>
      if i % 2 ≠ 0 then (acc.1, acc.2 ++ [signal.getD i 0])
      else (acc.1 ++ [signal.getD i 0], acc.2))
    ([], [])

/-- Body of the last loop of `_transform` (lines 227-229). -/
noncomputable def merge_step (n : Nat) (f_even f_odd : List complex_d)
    (signal : List complex_d) (m : Nat) : List complex_d :=
  let w := omega (n : ℝ) (-(m : ℝ))
  (signal.set m (f_even.getD m 0 + w * f_odd.getD m 0)).set (m + n / 2)
    (f_even.getD m 0 - w * f_odd.getD m 0)

/-- The last loop of `_transform` (lines 226-230), which overwrites `signal`. -/
noncomputable def merge_halves (n : Nat) (f_even f_odd signal : List complex_d) :
    List complex_d :=
  (List.range (n / 2)).foldl (merge_step n f_even f_odd) signal

/-- `Spectrograph::_transform` (lines 201-231): the new value of `signal`, or `none`
when the recursion is deeper than `fuel` (on an empty `signal` the source recurses
for ever). The parameter `min_size` of the source is not used by it. -/
noncomputable def _transform : Nat → List complex_d → Option (List complex_d)
  | 0, _ => none
  | fuel + 1, signal =>
    let n := signal.length
    if n = 1 then some signal
    else
      let halves := split_even_odd signal
      match _transform fuel halves.2, _transform fuel halves.1 with
      | some f_odd, some f_even => some (merge_halves n f_even f_odd signal)
      | _, _ => none

/-- The loop of `transform_recursive` that applies the window (lines 195-197). -/
def apply_window (self : State) (signal : List complex_d) : List complex_d :=
  (List.range signal.length).foldl
    (fun s i => s.set i (s.getD i 0 * ((self.window_ (i : Int) (s.length : Int) : ℝ) : ℂ)))
    signal

/-- `Spectrograph::transform_recursive` (lines 191-199): the new value of `signal`,
or `none` when `_transform` runs out of `fuel`.  The parameter `min_size` of the source
is not used by it. -/
noncomputable def transform_recursive (fuel : Nat) (self : State)
    (signal : List complex_d) : Option (List complex_d) :=
  let signal := (pad_to_power2 signal (signal.length : Int)).1
  _transform fuel (apply_window self signal)

/-- Rounding of a rational number to the nearest integer, a tie going to the even
one: the rounding of the significand of an IEEE 754 operation in the default mode. -/
def round_half_even (q : ℚ) : Int :=
  if q - (⌊q⌋ : ℚ) < 1 / 2 then ⌊q⌋
  else if 1 / 2 < q - (⌊q⌋ : ℚ) then ⌊q⌋ + 1
  else if ⌊q⌋ % 2 = 0 then ⌊q⌋ else ⌊q⌋ + 1

/-- The unit in the last place of a `double` next to `x ≠ 0`: a `double` has 53
significant bits, so for `2^e ≤ |x| < 2^(e+1)` the doubles around `x` are the multiples
of `2^(e-52)`. -/
def ulp (x : ℚ) : ℚ := 2 ^ (Int.log 2 |x| - 52)

/-- The `double` that an IEEE 754 operation returns when its exact result is `x`:
the multiple of `ulp x` nearest to `x`, ties to even.  The limits of the exponent are
not modelled: the results that `compute` rounds are `0` or lie between `2^-24` and
`2^31` in magnitude, far from overflow and from the subnormal numbers. -/
def round_double (x : ℚ) : ℚ :=
  if x = 0 then 0 else (round_half_even (x / ulp x) : ℚ) * ulp x

/-- The step `const int STEP = static_cast<int>(CHUNK_SIZE * (1.0 - OVERLAP))` of
`compute` (line 113), in the arithmetic of the machine.  `OVERLAP` is a `float` and
`1.0` a `double`: `OVERLAP` is converted to `double`, which changes no value, and the
difference `1.0 - OVERLAP` is rounded to a `double`.  `CHUNK_SIZE` is an `int`, which
converts to `double` without rounding, and the product is rounded to a `double` again
before `static_cast<int>` truncates it. -/
def STEP (CHUNK_SIZE : Int) (OVERLAP : ℚ) : Int :=
  truncate (round_double ((CHUNK_SIZE : ℚ) * round_double (1 - OVERLAP)))

/-- How a run of `compute` or `chunkify` ends: it returns, it stops at the failed
`assert`, it divides by zero, `reserve` cannot get the memory it is asked for, or the
run is still going on when the fuel is used up. -/
inductive Status where
  | returned
  | assertion_failed
  | division_by_zero
  | allocation_failed
  | out_of_fuel
deriving DecidableEq

/-- The end of a run: how it ended, and the object's members at that moment. -/
structure Outcome where
  status : Status
  state : State

/-- The loop `for (int i = 0; i + CHUNK_SIZE <= data_.size(); i += STEP)` of
`chunkify` (lines 143-150), from the loop state `i`: one unit of fuel per test of the
loop condition. -/
noncomputable def chunkify_loop (CHUNK_SIZE STEP : Int) : Nat → State → Int → Outcome
  | 0, self, _ => ⟨Status.out_of_fuel, self⟩
  | fuel + 1, self, i =>
    if i + CHUNK_SIZE ≤ (self.data_.length : Int) then
      let segment : List complex_d :=
        ((self.data_.drop i.toNat).take CHUNK_SIZE.toNat).map (fun s => ((s : Int) : ℂ))
      chunkify_loop CHUNK_SIZE STEP fuel
        { self with
          spectrogram_ := self.spectrogram_ ++ [transform self segment default_min_size] }
        (i + STEP)
    else ⟨Status.returned, self⟩

/-- `Spectrograph::chunkify` (lines 138-152).  The argument of `reserve`,
`(data_.size() - CHUNK_SIZE)/STEP + 1`, is computed in unsigned arithmetic: it divides
by `STEP`, and when `CHUNK_SIZE` is larger than `data_.size()` the difference wraps
around to more than `2^63`, a capacity of billions of columns, which `reserve` does not
get (`std::length_error` or `std::bad_alloc`).  In every other case the capacity is at
most `data_.size() + 1` and the allocation is taken to succeed. -/
noncomputable def chunkify (fuel : Nat) (CHUNK_SIZE STEP : Int) (self : State) : Outcome :=
  let self := { self with spectrogram_ := [] }
  if STEP = 0 then ⟨Status.division_by_zero, self⟩
  else if (self.data_.length : Int) < CHUNK_SIZE then ⟨Status.allocation_failed, self⟩
  else chunkify_loop CHUNK_SIZE STEP fuel self 0

/-- The loop `while (new_size + CHUNK_SIZE < data_.size())` of `compute`
(lines 125-127), from the loop state `new_size`: one unit of fuel per test of the
loop condition, `none` when the fuel is used up. -/
def padding_loop (CHUNK_SIZE STEP : Int) (size : Nat) : Nat → Int → Option Int
  | 0, _ => none
  | fuel + 1, new_size =>
    if new_size + CHUNK_SIZE < (size : Int) then
      padding_loop CHUNK_SIZE STEP size fuel (new_size + STEP)
    else some new_size

/-- `Spectrograph::compute` (lines 111-136), with the `assert` enabled. -/
noncomputable def compute (fuel : Nat) (CHUNK_SIZE : Int) (OVERLAP : ℚ) (self : State) :
    Outcome :=
  if ¬ (0 ≤ OVERLAP ∧ OVERLAP < 1) then ⟨Status.assertion_failed, self⟩
  else
    let STEP := STEP CHUNK_SIZE OVERLAP
    match padding_loop CHUNK_SIZE STEP self.data_.length fuel 0 with
    | none => ⟨Status.out_of_fuel, self⟩
    | some new_size =>
      if new_size ≠ (self.data_.length : Int) then
        let new_size := new_size + CHUNK_SIZE
        let padding : List Int :=
          List.replicate (new_size - (self.data_.length : Int)).toNat 0
        chunkify fuel CHUNK_SIZE STEP { self with data_ := self.data_ ++ padding }
      else chunkify fuel CHUNK_SIZE STEP self

end Spectrograph

namespace Utility

/-- Modelled from the spec: `Utility::mag` is declared in `Utility.h`, which is not
part of the sources at hand.  The spec writes `|bin|` for it: the modulus of a complex
number. -/
noncomputable def mag (c : ℂ) : ℝ := Complex.abs c

end Utility

namespace Spectrograph

/-- The pixel type `RGBQUAD` of FreeImage: four bytes. -/
structure RGBQUAD where
  rgbBlue : Nat
  rgbGreen : Nat
  rgbRed : Nat
  rgbReserved : Nat

/-- The conversion `static_cast<uint8_t>(x)` of a floating point value: truncation
towards zero (the value stays below `256` whenever C++ defines the conversion). -/
noncomputable def to_uint8 (x : ℝ) : Nat := (truncate x % 256).toNat

/-- `Spectrograph::get_color` (lines 99-109). -/
noncomputable def get_color (c : complex_d) (threshold : ℝ) : RGBQUAD :=
  let val : ℝ := 0.5 * Real.logb 10 (Utility.mag c + 1)
  let val : ℝ := if val > threshold then threshold else val
  let ratio : ℝ := val / threshold
  let num := to_uint8 (ratio * 255)
  ⟨num, num, num, 255⟩

/-- The update of `freq` at the end of the body of the inner loop of `save_image`
(lines 81-86). -/
noncomputable def next_freq (log_mode : Bool) (height_ data_size data_size_used : Int)
    (log_coef : ℝ) (y : Int) : Int :=
  if log_mode then
    data_size_used - 1 - truncate (log_coef * Real.log (((height_ + 1 - y : Int) : ℝ)))
  else
    let ratio : ℚ := (y : ℚ) / (height_ : ℚ)
    truncate (ratio * (data_size : ℚ) * 0.5)

/-- The inner loop `for (int y = 1; y <= height_; y++)` of `save_image` (lines 75-87)
for one column of the spectrogram: the colours written to the image rows
`0, …, height_ - 1` of that column, or `none` when `spectrogram_[x][freq]` is read
outside the column. -/
noncomputable def draw_column (log_mode : Bool) (height_ data_size data_size_used : Int)
    (log_coef : ℝ) (column : List complex_d) : Option (List RGBQUAD) :=
  ((List.range' 1 height_.toNat).foldl
    (fun (st : Option (Int × List RGBQUAD)) (y : Nat) =>
      match st with
      | none => none
      | some (freq, pixels) =>
        if 0 ≤ freq ∧ freq < (column.length : Int) then
          some (next_freq log_mode height_ data_size data_size_used log_coef (y : Int),
            pixels ++ [get_color (column.getD freq.toNat 0) 10.0])
        else none)
    (some (0, []))).map Prod.snd

/-- The outer loop `for (int x = 0; x < spectrogram_.size(); x++)` of `save_image`
(lines 74-88) over the columns still to draw. -/
noncomputable def draw_columns (log_mode : Bool) (height_ data_size data_size_used : Int)
    (log_coef : ℝ) : List (List complex_d) → Option (List (List RGBQUAD))
  | [] => some []
  | column :: rest =>
    match draw_column log_mode height_ data_size data_size_used log_coef column,
      draw_columns log_mode height_ data_size data_size_used log_coef rest with
    | some pixels, some bitmap => some (pixels :: bitmap)
    | _, _ => none

/-- `Spectrograph::save_image` (lines 57-97): the bitmap handed to `FreeImage_Save`,
as the list of its columns (`bitmap[x][y - 1]` is the colour set by
`FreeImage_SetPixelColor(bitmap, x, y - 1, &color)`), or `none` when the source reads
outside a vector (`front()` of an empty spectrogram, or `spectrogram_[x][freq]`). -/
noncomputable def save_image (self : State) (log_mode : Bool) :
    Option (List (List RGBQUAD)) :=
  match self.spectrogram_ with
  | [] => none
  | front :: _ =>
    let data_size : Int := (front.length : Int)
    let data_size_used : Int := truncate ((data_size : ℚ) * 0.25)
    let log_coef : ℝ :=
      (1.0 / Real.log (((self.height_ + 1 : Int) : ℝ))) * ((data_size_used : Int) : ℝ)
    draw_columns log_mode self.height_ data_size data_size_used log_coef self.spectrogram_

end Spectrograph

/-! ## Definitions used to state the properties -/

namespace Spectrograph

/-- The root of unity `e^(-2πi/n)`. -/
noncomputable def zeta (n : Nat) : ℂ := Complex.exp (-(2 * (Real.pi : ℂ) * Complex.I) / (n : ℂ))

/-- The discrete Fourier transform of the first `n` values of `y`, at frequency `r`:
the sum over `t < n` of `y t * e^(-2πi·r·t/n)`. -/
noncomputable def dft (n : Nat) (y : Nat → ℂ) (r : Nat) : ℂ :=
  ∑ t in Finset.range n, y t * zeta n ^ (r * t)

/-- After the stages for the segment lengths `2, 4, …, 2^s`, the segment number `b`
of the buffer holds the transform of the samples whose index is `reverse_bits b q`
modulo `2^q`. -/
def StageInv (x : Nat → ℂ) (s q : Nat) (t : List ℂ) : Prop :=
  ∀ b, b < 2 ^ q → ∀ r, r < 2 ^ s →
    t.getD (b * 2 ^ s + r) 0 = dft (2 ^ s) (fun u => x (reverse_bits b q + u * 2 ^ q)) r

/-- The samples `[i, i + CHUNK_SIZE)` of the waveform as complex numbers: the segment
that `chunkify` copies out of `data_` at offset `i`. -/
def segment_at (data_ : List Int) (i CHUNK_SIZE : Int) : List complex_d :=
  ((data_.drop i.toNat).take CHUNK_SIZE.toNat).map (fun s => ((s : Int) : ℂ))

/-- The value `data_size_used` of `save_image` (line 68) for a spectrum of `data_size`
bins. -/
def used_size (data_size : Int) : Int := truncate ((data_size : ℚ) * 0.25)

/-- The value `log_coef` of `save_image` (lines 70-71) for the height `height_` and a
spectrum of `data_size` bins. -/
noncomputable def log_scale (height_ data_size : Int) : ℝ :=
  (1.0 / Real.log (((height_ + 1 : Int) : ℝ))) * ((used_size data_size : Int) : ℝ)

/-- The value of `freq` with which the inner loop of `save_image` reads
`spectrogram_[x][freq]` for the image row `r` (the iteration `y = r + 1`): `0` for the
first row, and for every later row the value that the update at the end of the
iteration before, `y = r`, has stored. -/
noncomputable def row_freq (log_mode : Bool) (height_ data_size : Int) (r : Nat) : Int :=
  if r = 0 then 0
  else next_freq log_mode height_ data_size (used_size data_size)
    (log_scale height_ data_size) (r : Int)

/-- The real number that `get_color` converts to a byte: `255 * val / threshold` with
`val` the clamped half logarithm of the magnitude. -/
noncomputable def scaled_level (c : ℂ) (threshold : ℝ) : ℝ :=
  255 * min (0.5 * Real.logb 10 (Complex.abs c + 1)) threshold / threshold

end Spectrograph

/-! ## The discrete Fourier transform and its even/odd decomposition -/

namespace Spectrograph

theorem omega_neg_eq_zeta_pow (n m : Nat) :
    omega (n : ℝ) (-(m : ℝ)) = zeta n ^ m := by
  have h1 : zeta n ^ m
      = Complex.exp (((2 * Real.pi * (-(m : ℝ)) / (n : ℝ) : ℝ) : ℂ) * Complex.I) := by
    unfold zeta
    rw [← Complex.exp_nat_mul]
    congr 1
    push_cast
    ring
  rw [h1]
  apply Complex.ext
  · rw [Complex.exp_ofReal_mul_I_re]; rfl
  · rw [Complex.exp_ofReal_mul_I_im]; rfl

theorem zeta_double_sq (h : Nat) : zeta (2 * h) ^ 2 = zeta h := by
  unfold zeta
  rw [← Complex.exp_nat_mul]
  congr 1
  push_cast
  ring

theorem zeta_pow_self (h : Nat) (hh : 0 < h) : zeta h ^ h = 1 := by
  unfold zeta
  rw [← Complex.exp_nat_mul]
  have hne : (h : ℂ) ≠ 0 := by exact_mod_cast hh.ne'
  have : (h : ℂ) * (-(2 * (Real.pi : ℂ) * Complex.I) / (h : ℂ))
      = -(2 * (Real.pi : ℂ) * Complex.I) := by
    field_simp
    ring
  rw [this, Complex.exp_neg, Complex.exp_two_pi_mul_I, inv_one]

theorem zeta_double_pow_half (h : Nat) (hh : 0 < h) : zeta (2 * h) ^ h = -1 := by
  unfold zeta
  rw [← Complex.exp_nat_mul]
  have hne : (h : ℂ) ≠ 0 := by exact_mod_cast hh.ne'
  have : (h : ℂ) * (-(2 * (Real.pi : ℂ) * Complex.I) / ((2 * h : ℕ) : ℂ))
      = -((Real.pi : ℂ) * Complex.I) := by
    push_cast
    field_simp
    ring
  rw [this, Complex.exp_neg, Complex.exp_pi_mul_I]
  norm_num

theorem sum_range_double (f : Nat → ℂ) (h : Nat) :
    ∑ t in Finset.range (2 * h), f t
      = ∑ u in Finset.range h, f (2 * u) + ∑ u in Finset.range h, f (2 * u + 1) := by
  induction h with
  | zero => simp
  | succ h ih =>
    rw [show 2 * (h + 1) = 2 * h + 1 + 1 by ring, Finset.sum_range_succ,
      Finset.sum_range_succ, ih, Finset.sum_range_succ, Finset.sum_range_succ]
    ring

/-- Danielson-Lanczos: a transform of length `2h` is the transform of the entries of
even index plus a twiddle factor times the transform of the entries of odd index. -/
theorem dft_double (h : Nat) (y : Nat → ℂ) (r : Nat) :
    dft (2 * h) y r
      = dft h (fun u => y (2 * u)) r + zeta (2 * h) ^ r * dft h (fun u => y (2 * u + 1)) r := by
  unfold dft
  rw [sum_range_double, Finset.mul_sum]
  congr 1
  · apply Finset.sum_congr rfl
    intro u _
    rw [← zeta_double_sq h, ← pow_mul]
    congr 2
    ring
  · apply Finset.sum_congr rfl
    intro u _
    rw [← zeta_double_sq h, ← pow_mul, mul_left_comm, ← pow_add]
    congr 2
    ring

theorem dft_add_period (h : Nat) (hh : 0 < h) (y : Nat → ℂ) (r : Nat) :
    dft h y (r + h) = dft h y r := by
  unfold dft
  apply Finset.sum_congr rfl
  intro u _
  rw [add_mul, pow_add, mul_comm h u, pow_mul (zeta h) u h, pow_right_comm, zeta_pow_self h hh,
    one_pow, mul_one]

/-- The second half of a transform of length `2h`. -/
theorem dft_double_upper (h : Nat) (hh : 0 < h) (y : Nat → ℂ) (r : Nat) :
    dft (2 * h) y (r + h)
      = dft h (fun u => y (2 * u)) r - zeta (2 * h) ^ r * dft h (fun u => y (2 * u + 1)) r := by
  rw [dft_double, dft_add_period h hh, dft_add_period h hh, pow_add, zeta_double_pow_half h hh]
  ring

theorem dft_one (y : Nat → ℂ) : dft 1 y 0 = y 0 := by
  simp [dft]

end Spectrograph

/-! ## The loops of `transform`, read as functions on indices -/

namespace Spectrograph

theorem getD_set (t : List ℂ) (i j : Nat) (v : ℂ) :
    (t.set i v).getD j 0 = if i = j ∧ i < t.length then v else t.getD j 0 := by
  simp only [List.getD_eq_getElem?_getD, List.getElem?_set]
  by_cases hij : i = j
  · subst hij
    by_cases hi : i < t.length
    · simp [hi]
    · simp only [hi, and_false, if_false, if_true]
      rw [List.getElem?_eq_none (by omega)]
  · simp [hij]

theorem length_foldl_butterfly (n : Nat) (l : List Nat) (t : List ℂ) :
    (l.foldl (butterfly n) t).length = t.length := by
  induction l generalizing t with
  | nil => rfl
  | cons a l ihl => simp [List.foldl_cons, ihl, length_butterfly]

theorem getD_butterfly (n h : Nat) (hn : n / 2 = h) (t : List ℂ) (m j : Nat)
    (hh : 0 < h) (hlen : m + h < t.length) :
    (butterfly n t m).getD j 0
      = if j = m then t.getD m 0 + omega (n : ℝ) (-(m : ℝ)) * t.getD (m + h) 0
        else if j = m + h then t.getD m 0 - omega (n : ℝ) (-(m : ℝ)) * t.getD (m + h) 0
        else t.getD j 0 := by
  unfold butterfly
  simp only [hn]
  rw [getD_set, getD_set, List.length_set]
  by_cases h1 : j = m
  · subst h1
    have : ¬ (j + h = j ∧ j + h < t.length) := by omega
    rw [if_neg this, if_pos ⟨rfl, by omega⟩, if_pos rfl]
  · by_cases h2 : j = m + h
    · subst h2
      rw [if_pos ⟨rfl, hlen⟩, if_neg h1, if_pos rfl]
    · have a1 : ¬ (m + h = j ∧ m + h < t.length) := by omega
      have a2 : ¬ (m = j ∧ m < t.length) := by omega
      rw [if_neg a1, if_neg a2, if_neg h1, if_neg h2]

theorem getD_foldl_butterfly (n h : Nat) (hn : n / 2 = h) (t : List ℂ) (i c : Nat)
    (hc : c ≤ h) (hlen : i + h + c ≤ t.length) (j : Nat) :
    ((List.range' i c).foldl (butterfly n) t).getD j 0
      = if i ≤ j ∧ j < i + c then
          t.getD j 0 + omega (n : ℝ) (-(j : ℝ)) * t.getD (j + h) 0
        else if i + h ≤ j ∧ j < i + h + c then
          t.getD (j - h) 0 - omega (n : ℝ) (-((j - h : ℕ) : ℝ)) * t.getD j 0
        else t.getD j 0 := by
  induction c generalizing j with
  | zero =>
    have a1 : ¬ (i ≤ j ∧ j < i + 0) := by omega
    have a2 : ¬ (i + h ≤ j ∧ j < i + h + 0) := by omega
    simp only [List.range'_zero, List.foldl_nil, if_neg a1, if_neg a2]
  | succ c ih =>
    have hlen' : (List.foldl (butterfly n) t (List.range' i c)).length = t.length :=
      length_foldl_butterfly n _ t
    rw [List.range'_1_concat, List.foldl_append, List.foldl_cons, List.foldl_nil,
      getD_butterfly n h hn _ _ _ (by omega) (by rw [hlen']; omega)]
    have e1 := ih (by omega) (by omega) (i + c)
    have e2 := ih (by omega) (by omega) (i + c + h)
    have e3 := ih (by omega) (by omega) j
    have b1 : ¬ (i ≤ i + c ∧ i + c < i + c) := by omega
    have b2 : ¬ (i + h ≤ i + c ∧ i + c < i + h + c) := by omega
    have b3 : ¬ (i ≤ i + c + h ∧ i + c + h < i + c) := by omega
    have b4 : ¬ (i + h ≤ i + c + h ∧ i + c + h < i + h + c) := by omega
    rw [if_neg b1, if_neg b2] at e1
    rw [if_neg b3, if_neg b4] at e2
    rw [e1, e2, e3]
    by_cases h1 : j = i + c
    · subst h1
      rw [if_pos rfl, if_pos (by omega)]
    · rw [if_neg h1]
      by_cases h2 : j = i + c + h
      · subst h2
        have b5 : ¬ (i ≤ i + c + h ∧ i + c + h < i + (c + 1)) := by omega
        rw [if_pos rfl, if_neg b5, if_pos (by omega)]
        have : i + c + h - h = i + c := by omega
        rw [this]
      · rw [if_neg h2]
        by_cases h3 : i ≤ j ∧ j < i + c
        · rw [if_pos h3, if_pos (by omega)]
        · rw [if_neg h3]
          have b6 : ¬ (i ≤ j ∧ j < i + (c + 1)) := by omega
          rw [if_neg b6]
          by_cases h4 : i + h ≤ j ∧ j < i + h + c
          · rw [if_pos h4, if_pos (by omega)]
          · have b7 : ¬ (i + h ≤ j ∧ j < i + h + (c + 1)) := by omega
            rw [if_neg h4, if_neg b7]

/-- One pass of the innermost loop of `transform` over the segment that starts at `i`. -/
theorem getD_combine_segment (n h : Nat) (hn : n / 2 = h) (t : List ℂ) (i : Nat)
    (hlen : i + 2 * h ≤ t.length) (j : Nat) :
    (combine_segment n t i).getD j 0
      = if i ≤ j ∧ j < i + h then
          t.getD j 0 + omega (n : ℝ) (-(j : ℝ)) * t.getD (j + h) 0
        else if i + h ≤ j ∧ j < i + 2 * h then
          t.getD (j - h) 0 - omega (n : ℝ) (-((j - h : ℕ) : ℝ)) * t.getD j 0
        else t.getD j 0 := by
  unfold combine_segment
  rw [hn, getD_foldl_butterfly n h hn t i h (le_refl h) (by omega) j]
  have : i + h + h = i + 2 * h := by ring
  rw [this]

theorem getD_segments_loop_below (n : Nat) (hn : 0 < n) (t : List ℂ) (i j : Nat)
    (hj : j < i) : (segments_loop n hn t i).getD j 0 = t.getD j 0 := by
  generalize hk : t.length - i = k
  induction k using Nat.strong_induction_on generalizing t i with
  | _ k ih =>
    rw [segments_loop]
    split
    · next hle =>
      rw [ih (t.length - (i + n)) (by omega) _ _ (by omega) (by rw [length_combine_segment]),
        getD_combine_segment n (n / 2) rfl t i (by omega) j]
      have a1 : ¬ (i ≤ j ∧ j < i + n / 2) := by omega
      have a2 : ¬ (i + n / 2 ≤ j ∧ j < i + 2 * (n / 2)) := by omega
      rw [if_neg a1, if_neg a2]
    · rfl

/-- One stage of `transform`: in every segment of length `n = 2h` that fits into the
buffer, the entries `r` and `r + h` are replaced by the butterfly of the old entries. -/
theorem getD_segments_loop (h : Nat) (hh : 0 < h) (t : List ℂ) (i b r : Nat)
    (hr : r < h) (hlen : i + b * (2 * h) + 2 * h ≤ t.length) :
    (segments_loop (2 * h) (by omega) t i).getD (i + b * (2 * h) + r) 0
        = t.getD (i + b * (2 * h) + r) 0
          + omega ((2 * h : ℕ) : ℝ) (-((i + b * (2 * h) + r : ℕ) : ℝ))
            * t.getD (i + b * (2 * h) + r + h) 0
    ∧ (segments_loop (2 * h) (by omega) t i).getD (i + b * (2 * h) + r + h) 0
        = t.getD (i + b * (2 * h) + r) 0
          - omega ((2 * h : ℕ) : ℝ) (-((i + b * (2 * h) + r : ℕ) : ℝ))
            * t.getD (i + b * (2 * h) + r + h) 0 := by
  have hhalf : 2 * h / 2 = h := by omega
  induction b generalizing t i with
  | zero =>
    simp only [Nat.zero_mul, Nat.add_zero] at hlen ⊢
    rw [segments_loop, dif_pos (by omega),
      getD_segments_loop_below _ _ _ _ _ (by omega),
      getD_segments_loop_below _ _ _ _ _ (by omega),
      getD_combine_segment (2 * h) h hhalf t i (by omega),
      getD_combine_segment (2 * h) h hhalf t i (by omega)]
    have a1 : i ≤ i + r ∧ i + r < i + h := by omega
    have a2 : ¬ (i ≤ i + r + h ∧ i + r + h < i + h) := by omega
    have a3 : i + h ≤ i + r + h ∧ i + r + h < i + 2 * h := by omega
    have a4 : i + r + h - h = i + r := by omega
    rw [if_pos a1, if_neg a2, if_pos a3, a4]
    exact ⟨rfl, rfl⟩
  | succ b ih =>
    have e : i + (b + 1) * (2 * h) = i + 2 * h + b * (2 * h) := by ring
    rw [e] at hlen ⊢
    rw [segments_loop, dif_pos (by omega)]
    have key := ih (combine_segment (2 * h) t i) (i + 2 * h)
      (by rw [length_combine_segment]; exact hlen)
    have u1 := getD_combine_segment (2 * h) h hhalf t i (by omega)
      (i + 2 * h + b * (2 * h) + r)
    have u2 := getD_combine_segment (2 * h) h hhalf t i (by omega)
      (i + 2 * h + b * (2 * h) + r + h)
    have a1 : ¬ (i ≤ i + 2 * h + b * (2 * h) + r ∧ i + 2 * h + b * (2 * h) + r < i + h) := by
      omega
    have a2 : ¬ (i + h ≤ i + 2 * h + b * (2 * h) + r
        ∧ i + 2 * h + b * (2 * h) + r < i + 2 * h) := by omega
    have a3 : ¬ (i ≤ i + 2 * h + b * (2 * h) + r + h
        ∧ i + 2 * h + b * (2 * h) + r + h < i + h) := by omega
    have a4 : ¬ (i + h ≤ i + 2 * h + b * (2 * h) + r + h
        ∧ i + 2 * h + b * (2 * h) + r + h < i + 2 * h) := by omega
    rw [if_neg a1, if_neg a2] at u1
    rw [if_neg a3, if_neg a4] at u2
    rw [u1, u2] at key
    exact key

end Spectrograph

/-! ## Bit reversal -/

namespace Spectrograph

theorem reverse_bits_lt (val power : Nat) : reverse_bits val power < 2 ^ power := by
  induction power generalizing val with
  | zero => simp [reverse_bits]
  | succ p ih =>
    rw [reverse_bits, pow_succ]
    have h1 := ih (val / 2)
    have h2 : val % 2 < 2 := Nat.mod_lt _ (by decide)
    have h3 : val % 2 * 2 ^ p ≤ 1 * 2 ^ p := Nat.mul_le_mul_right _ (by omega)
    omega

theorem reverse_bits_double (b q : Nat) :
    reverse_bits (2 * b) (q + 1) = reverse_bits b q := by
  rw [reverse_bits]
  have h1 : 2 * b % 2 = 0 := by omega
  have h2 : 2 * b / 2 = b := by omega
  rw [h1, h2]
  simp

theorem reverse_bits_double_succ (b q : Nat) :
    reverse_bits (2 * b + 1) (q + 1) = 2 ^ q + reverse_bits b q := by
  rw [reverse_bits]
  have h1 : (2 * b + 1) % 2 = 1 := by omega
  have h2 : (2 * b + 1) / 2 = b := by omega
  rw [h1, h2]
  simp

theorem reverse_bits_add_top (p x b : Nat) (hx : x < 2 ^ p) (hb : b < 2) :
    reverse_bits (b * 2 ^ p + x) (p + 1) = 2 * reverse_bits x p + b := by
  induction p generalizing x with
  | zero =>
    have hx0 : x = 0 := by simpa using hx
    subst hx0
    simp only [reverse_bits, pow_zero, mul_one, add_zero, mul_zero, zero_add]
    omega
  | succ q ih =>
    rw [reverse_bits]
    have e0 : b * 2 ^ (q + 1) = 2 * (b * 2 ^ q) := by rw [pow_succ]; ring
    have e1 : (b * 2 ^ (q + 1) + x) % 2 = x % 2 := by
      rw [e0]; omega
    have e2 : (b * 2 ^ (q + 1) + x) / 2 = b * 2 ^ q + x / 2 := by
      rw [e0]; omega
    have hx2 : x / 2 < 2 ^ q := by
      rw [pow_succ] at hx; omega
    rw [e1, e2, ih (x / 2) hx2]
    conv_rhs => rw [reverse_bits]
    rw [pow_succ]
    ring

/-- Reversing the low `power` bits twice gives the index back. -/
theorem reverse_bits_involutive (power val : Nat) (hval : val < 2 ^ power) :
    reverse_bits (reverse_bits val power) power = val := by
  induction power generalizing val with
  | zero =>
    have : val = 0 := by simpa using hval
    subst this
    rfl
  | succ p ih =>
    have hv2 : val / 2 < 2 ^ p := by
      rw [pow_succ] at hval; omega
    conv_lhs => rw [reverse_bits.eq_2 val p]
    rw [reverse_bits_add_top p _ _ (reverse_bits_lt _ _) (Nat.mod_lt _ (by decide)), ih _ hv2]
    omega

theorem length_foldl_set (f : Nat → Nat) (g : Nat → ℂ) (l : List Nat) (t : List ℂ) :
    (l.foldl (fun (t : List ℂ) i => t.set (f i) (g i)) t).length = t.length := by
  induction l generalizing t with
  | nil => rfl
  | cons a l ih => simp [List.foldl_cons, ih]

/-- A loop `for i < N: t[f i] = g i` with `f` injective below `N` stores `g i` at
position `f i`. -/
theorem getD_foldl_set (f : Nat → Nat) (g : Nat → ℂ) (N : Nat) (t : List ℂ)
    (hf : ∀ i, i < N → f i < t.length)
    (hinj : ∀ i, i < N → ∀ k, k < N → f i = f k → i = k) (i : Nat) (hi : i < N) :
    ((List.range N).foldl (fun (t : List ℂ) i => t.set (f i) (g i)) t).getD (f i) 0 = g i := by
  induction N with
  | zero => omega
  | succ N ih =>
    rw [List.range_succ, List.foldl_append, List.foldl_cons, List.foldl_nil, getD_set,
      length_foldl_set]
    by_cases hiN : i = N
    · subst hiN
      rw [if_pos ⟨rfl, hf i (by omega)⟩]
    · have hne : ¬ (f N = f i ∧ f N < t.length) := by
        intro hc
        exact hiN (hinj N (by omega) i hi hc.1).symm
      rw [if_neg hne]
      exact ih (fun k hk => hf k (by omega))
        (fun a ha k hk => hinj a (by omega) k (by omega)) (by omega)

end Spectrograph

/-! ## The stages of the iterative transform -/

namespace Spectrograph

theorem omega_segment (h : Nat) (hh : 0 < h) (b r : Nat) :
    omega ((2 * h : ℕ) : ℝ) (-((0 + b * (2 * h) + r : ℕ) : ℝ)) = zeta (2 * h) ^ r := by
  rw [omega_neg_eq_zeta_pow, Nat.zero_add, pow_add, mul_comm b, pow_mul,
    zeta_pow_self (2 * h) (by omega), one_pow, one_mul]

theorem stageInv_step (x : Nat → ℂ) (s q : Nat) (t : List ℂ) (n : Nat) (hn : 0 < n)
    (hn2 : n = 2 * 2 ^ s) (hlen : t.length = 2 ^ (s + q + 1))
    (hinv : StageInv x s (q + 1) t) :
    StageInv x (s + 1) q (segments_loop n hn t 0) := by
  subst hn2
  intro b hb r hr
  have hh : 0 < 2 ^ s := by positivity
  have hblock : 0 + b * (2 * 2 ^ s) + 2 * 2 ^ s ≤ t.length := by
    rw [hlen]
    have h1 : (b + 1) * (2 * 2 ^ s) ≤ 2 ^ q * (2 * 2 ^ s) := Nat.mul_le_mul_right _ hb
    have e : 2 ^ (s + q + 1) = 2 ^ q * (2 * 2 ^ s) := by ring
    rw [e]
    calc 0 + b * (2 * 2 ^ s) + 2 * 2 ^ s = (b + 1) * (2 * 2 ^ s) := by ring
      _ ≤ _ := h1
  have hpow : 2 ^ (s + 1) = 2 * 2 ^ s := by ring
  have hev : ∀ r', r' < 2 ^ s → t.getD (0 + b * (2 * 2 ^ s) + r') 0
      = dft (2 ^ s) (fun u => x (reverse_bits b q + 2 * u * 2 ^ q)) r' := by
    intro r' hr'
    have h1 := hinv (2 * b) (by rw [pow_succ]; omega) r' hr'
    rw [reverse_bits_double] at h1
    have e : 0 + b * (2 * 2 ^ s) + r' = 2 * b * 2 ^ s + r' := by ring
    rw [e, h1]
    congr 1
    funext u
    congr 1
    ring
  have hod : ∀ r', r' < 2 ^ s → t.getD (0 + b * (2 * 2 ^ s) + r' + 2 ^ s) 0
      = dft (2 ^ s) (fun u => x (reverse_bits b q + (2 * u + 1) * 2 ^ q)) r' := by
    intro r' hr'
    have h1 := hinv (2 * b + 1) (by rw [pow_succ]; omega) r' hr'
    rw [reverse_bits_double_succ] at h1
    have e : 0 + b * (2 * 2 ^ s) + r' + 2 ^ s = (2 * b + 1) * 2 ^ s + r' := by ring
    rw [e, h1]
    congr 1
    funext u
    congr 1
    ring
  rw [hpow]
  by_cases hlt : r < 2 ^ s
  · obtain ⟨e1, _⟩ := getD_segments_loop (2 ^ s) hh t 0 b r hlt hblock
    have e : b * (2 * 2 ^ s) + r = 0 + b * (2 * 2 ^ s) + r := by ring
    rw [e, e1, omega_segment _ hh, hev r hlt, hod r hlt, dft_double]
  · obtain ⟨r', rfl⟩ : ∃ r', r = r' + 2 ^ s := ⟨r - 2 ^ s, by omega⟩
    have hr' : r' < 2 ^ s := by omega
    obtain ⟨_, e2⟩ := getD_segments_loop (2 ^ s) hh t 0 b r' hr' hblock
    have e : b * (2 * 2 ^ s) + (r' + 2 ^ s) = 0 + b * (2 * 2 ^ s) + r' + 2 ^ s := by ring
    rw [e, e2, omega_segment _ hh, hev r' hr', hod r' hr', dft_double_upper _ hh]

theorem getD_stages_loop (x : Nat → ℂ) (q s : Nat) (t : List ℂ) (n : Nat) (hn : 0 < n)
    (hn2 : n = 2 * 2 ^ s) (hlen : t.length = 2 ^ (s + q)) (hinv : StageInv x s q t) :
    (stages_loop t n hn).length = 2 ^ (s + q)
      ∧ ∀ r, r < 2 ^ (s + q) → (stages_loop t n hn).getD r 0 = dft (2 ^ (s + q)) x r := by
  induction q generalizing s t n with
  | zero =>
    have hlt : ¬ n ≤ t.length := by
      rw [hlen, hn2, Nat.add_zero]
      have : 0 < 2 ^ s := by positivity
      omega
    rw [stages_loop, dif_neg hlt]
    refine ⟨hlen, ?_⟩
    intro r hr
    have h1 := hinv 0 (by simp) r (by simpa using hr)
    simp only [Nat.zero_mul, Nat.zero_add, reverse_bits, pow_zero, Nat.mul_one] at h1
    simpa using h1
  | succ q ih =>
    have hle : n ≤ t.length := by
      rw [hlen, hn2]
      have e : 2 ^ (s + (q + 1)) = 2 ^ q * (2 * 2 ^ s) := by ring
      rw [e]
      exact Nat.le_mul_of_pos_left _ (by positivity)
    have e : s + (q + 1) = s + 1 + q := by ring
    rw [stages_loop, dif_pos hle, e]
    exact ih (s + 1) (segments_loop n hn t 0) (n * 2) (by omega) (by rw [hn2]; ring)
      (by rw [length_segments_loop, hlen, e])
      (stageInv_step x s q t n hn hn2 (by rw [hlen]; ring_nf) hinv)

theorem length_window_and_sort (self : State) (power : Nat) (signal t : List ℂ) :
    (window_and_sort self power signal t).length = t.length :=
  length_foldl_set _ _ _ _

/-- The window loop of `transform` establishes the invariant for stage `0`. -/
theorem stageInv_window_and_sort (self : State) (power : Nat) (signal : List ℂ)
    (hlen : signal.length = 2 ^ power) :
    StageInv
      (fun i => signal.getD i 0 * ((self.window_ (i : Int) (signal.length : Int) : ℝ) : ℂ))
      0 power (window_and_sort self power signal (List.replicate signal.length 0)) := by
  intro b hb r hr
  have hr0 : r = 0 := by simpa using hr
  subst hr0
  have key := getD_foldl_set (fun i => reverse_bits i power)
    (fun i => signal.getD i 0 * ((self.window_ (i : Int) (signal.length : Int) : ℝ) : ℂ))
    signal.length (List.replicate signal.length 0)
    (fun i _ => by rw [List.length_replicate, hlen]; exact reverse_bits_lt _ _)
    (fun i hi k hk hik => by
      have h1 := reverse_bits_involutive power i (by rw [← hlen]; exact hi)
      have h2 := reverse_bits_involutive power k (by rw [← hlen]; exact hk)
      have h3 : reverse_bits (reverse_bits i power) power
          = reverse_bits (reverse_bits k power) power := by
        show reverse_bits ((fun i => reverse_bits i power) i) power = _
        rw [hik]
      rw [h1, h2] at h3
      exact h3)
    (reverse_bits b power) (by rw [hlen]; exact reverse_bits_lt _ _)
  simp only [reverse_bits_involutive power b hb] at key
  simp only [pow_zero, Nat.mul_one, Nat.add_zero, dft_one, Nat.zero_mul]
  exact key

end Spectrograph

/-! ## Padding to a power of two, and the iterative transform as a whole -/

namespace Spectrograph

theorem pad_to_power2_loop_spec (min_size : Int) (k : Nat) (new_size : Int)
    (hpos : 0 < new_size) (hns : new_size = 2 ^ k) :
    ∃ m, k ≤ m ∧ pad_to_power2_loop min_size new_size k hpos = ((2 : Int) ^ m, m)
      ∧ min_size ≤ 2 ^ m ∧ (m = k ∨ (2 : Int) ^ (m - 1) < min_size) := by
  generalize hd : (min_size - new_size).toNat = d
  induction d using Nat.strong_induction_on generalizing k new_size with
  | _ d ih =>
    rw [pad_to_power2_loop]
    split
    · next hlt =>
      obtain ⟨m, hkm, hres, hle, hm⟩ := ih (min_size - new_size * 2).toNat (by omega) (k + 1)
        (new_size * 2) (by omega) (by rw [hns, pow_succ]) rfl
      refine ⟨m, by omega, hres, hle, Or.inr ?_⟩
      rcases hm with hm | hm
      · rw [hm, Nat.add_sub_cancel, ← hns]
        exact hlt
      · exact hm
    · next hge =>
      exact ⟨k, le_refl k, by rw [hns], by omega, Or.inl rfl⟩

theorem pad_of_le (signal : List ℂ) (m : Nat) (hle : signal.length ≤ 2 ^ m) :
    pad signal ((2 : Int) ^ m) = signal ++ List.replicate (2 ^ m - signal.length) 0 := by
  unfold pad
  have hc : ((2 : Int) ^ m) = ((2 ^ m : ℕ) : Int) := by push_cast; rfl
  rw [hc]
  split
  · congr 2
    omega
  · next hn =>
    have : 2 ^ m - signal.length = 0 := by omega
    rw [this]
    simp

/-- What `pad_to_power2(signal, signal.size())` does: it appends zeros up to the
length `2^m`, with `m ≥ 1` the least exponent such that `2^m ≥ max(2, signal.size())`,
and returns `m`. -/
theorem pad_to_power2_spec (signal : List ℂ) :
    ∃ m, 1 ≤ m ∧ signal.length ≤ 2 ^ m ∧ (m = 1 ∨ 2 ^ (m - 1) < signal.length)
      ∧ pad_to_power2 signal (signal.length : Int)
          = (signal ++ List.replicate (2 ^ m - signal.length) 0, m) := by
  obtain ⟨m, hm, hres, hle, hmin⟩ :=
    pad_to_power2_loop_spec (signal.length : Int) 1 2 (by decide) (by norm_num)
  have hle' : signal.length ≤ 2 ^ m := by exact_mod_cast hle
  refine ⟨m, hm, hle', ?_, ?_⟩
  · rcases hmin with h | h
    · exact Or.inl h
    · exact Or.inr (by exact_mod_cast h)
  · unfold pad_to_power2
    rw [hres]
    simp only
    rw [pad_of_le signal m hle']

/-- The result of `transform` with a negative `min_size`, for a signal of any length:
the transform of the zero-padded, windowed signal. -/
theorem transform_spec (self : State) (signal : List ℂ) (min_size : Int)
    (hmin : min_size < 0) :
    ∃ m, 1 ≤ m ∧ signal.length ≤ 2 ^ m ∧ (m = 1 ∨ 2 ^ (m - 1) < signal.length)
      ∧ pad_to_power2 signal (signal.length : Int)
          = (signal ++ List.replicate (2 ^ m - signal.length) 0, m)
      ∧ (transform self signal min_size).length = 2 ^ m
      ∧ ∀ k, k < 2 ^ m → (transform self signal min_size).getD k 0
          = dft (2 ^ m)
              (fun i => (signal ++ List.replicate (2 ^ m - signal.length) 0).getD i 0
                * ((self.window_ (i : Int) ((2 ^ m : ℕ) : Int) : ℝ) : ℂ)) k := by
  obtain ⟨m, hm, hle, hmin', hpad⟩ := pad_to_power2_spec signal
  refine ⟨m, hm, hle, hmin', hpad, ?_⟩
  have hlen : (signal ++ List.replicate (2 ^ m - signal.length) (0 : ℂ)).length = 2 ^ m := by
    rw [List.length_append, List.length_replicate]
    omega
  have hinv := stageInv_window_and_sort self m _ hlen
  have hmain := getD_stages_loop _ m 0 _ 2 (by decide) (by norm_num)
    (by rw [length_window_and_sort, List.length_replicate, Nat.zero_add]; exact hlen) hinv
  have hm0 : m ≠ 0 := by omega
  unfold transform
  simp only [if_pos hmin, hpad, if_neg hm0]
  rw [Nat.zero_add] at hmain
  obtain ⟨h1, h2⟩ := hmain
  refine ⟨h1, fun k hk => ?_⟩
  rw [h2 k hk, hlen]

theorem dft_eq_sum_exp (n : Nat) (y : Nat → ℂ) (k : Nat) :
    dft n y k = ∑ j in Finset.range n,
      y j * Complex.exp (-(2 * (Real.pi : ℂ) * Complex.I * (j : ℂ) * (k : ℂ)) / (n : ℂ)) := by
  unfold dft zeta
  apply Finset.sum_congr rfl
  intro j _
  rw [← Complex.exp_nat_mul]
  congr 2
  push_cast
  ring

end Spectrograph

/-! ## Claims about `transform` -/

namespace Spectrograph

/-- C1: for a signal whose length `N` is a power of two, `N ≥ 2`, and any real window
`window_`, `transform` with a negative `min_size` (the default) returns a buffer of the
same length `N` whose entry `k` is the windowed discrete Fourier transform in natural
order: the sum over `j < N` of `signal[j] * window_(j, N) * e^(-2πi·j·k/N)`. -/
theorem transform_is_windowed_dft (self : State) (signal : List complex_d) (p : Nat)
    (hp : 1 ≤ p) (hN : signal.length = 2 ^ p) (min_size : Int) (hmin : min_size < 0) :
    (transform self signal min_size).length = signal.length
      ∧ ∀ k, k < signal.length →
        (transform self signal min_size).getD k 0
          = ∑ j in Finset.range signal.length,
              signal.getD j 0 * ((self.window_ (j : Int) (signal.length : Int) : ℝ) : ℂ)
                * Complex.exp (-(2 * (Real.pi : ℂ) * Complex.I * (j : ℂ) * (k : ℂ))
                    / (signal.length : ℂ)) := by
  obtain ⟨m, hm, hle, hmin', _, hlen, hval⟩ := transform_spec self signal min_size hmin
  have hmp : m = p := by
    rw [hN] at hle hmin'
    have h1 : p ≤ m := (Nat.pow_le_pow_iff_right (by decide)).mp hle
    rcases hmin' with h | h
    · omega
    · have h2 : m - 1 < p := (Nat.pow_lt_pow_iff_right (by decide)).mp h
      omega
  subst hmp
  have hz : 2 ^ m - signal.length = 0 := by omega
  rw [hz, List.replicate_zero, List.append_nil, ← hN] at hval
  rw [← hN] at hlen
  refine ⟨hlen, fun k hk => ?_⟩
  rw [hval k hk, dft_eq_sum_exp]

theorem transform_is_windowed_dft_witness :
    (1 ≤ 1 ∧ ([1, 1] : List complex_d).length = 2 ^ 1 ∧ default_min_size < 0)
      ∧ ((transform ⟨[], [], fun _ _ => 1, 1⟩ [1, 1] default_min_size).length
            = ([1, 1] : List complex_d).length
        ∧ ∀ k, k < ([1, 1] : List complex_d).length →
          (transform ⟨[], [], fun _ _ => 1, 1⟩ [1, 1] default_min_size).getD k 0
            = ∑ j in Finset.range ([1, 1] : List complex_d).length,
                ([1, 1] : List complex_d).getD j 0
                  * (((fun _ _ => 1 : Int → Int → ℝ) (j : Int)
                      (([1, 1] : List complex_d).length : Int) : ℝ) : ℂ)
                  * Complex.exp (-(2 * (Real.pi : ℂ) * Complex.I * (j : ℂ) * (k : ℂ))
                      / (([1, 1] : List complex_d).length : ℂ))) :=
  ⟨⟨by decide, rfl, by decide⟩,
    transform_is_windowed_dft ⟨[], [], fun _ _ => 1, 1⟩ [1, 1] 1 (by decide) rfl
      default_min_size (by decide)⟩

end Spectrograph

/-! ## The recursive transform -/

namespace Spectrograph

theorem eq_of_getD_eq (l₁ l₂ : List ℂ) (hl : l₁.length = l₂.length)
    (h : ∀ k, k < l₁.length → l₁.getD k 0 = l₂.getD k 0) : l₁ = l₂ := by
  apply List.ext_getElem hl
  intro n h₁ h₂
  have := h n h₁
  rwa [List.getD_eq_getElem _ _ h₁, List.getD_eq_getElem _ _ h₂] at this

theorem dft_congr (n : Nat) (y z : Nat → ℂ) (k : Nat) (h : ∀ i, i < n → y i = z i) :
    dft n y k = dft n z k := by
  unfold dft
  apply Finset.sum_congr rfl
  intro i hi
  rw [h i (Finset.mem_range.mp hi)]

theorem split_even_odd_aux (signal : List ℂ) (k : Nat) :
    ((List.range k).foldl
        (fun (acc : List ℂ × List ℂ) i =>
          if i % 2 ≠ 0 then (acc.1, acc.2 ++ [signal.getD i 0])
          else (acc.1 ++ [signal.getD i 0], acc.2))
        ([], [])).1.length = (k + 1) / 2
    ∧ ((List.range k).foldl
        (fun (acc : List ℂ × List ℂ) i =>
          if i % 2 ≠ 0 then (acc.1, acc.2 ++ [signal.getD i 0])
          else (acc.1 ++ [signal.getD i 0], acc.2))
        ([], [])).2.length = k / 2
    ∧ (∀ u, u < (k + 1) / 2 →
        ((List.range k).foldl
          (fun (acc : List ℂ × List ℂ) i =>
            if i % 2 ≠ 0 then (acc.1, acc.2 ++ [signal.getD i 0])
            else (acc.1 ++ [signal.getD i 0], acc.2))
          ([], [])).1.getD u 0 = signal.getD (2 * u) 0)
    ∧ (∀ u, u < k / 2 →
        ((List.range k).foldl
          (fun (acc : List ℂ × List ℂ) i =>
            if i % 2 ≠ 0 then (acc.1, acc.2 ++ [signal.getD i 0])
            else (acc.1 ++ [signal.getD i 0], acc.2))
          ([], [])).2.getD u 0 = signal.getD (2 * u + 1) 0) := by
  induction k with
  | zero =>
    refine ⟨rfl, rfl, ?_, ?_⟩ <;> intro u hu <;> omega
  | succ k ih =>
    rw [List.range_succ, List.foldl_append, List.foldl_cons, List.foldl_nil]
    generalize (List.range k).foldl
        (fun (acc : List ℂ × List ℂ) i =>
          if i % 2 ≠ 0 then (acc.1, acc.2 ++ [signal.getD i 0])
          else (acc.1 ++ [signal.getD i 0], acc.2))
        ([], []) = acc at ih ⊢
    obtain ⟨h1, h2, h3, h4⟩ := ih
    by_cases hk : k % 2 ≠ 0
    · rw [if_pos hk]
      refine ⟨?_, ?_, ?_, ?_⟩
      · show acc.1.length = _
        omega
      · show (acc.2 ++ _).length = _
        rw [List.length_append, List.length_singleton]
        omega
      · intro u hu
        exact h3 u (by omega)
      · intro u hu
        simp only []
        by_cases hu2 : u < k / 2
        · rw [List.getD_append _ _ _ _ (by omega)]
          exact h4 u hu2
        · rw [List.getD_append_right _ _ _ _ (by omega)]
          have e1 : u - acc.2.length = 0 := by omega
          have e2 : 2 * u + 1 = k := by omega
          rw [e1, e2]
          rfl
    · rw [if_neg hk]
      refine ⟨?_, ?_, ?_, ?_⟩
      · show (acc.1 ++ _).length = _
        rw [List.length_append, List.length_singleton]
        omega
      · show acc.2.length = _
        omega
      · intro u hu
        simp only []
        by_cases hu2 : u < (k + 1) / 2
        · rw [List.getD_append _ _ _ _ (by omega)]
          exact h3 u hu2
        · rw [List.getD_append_right _ _ _ _ (by omega)]
          have e1 : u - acc.1.length = 0 := by omega
          have e2 : 2 * u = k := by omega
          rw [e1, e2]
          rfl
      · intro u hu
        exact h4 u (by omega)

/-- The split of `_transform`: `f_even` holds the entries of even index and `f_odd`
those of odd index. -/
theorem split_even_odd_spec (signal : List ℂ) (h : Nat) (hlen : signal.length = 2 * h) :
    (split_even_odd signal).1.length = h ∧ (split_even_odd signal).2.length = h
    ∧ (∀ u, u < h → (split_even_odd signal).1.getD u 0 = signal.getD (2 * u) 0)
    ∧ (∀ u, u < h → (split_even_odd signal).2.getD u 0 = signal.getD (2 * u + 1) 0) := by
  obtain ⟨h1, h2, h3, h4⟩ := split_even_odd_aux signal signal.length
  unfold split_even_odd
  refine ⟨by rw [h1]; omega, by rw [h2]; omega, fun u hu => h3 u (by omega),
    fun u hu => h4 u (by omega)⟩

theorem length_foldl_merge_step (n : Nat) (e o : List ℂ) (l : List Nat) (t : List ℂ) :
    (l.foldl (merge_step n e o) t).length = t.length := by
  induction l generalizing t with
  | nil => rfl
  | cons a l ih => simp [List.foldl_cons, ih, merge_step]

theorem getD_foldl_merge_step (n h : Nat) (hn : n / 2 = h) (e o t : List ℂ) (c : Nat)
    (hc : c ≤ h) (hlen : h + c ≤ t.length) (j : Nat) :
    ((List.range c).foldl (merge_step n e o) t).getD j 0
      = if j < c then e.getD j 0 + omega (n : ℝ) (-(j : ℝ)) * o.getD j 0
        else if h ≤ j ∧ j < h + c then
          e.getD (j - h) 0 - omega (n : ℝ) (-((j - h : ℕ) : ℝ)) * o.getD (j - h) 0
        else t.getD j 0 := by
  induction c generalizing j with
  | zero =>
    have a2 : ¬ (h ≤ j ∧ j < h + 0) := by omega
    simp only [List.range_zero, List.foldl_nil, Nat.not_lt_zero, if_false, if_neg a2]
  | succ c ih =>
    rw [List.range_succ, List.foldl_append, List.foldl_cons, List.foldl_nil]
    have e3 := ih (by omega) (by omega) j
    have hs := length_foldl_merge_step n e o (List.range c) t
    generalize (List.range c).foldl (merge_step n e o) t = s at e3 hs ⊢
    unfold merge_step
    simp only [hn]
    rw [getD_set, getD_set, List.length_set, hs, e3]
    by_cases h1 : j = c
    · subst h1
      have a1 : ¬ (j + h = j ∧ j + h < t.length) := by omega
      rw [if_neg a1, if_pos ⟨rfl, by omega⟩, if_pos (by omega)]
    · by_cases h2 : j = c + h
      · subst h2
        have a2 : ¬ (c + h < c + 1) := by omega
        have a3 : c + h - h = c := by omega
        rw [if_pos ⟨rfl, by omega⟩, if_neg a2, if_pos (by omega), a3]
      · have a1 : ¬ (c + h = j ∧ c + h < t.length) := by omega
        have a2 : ¬ (c = j ∧ c < t.length) := by omega
        rw [if_neg a1, if_neg a2]
        by_cases h3 : j < c
        · rw [if_pos h3, if_pos (by omega)]
        · have a3 : ¬ j < c + 1 := by omega
          rw [if_neg h3, if_neg a3]
          by_cases h4 : h ≤ j ∧ j < h + c
          · rw [if_pos h4, if_pos (by omega)]
          · have a4 : ¬ (h ≤ j ∧ j < h + (c + 1)) := by omega
            rw [if_neg h4, if_neg a4]

/-- The recursive `_transform` computes the discrete Fourier transform of a signal
whose length is a power of two, when its recursion depth is within the fuel. -/
theorem transform_rec_spec (p : Nat) :
    ∀ (fuel : Nat) (signal : List ℂ), p + 1 ≤ fuel → signal.length = 2 ^ p →
      ∃ out, _transform fuel signal = some out ∧ out.length = 2 ^ p
        ∧ ∀ k, k < 2 ^ p → out.getD k 0 = dft (2 ^ p) (fun i => signal.getD i 0) k := by
  induction p with
  | zero =>
    intro fuel signal hfuel hlen
    obtain ⟨f, rfl⟩ : ∃ f, fuel = f + 1 := ⟨fuel - 1, by omega⟩
    refine ⟨signal, ?_, hlen, ?_⟩
    · rw [_transform]
      simp only [pow_zero] at hlen
      simp only [hlen, if_true]
    · intro k hk
      have hk0 : k = 0 := by simpa using hk
      subst hk0
      rw [pow_zero, dft_one]
  | succ p ih =>
    intro fuel signal hfuel hlen
    obtain ⟨f, rfl⟩ : ∃ f, fuel = f + 1 := ⟨fuel - 1, by omega⟩
    have hh : 0 < 2 ^ p := by positivity
    have hlen2 : signal.length = 2 * 2 ^ p := by rw [hlen, pow_succ]; ring
    obtain ⟨s1, s2, s3, s4⟩ := split_even_odd_spec signal (2 ^ p) hlen2
    obtain ⟨oe, he, hel, hev⟩ := ih f (split_even_odd signal).1 (by omega) s1
    obtain ⟨oo, ho, hol, hov⟩ := ih f (split_even_odd signal).2 (by omega) s2
    have hne : signal.length ≠ 1 := by omega
    refine ⟨merge_halves signal.length oe oo signal, ?_, ?_, ?_⟩
    · rw [_transform]
      simp only [hne, if_false, he, ho]
    · unfold merge_halves
      rw [length_foldl_merge_step, hlen]
    · intro k hk
      have hhalf : signal.length / 2 = 2 ^ p := by omega
      unfold merge_halves
      rw [hhalf, getD_foldl_merge_step signal.length (2 ^ p) hhalf oe oo signal (2 ^ p)
        (le_refl _) (by omega) k]
      have e1 : dft (2 ^ p) (fun u => (fun i => signal.getD i 0) (2 * u))
          = dft (2 ^ p) (fun i => (split_even_odd signal).1.getD i 0) := by
        funext r
        exact dft_congr _ _ _ _ (fun i hi => (s3 i hi).symm)
      have e2 : dft (2 ^ p) (fun u => (fun i => signal.getD i 0) (2 * u + 1))
          = dft (2 ^ p) (fun i => (split_even_odd signal).2.getD i 0) := by
        funext r
        exact dft_congr _ _ _ _ (fun i hi => (s4 i hi).symm)
      have hpow : 2 ^ (p + 1) = 2 * 2 ^ p := by ring
      have hcast : signal.length = 2 * 2 ^ p := hlen2
      rw [hpow] at hk ⊢
      by_cases hlt : k < 2 ^ p
      · rw [if_pos hlt, hev k hlt, hov k hlt, dft_double, e1, e2, omega_neg_eq_zeta_pow, hcast]
      · obtain ⟨r, rfl⟩ : ∃ r, k = r + 2 ^ p := ⟨k - 2 ^ p, by omega⟩
        have hr : r < 2 ^ p := by omega
        have e3 : r + 2 ^ p - 2 ^ p = r := by omega
        rw [if_neg hlt, if_pos (by omega), e3, hev r hr, hov r hr, dft_double_upper _ hh,
          e1, e2, omega_neg_eq_zeta_pow, hcast]

theorem length_foldl_apply_window (w : Int → Int → ℝ) (l : List Nat) (t : List ℂ) :
    (l.foldl (fun (s : List ℂ) i => s.set i (s.getD i 0 * ((w (i : Int) (s.length : Int) : ℝ) : ℂ)))
      t).length = t.length := by
  induction l generalizing t with
  | nil => rfl
  | cons a l ih => rw [List.foldl_cons, ih, List.length_set]

theorem getD_foldl_apply_window (w : Int → Int → ℝ) (t : List ℂ) (c : Nat)
    (hc : c ≤ t.length) (j : Nat) :
    ((List.range c).foldl
      (fun (s : List ℂ) i => s.set i (s.getD i 0 * ((w (i : Int) (s.length : Int) : ℝ) : ℂ)))
      t).getD j 0
      = if j < c then t.getD j 0 * ((w (j : Int) (t.length : Int) : ℝ) : ℂ) else t.getD j 0 := by
  induction c generalizing j with
  | zero => simp
  | succ c ih =>
    rw [List.range_succ, List.foldl_append, List.foldl_cons, List.foldl_nil]
    have e1 := ih (by omega) c
    have e3 := ih (by omega) j
    have hs := length_foldl_apply_window w (List.range c) t
    generalize (List.range c).foldl
      (fun (s : List ℂ) i => s.set i (s.getD i 0 * ((w (i : Int) (s.length : Int) : ℝ) : ℂ)))
      t = s at e1 e3 hs ⊢
    rw [getD_set, hs, e1, e3, if_neg (lt_irrefl c)]
    by_cases h1 : j = c
    · subst h1
      rw [if_pos ⟨rfl, by omega⟩, if_pos (by omega)]
    · have a1 : ¬ (c = j ∧ c < t.length) := by omega
      rw [if_neg a1]
      by_cases h2 : j < c
      · rw [if_pos h2, if_pos (by omega)]
      · rw [if_neg h2, if_neg (by omega)]

/-- The window loop of `transform_recursive` multiplies every entry by its weight. -/
theorem apply_window_spec (self : State) (signal : List ℂ) :
    (apply_window self signal).length = signal.length
      ∧ ∀ i, i < signal.length → (apply_window self signal).getD i 0
          = signal.getD i 0 * ((self.window_ (i : Int) (signal.length : Int) : ℝ) : ℂ) := by
  unfold apply_window
  refine ⟨length_foldl_apply_window _ _ _, fun i hi => ?_⟩
  rw [getD_foldl_apply_window self.window_ signal signal.length (le_refl _) i, if_pos hi]

/-- C4: in exact arithmetic the iterative `transform` (negative `min_size`, the
default) and the recursive `transform_recursive` produce the same spectrum for every
signal, in particular for every non-empty one: as soon as the fuel covers the recursion
depth (`signal.size() + 2` is enough), `transform_recursive` returns the very list
that `transform` returns, so the lengths agree and so does every entry. -/
theorem transform_recursive_eq_transform (self : State) (signal : List complex_d)
    (min_size : Int) (hmin : min_size < 0) (fuel : Nat) (hfuel : signal.length + 2 ≤ fuel) :
    transform_recursive fuel self signal = some (transform self signal min_size) := by
  obtain ⟨m, hm, hle, hmin', hpad, hlen, hval⟩ := transform_spec self signal min_size hmin
  have hplen : (signal ++ List.replicate (2 ^ m - signal.length) (0 : ℂ)).length = 2 ^ m := by
    rw [List.length_append, List.length_replicate]
    omega
  obtain ⟨hwl, hwv⟩ :=
    apply_window_spec self (signal ++ List.replicate (2 ^ m - signal.length) (0 : ℂ))
  have hmf : m + 1 ≤ fuel := by
    rcases hmin' with h | h
    · omega
    · have : m - 1 < 2 ^ (m - 1) := Nat.lt_two_pow _
      omega
  obtain ⟨out, hout, houtl, houtv⟩ := transform_rec_spec m fuel _ hmf (hwl.trans hplen)
  unfold transform_recursive
  simp only [hpad]
  rw [hout]
  congr 1
  apply eq_of_getD_eq _ _ (houtl.trans hlen.symm)
  intro k hk
  rw [houtl] at hk
  rw [houtv k hk, hval k hk]
  apply dft_congr
  intro i hi
  rw [hwv i (by omega), hplen]

theorem transform_recursive_eq_transform_witness :
    (default_min_size < 0 ∧ ([3, 1, 2] : List complex_d).length + 2 ≤ 5)
      ∧ transform_recursive 5 ⟨[], [], fun _ _ => 1, 1⟩ [3, 1, 2]
          = some (transform ⟨[], [], fun _ _ => 1, 1⟩ [3, 1, 2] default_min_size) :=
  ⟨⟨by decide, by decide⟩,
    transform_recursive_eq_transform ⟨[], [], fun _ _ => 1, 1⟩ [3, 1, 2] default_min_size
      (by decide) 5 (by decide)⟩

end Spectrograph

/-! ## The step, the padding of the waveform and the chunking -/

namespace Spectrograph

theorem truncate_of_nonneg {α : Type} [LinearOrderedField α] [FloorRing α] (x : α)
    (hx : 0 ≤ x) : truncate x = ⌊x⌋ := by
  unfold truncate
  rw [if_pos hx]

theorem floor_le_round_half_even (q : ℚ) : ⌊q⌋ ≤ round_half_even q := by
  unfold round_half_even
  split_ifs <;> omega

theorem round_half_even_le_ceil (q : ℚ) : round_half_even q ≤ ⌈q⌉ := by
  unfold round_half_even
  have hfl : (⌊q⌋ : ℚ) ≤ q := Int.floor_le q
  split_ifs with h1 h2 h3
  · exact Int.floor_le_ceil q
  · have : (⌊q⌋ : ℚ) < q := by linarith
    have : ⌊q⌋ < ⌈q⌉ := by
      rw [Int.lt_ceil]; exact this
    omega
  · exact Int.floor_le_ceil q
  · have : (⌊q⌋ : ℚ) < q := by linarith
    have : ⌊q⌋ < ⌈q⌉ := by
      rw [Int.lt_ceil]; exact this
    omega

/-- Rounding to the nearest integer does not pass an integer above. -/
theorem round_half_even_le_of_le (q : ℚ) (m : Int) (h : q ≤ (m : ℚ)) :
    round_half_even q ≤ m :=
  le_trans (round_half_even_le_ceil q) (Int.ceil_le.mpr h)

/-- Rounding to the nearest integer does not pass an integer below. -/
theorem le_round_half_even_of_le (q : ℚ) (m : Int) (h : (m : ℚ) ≤ q) :
    m ≤ round_half_even q :=
  le_trans (Int.le_floor.mpr h) (floor_le_round_half_even q)

theorem round_half_even_intCast (m : Int) : round_half_even (m : ℚ) = m :=
  le_antisymm (round_half_even_le_of_le _ _ le_rfl) (le_round_half_even_of_le _ _ le_rfl)

theorem ulp_pos (x : ℚ) : 0 < ulp x := by
  unfold ulp
  positivity

theorem pow52_mul_ulp (x : ℚ) :
    ((2 ^ 52 : Int) : ℚ) * ulp x = (2 : ℚ) ^ (Int.log 2 |x|) := by
  unfold ulp
  rw [zpow_sub₀ (by norm_num)]
  norm_num
  field_simp

theorem round_double_nonneg (x : ℚ) (hx : 0 ≤ x) : 0 ≤ round_double x := by
  unfold round_double
  split_ifs with h0
  · exact le_rfl
  · apply mul_nonneg _ (ulp_pos x).le
    have : (0 : Int) ≤ round_half_even (x / ulp x) := by
      apply le_round_half_even_of_le
      simpa using div_nonneg hx (ulp_pos x).le
    exact_mod_cast this

/-- A power of two is a `double`: rounding leaves it as it is. -/
theorem round_double_zpow (t : Int) : round_double (2 ^ t) = 2 ^ t := by
  unfold round_double
  have hne : (2 : ℚ) ^ t ≠ 0 := by positivity
  rw [if_neg hne]
  have hu : ulp (2 ^ t) = 2 ^ (t - 52) := by
    unfold ulp
    rw [abs_of_pos (by positivity)]
    have := Int.log_zpow (R := ℚ) (b := 2) (by norm_num) t
    simp only [Nat.cast_ofNat] at this
    rw [this]
  rw [hu]
  have hq : (2 : ℚ) ^ t / 2 ^ (t - 52) = ((2 ^ 52 : Int) : ℚ) := by
    rw [← zpow_sub₀ (by norm_num)]
    have : t - (t - 52) = 52 := by ring
    rw [this]
    norm_num
  rw [hq, round_half_even_intCast]
  rw [← hq]
  field_simp

/-- An integer below `2^53` is a `double`, and rounding to nearest does not pass it:
a result of at most `c` is rounded to at most `c`. -/
theorem round_double_le_intCast (x : ℚ) (c : Int) (hx : 0 ≤ x) (hxc : x ≤ (c : ℚ))
    (hc : c < 2 ^ 53) : round_double x ≤ (c : ℚ) := by
  unfold round_double
  split_ifs with h0
  · rw [h0] at hxc
    exact hxc
  · have hpos : 0 < x := lt_of_le_of_ne hx (Ne.symm h0)
    have hlog : Int.log 2 |x| ≤ 52 := by
      rw [abs_of_pos hpos]
      have h1 : x < (2 : ℚ) ^ (53 : Int) := by
        have : (c : ℚ) < ((2 ^ 53 : Int) : ℚ) := by exact_mod_cast hc
        have h2 : ((2 ^ 53 : Int) : ℚ) = (2 : ℚ) ^ (53 : Int) := by norm_num
        linarith
      have := (Int.lt_zpow_iff_log_lt (R := ℚ) (b := 2) (by norm_num) hpos).mp
        (by simpa using h1)
      omega
    obtain ⟨j, hj⟩ : ∃ j : Nat, Int.log 2 |x| - 52 = -(j : Int) :=
      ⟨(52 - Int.log 2 |x|).toNat, by omega⟩
    have hu : ulp x = ((2 : ℚ) ^ j)⁻¹ := by
      unfold ulp
      rw [hj, zpow_neg, zpow_natCast]
    have hupos := ulp_pos x
    have hle : round_half_even (x / ulp x) ≤ c * 2 ^ j := by
      apply round_half_even_le_of_le
      rw [hu, div_inv_eq_mul]
      push_cast
      exact mul_le_mul_of_nonneg_right hxc (by positivity)
    have hle2 : (round_half_even (x / ulp x) : ℚ) ≤ ((c * 2 ^ j : Int) : ℚ) := by
      exact_mod_cast hle
    calc (round_half_even (x / ulp x) : ℚ) * ulp x
        ≤ ((c * 2 ^ j : Int) : ℚ) * ulp x := mul_le_mul_of_nonneg_right hle2 hupos.le
      _ = (c : ℚ) := by
          rw [hu]
          push_cast
          field_simp

/-- A power of two is a `double`, and rounding to nearest does not pass it: a result of
at least `2^t` is rounded to at least `2^t`. -/
theorem zpow_le_round_double (x : ℚ) (t : Int) (h : (2 : ℚ) ^ t ≤ x) :
    (2 : ℚ) ^ t ≤ round_double x := by
  have hpos : 0 < x := lt_of_lt_of_le (by positivity) h
  unfold round_double
  rw [if_neg hpos.ne.symm]
  have habs : |x| = x := abs_of_pos hpos
  have hlog : t ≤ Int.log 2 |x| := by
    rw [habs]
    exact (Int.zpow_le_iff_le_log (R := ℚ) (b := 2) (by norm_num) hpos).mp (by simpa using h)
  have hself : (2 : ℚ) ^ (Int.log 2 |x|) ≤ x := by
    have := Int.zpow_log_le_self (R := ℚ) (b := 2) (by norm_num) hpos
    rw [habs]
    simpa using this
  have hupos := ulp_pos x
  have hq : ((2 ^ 52 : Int) : ℚ) ≤ x / ulp x := by
    rw [le_div_iff₀ hupos, pow52_mul_ulp]
    exact hself
  have hr := le_round_half_even_of_le _ _ hq
  have hr2 : ((2 ^ 52 : Int) : ℚ) ≤ (round_half_even (x / ulp x) : ℚ) := by exact_mod_cast hr
  calc (2 : ℚ) ^ t ≤ (2 : ℚ) ^ (Int.log 2 |x|) := zpow_le_zpow_right₀ (by norm_num) hlog
    _ = ((2 ^ 52 : Int) : ℚ) * ulp x := (pow52_mul_ulp x).symm
    _ ≤ (round_half_even (x / ulp x) : ℚ) * ulp x := mul_le_mul_of_nonneg_right hr2 hupos.le

theorem log_eq_of_bounds (x : ℚ) (e : Int) (h1 : (2 : ℚ) ^ e ≤ x)
    (h2 : x < (2 : ℚ) ^ (e + 1)) : Int.log 2 |x| = e := by
  have hpos : 0 < x := lt_of_lt_of_le (by positivity) h1
  rw [abs_of_pos hpos]
  have a := (Int.zpow_le_iff_le_log (R := ℚ) (b := 2) (by norm_num) hpos).mp (by simpa using h1)
  have b := (Int.lt_zpow_iff_log_lt (R := ℚ) (b := 2) (by norm_num) hpos).mp (by simpa using h2)
  omega

theorem round_double_sub_nonneg (OVERLAP : ℚ) (hO : OVERLAP < 1) :
    0 ≤ round_double (1 - OVERLAP) :=
  round_double_nonneg _ (by linarith)

theorem round_double_sub_le_one (OVERLAP : ℚ) (hO0 : 0 ≤ OVERLAP) (hO : OVERLAP < 1) :
    round_double (1 - OVERLAP) ≤ 1 := by
  have := round_double_le_intCast (1 - OVERLAP) 1 (by linarith) (by push_cast; linarith)
    (by norm_num)
  simpa using this

/-- A subtraction that rounds: `1.0 - 2^-60` is `1.0` in double precision. -/
theorem round_double_sub_tiny : round_double (1 - 1 / 2 ^ 60) = 1 := by
  have hlog : Int.log 2 |(1 : ℚ) - 1 / 2 ^ 60| = -1 :=
    log_eq_of_bounds _ _ (by norm_num) (by norm_num)
  unfold round_double
  rw [if_neg (by norm_num)]
  unfold ulp
  rw [hlog]
  have hfl : ⌊((1 : ℚ) - 1 / 2 ^ 60) / 2 ^ ((-1 : Int) - 52)⌋ = 2 ^ 53 - 1 := by
    rw [Int.floor_eq_iff]
    norm_num
  have hr : round_half_even (((1 : ℚ) - 1 / 2 ^ 60) / 2 ^ ((-1 : Int) - 52)) = 2 ^ 53 := by
    unfold round_half_even
    rw [hfl]
    norm_num
  rw [hr]
  norm_num

theorem STEP_eq_floor (CHUNK_SIZE : Int) (OVERLAP : ℚ) (hC : 0 ≤ CHUNK_SIZE)
    (hO : OVERLAP < 1) :
    STEP CHUNK_SIZE OVERLAP
      = ⌊round_double ((CHUNK_SIZE : ℚ) * round_double (1 - OVERLAP))⌋ := by
  unfold STEP
  apply truncate_of_nonneg
  apply round_double_nonneg
  have h1 : (0 : ℚ) ≤ (CHUNK_SIZE : ℚ) := by exact_mod_cast hC
  exact mul_nonneg h1 (round_double_sub_nonneg OVERLAP hO)

theorem STEP_nonneg (CHUNK_SIZE : Int) (OVERLAP : ℚ) (hC : 0 ≤ CHUNK_SIZE)
    (hO : OVERLAP < 1) : 0 ≤ STEP CHUNK_SIZE OVERLAP := by
  rw [STEP_eq_floor _ _ hC hO]
  apply Int.floor_nonneg.mpr
  apply round_double_nonneg
  have h1 : (0 : ℚ) ≤ (CHUNK_SIZE : ℚ) := by exact_mod_cast hC
  exact mul_nonneg h1 (round_double_sub_nonneg OVERLAP hO)

/-- The step is at most `CHUNK_SIZE` when `CHUNK_SIZE` is a `double`, as every `int`
is. -/
theorem STEP_le_CHUNK_SIZE (CHUNK_SIZE : Int) (OVERLAP : ℚ) (hC : 0 ≤ CHUNK_SIZE)
    (hInt : CHUNK_SIZE < 2 ^ 53) (hO0 : 0 ≤ OVERLAP) (hO : OVERLAP < 1) :
    STEP CHUNK_SIZE OVERLAP ≤ CHUNK_SIZE := by
  rw [STEP_eq_floor _ _ hC hO]
  have h1 : (0 : ℚ) ≤ (CHUNK_SIZE : ℚ) := by exact_mod_cast hC
  have h0 := round_double_sub_nonneg OVERLAP hO
  have h2 : (CHUNK_SIZE : ℚ) * round_double (1 - OVERLAP) ≤ (CHUNK_SIZE : ℚ) := by
    have := round_double_sub_le_one OVERLAP hO0 hO
    nlinarith
  have h3 := round_double_le_intCast _ CHUNK_SIZE (mul_nonneg h1 h0) h2 hInt
  have h4 : ((⌊round_double ((CHUNK_SIZE : ℚ) * round_double (1 - OVERLAP))⌋ : Int) : ℚ)
      ≤ (CHUNK_SIZE : ℚ) := le_trans (Int.floor_le _) h3
  exact_mod_cast h4

/-- The step for `CHUNK_SIZE = 1` and `OVERLAP = 0.5`: `1.0 - 0.5` and `1 * 0.5` are
both exactly `0.5`, which truncates to `0`. -/
theorem STEP_one_half : STEP 1 (1 / 2) = 0 := by
  have h1 : (1 : ℚ) - 1 / 2 = 2 ^ (-1 : Int) := by norm_num
  have h2 : ((1 : Int) : ℚ) * 2 ^ (-1 : Int) = 2 ^ (-1 : Int) := by norm_num
  unfold STEP
  rw [h1, round_double_zpow, h2, round_double_zpow, truncate_of_nonneg _ (by positivity),
    Int.floor_eq_iff]
  norm_num

theorem STEP_four_half : STEP 4 (1 / 2) = 2 := by
  have h1 : (1 : ℚ) - 1 / 2 = 2 ^ (-1 : Int) := by norm_num
  have h2 : ((4 : Int) : ℚ) * 2 ^ (-1 : Int) = 2 ^ (1 : Int) := by norm_num
  unfold STEP
  rw [h1, round_double_zpow, h2, round_double_zpow, truncate_of_nonneg _ (by positivity),
    Int.floor_eq_iff]
  norm_num

theorem STEP_1024_half : STEP 1024 (1 / 2) = 512 := by
  have h1 : (1 : ℚ) - 1 / 2 = 2 ^ (-1 : Int) := by norm_num
  have h2 : ((1024 : Int) : ℚ) * 2 ^ (-1 : Int) = 2 ^ (9 : Int) := by norm_num
  unfold STEP
  rw [h1, round_double_zpow, h2, round_double_zpow, truncate_of_nonneg _ (by positivity),
    Int.floor_eq_iff]
  norm_num

theorem STEP_two_zero : STEP 2 0 = 2 := by
  have h1 : (1 : ℚ) - 0 = 2 ^ (0 : Int) := by norm_num
  have h2 : ((2 : Int) : ℚ) * 2 ^ (0 : Int) = 2 ^ (1 : Int) := by norm_num
  unfold STEP
  rw [h1, round_double_zpow, h2, round_double_zpow, truncate_of_nonneg _ (by positivity),
    Int.floor_eq_iff]
  norm_num

/-- The step where the subtraction rounds: for `OVERLAP = 2^-60` the difference
`1.0 - OVERLAP` is the double `1.0`, and the step is `CHUNK_SIZE` itself, although
`CHUNK_SIZE * (1 - OVERLAP)` is below `CHUNK_SIZE` in exact arithmetic. -/
theorem STEP_tiny_overlap : STEP 1024 (1 / 2 ^ 60) = 1024 ∧ STEP 1 (1 / 2 ^ 60) = 1 := by
  have h2 : ((1024 : Int) : ℚ) * 1 = 2 ^ (10 : Int) := by norm_num
  have h3 : ((1 : Int) : ℚ) * 1 = 2 ^ (0 : Int) := by norm_num
  unfold STEP
  rw [round_double_sub_tiny, h2, h3, round_double_zpow, round_double_zpow,
    truncate_of_nonneg _ (by positivity), truncate_of_nonneg _ (by positivity),
    Int.floor_eq_iff, Int.floor_eq_iff]
  norm_num

/-- C6, as the code has it: for an `int` `CHUNK_SIZE > 0` and `0 ≤ OVERLAP < 1` the
step is never negative and never above `CHUNK_SIZE`; it is at least `1` exactly when
the product `CHUNK_SIZE * (1.0 - OVERLAP)`, as the machine computes it in double
precision, is at least `1`, and that is so whenever `OVERLAP ≤ 1 - 2^-j` and
`CHUNK_SIZE ≥ 2^j` for some `j ≥ 0` (for instance `OVERLAP ≤ 0.5` and
`CHUNK_SIZE ≥ 2`). -/
theorem STEP_ge_one_iff (CHUNK_SIZE : Int) (OVERLAP : ℚ) (hC : 0 < CHUNK_SIZE)
    (hInt : CHUNK_SIZE < 2 ^ 31) (hO0 : 0 ≤ OVERLAP) (hO : OVERLAP < 1) :
    0 ≤ STEP CHUNK_SIZE OVERLAP ∧ STEP CHUNK_SIZE OVERLAP ≤ CHUNK_SIZE
      ∧ (1 ≤ STEP CHUNK_SIZE OVERLAP
          ↔ 1 ≤ round_double ((CHUNK_SIZE : ℚ) * round_double (1 - OVERLAP)))
      ∧ (∀ j : Nat, OVERLAP ≤ 1 - 1 / 2 ^ j → 2 ^ j ≤ CHUNK_SIZE →
          1 ≤ STEP CHUNK_SIZE OVERLAP) := by
  have hiff : 1 ≤ STEP CHUNK_SIZE OVERLAP
      ↔ 1 ≤ round_double ((CHUNK_SIZE : ℚ) * round_double (1 - OVERLAP)) := by
    rw [STEP_eq_floor _ _ hC.le hO, Int.le_floor]
    norm_num
  refine ⟨STEP_nonneg _ _ hC.le hO, STEP_le_CHUNK_SIZE _ _ hC.le (by omega) hO0 hO, hiff, ?_⟩
  intro j hj h2
  rw [hiff]
  have hpow : (2 : ℚ) ^ (-(j : Int)) = 1 / 2 ^ j := by
    rw [zpow_neg, zpow_natCast, one_div]
  have hx : (2 : ℚ) ^ (-(j : Int)) ≤ round_double (1 - OVERLAP) :=
    zpow_le_round_double _ _ (by rw [hpow]; linarith)
  have hc : (2 : ℚ) ^ j ≤ (CHUNK_SIZE : ℚ) := by exact_mod_cast h2
  have hy : (2 : ℚ) ^ (0 : Int) ≤ (CHUNK_SIZE : ℚ) * round_double (1 - OVERLAP) := by
    rw [hpow] at hx
    have hpos : (0 : ℚ) < 2 ^ j := by positivity
    have h1 : (2 : ℚ) ^ j * (1 / 2 ^ j) = 1 := by field_simp
    rw [zpow_zero]
    calc (1 : ℚ) = 2 ^ j * (1 / 2 ^ j) := h1.symm
      _ ≤ (CHUNK_SIZE : ℚ) * round_double (1 - OVERLAP) :=
          mul_le_mul hc hx (by positivity) (le_trans hpos.le hc)
  simpa using zpow_le_round_double _ _ hy

theorem STEP_ge_one_iff_witness :
    ((0 : Int) < 1024 ∧ (1024 : Int) < 2 ^ 31 ∧ (0 : ℚ) ≤ 1 / 2 ∧ (1 / 2 : ℚ) < 1)
      ∧ (0 ≤ STEP 1024 (1 / 2) ∧ STEP 1024 (1 / 2) ≤ 1024
        ∧ (1 ≤ STEP 1024 (1 / 2)
            ↔ 1 ≤ round_double (((1024 : Int) : ℚ) * round_double (1 - 1 / 2)))
        ∧ (∀ j : Nat, (1 / 2 : ℚ) ≤ 1 - 1 / 2 ^ j → (2 : Int) ^ j ≤ 1024 →
            1 ≤ STEP 1024 (1 / 2))) :=
  ⟨⟨by decide, by decide, by norm_num, by norm_num⟩,
    STEP_ge_one_iff 1024 (1 / 2) (by decide) (by decide) (by norm_num) (by norm_num)⟩

/-- C6 as stated fails: `CHUNK_SIZE = 1` and `OVERLAP = 0.5` are a positive chunk size
and an overlap in `[0, 1)`, and the step is `trunc(0.5) = 0`. -/
theorem STEP_zero_counterexample :
    ((0 : Int) < 1 ∧ (0 : ℚ) ≤ 1 / 2 ∧ (1 / 2 : ℚ) < 1) ∧ ¬ (1 ≤ STEP 1 (1 / 2)) := by
  refine ⟨⟨by decide, by norm_num, by norm_num⟩, ?_⟩
  rw [STEP_one_half]
  decide

/-- The padding loop of `compute` with a step of at least `1`, started at the multiple
`j * STEP`: it stops at the least multiple `k * STEP` with
`k * STEP + CHUNK_SIZE ≥ data_.size()`. -/
theorem padding_loop_spec (CHUNK_SIZE STEP : Int) (hS : 1 ≤ STEP) (n : Nat) :
    ∀ (fuel j : Nat), (∀ k' : Nat, k' < j → (k' : Int) * STEP + CHUNK_SIZE < (n : Int)) →
      ((n : Int) - ((j : Int) * STEP + CHUNK_SIZE)).toNat + 1 ≤ fuel →
      ∃ k : Nat, j ≤ k
        ∧ padding_loop CHUNK_SIZE STEP n fuel ((j : Int) * STEP) = some ((k : Int) * STEP)
        ∧ (n : Int) ≤ (k : Int) * STEP + CHUNK_SIZE
        ∧ ∀ k' : Nat, k' < k → (k' : Int) * STEP + CHUNK_SIZE < (n : Int) := by
  intro fuel
  induction fuel with
  | zero => intro j _ hf; omega
  | succ fuel ih =>
    intro j hprev hf
    rw [padding_loop]
    by_cases hlt : (j : Int) * STEP + CHUNK_SIZE < (n : Int)
    · rw [if_pos hlt]
      have e : (j : Int) * STEP + STEP = ((j + 1 : ℕ) : Int) * STEP := by push_cast; ring
      rw [e]
      obtain ⟨k, hk, hres, hle, hmin⟩ := ih (j + 1)
        (fun k' hk' => by
          rcases Nat.lt_succ_iff_lt_or_eq.mp hk' with h | h
          · exact hprev k' h
          · rw [h]; exact hlt)
        (by rw [← e]; omega)
      exact ⟨k, by omega, hres, hle, hmin⟩
    · rw [if_neg hlt]
      exact ⟨j, le_refl j, rfl, by omega, hprev⟩

theorem transform_with_spectrogram (self : State) (cols : List (List ℂ)) (signal : List ℂ)
    (min_size : Int) :
    transform { self with spectrogram_ := cols } signal min_size
      = transform self signal min_size := rfl

/-- The loop of `chunkify` with a step of at least `1` on a waveform that holds the
segment number `k` and not the segment number `k + 1`, started at the offset
`j * STEP`: it appends the transforms of the segments number `j, …, k` and returns. -/
theorem chunkify_loop_spec (CHUNK_SIZE STEP : Int) (hS : 1 ≤ STEP) (k : Nat) :
    ∀ (d fuel j : Nat) (self : State), j + d = k + 1 → d + 1 ≤ fuel →
      (k : Int) * STEP + CHUNK_SIZE ≤ (self.data_.length : Int) →
      (self.data_.length : Int) < ((k : Int) + 1) * STEP + CHUNK_SIZE →
      chunkify_loop CHUNK_SIZE STEP fuel self ((j : Int) * STEP)
        = ⟨Status.returned,
            { self with
              spectrogram_ := self.spectrogram_ ++ (List.range' j d).map (fun (c : Nat) =>
                transform self (segment_at self.data_ ((c : Int) * STEP) CHUNK_SIZE)
                  default_min_size) }⟩ := by
  intro d
  induction d with
  | zero =>
    intro fuel j self hj hf hlen hlen2
    obtain ⟨f, rfl⟩ : ∃ f, fuel = f + 1 := ⟨fuel - 1, by omega⟩
    have hjk : j = k + 1 := by omega
    subst hjk
    have hcond : ¬ (((k + 1 : ℕ) : Int) * STEP + CHUNK_SIZE ≤ (self.data_.length : Int)) := by
      push_cast
      omega
    rw [chunkify_loop, if_neg hcond]
    simp
  | succ d ih =>
    intro fuel j self hj hf hlen hlen2
    obtain ⟨f, rfl⟩ : ∃ f, fuel = f + 1 := ⟨fuel - 1, by omega⟩
    have hjk : j ≤ k := by omega
    have hcond : (j : Int) * STEP + CHUNK_SIZE ≤ (self.data_.length : Int) := by
      have h1 : (j : Int) ≤ (k : Int) := by exact_mod_cast hjk
      nlinarith
    rw [chunkify_loop, if_pos hcond]
    have e : (j : Int) * STEP + STEP = ((j + 1 : ℕ) : Int) * STEP := by push_cast; ring
    simp only [e]
    have key := ih f (j + 1)
      { self with
        spectrogram_ := self.spectrogram_
          ++ [transform self (segment_at self.data_ ((j : Int) * STEP) CHUNK_SIZE)
                default_min_size] }
      (by omega) (by omega) hlen hlen2
    simp only [segment_at, transform_with_spectrogram] at key ⊢
    rw [key]
    simp only [List.range'_succ, List.map_cons, List.append_assoc, List.singleton_append]

/-- The whole effect of `compute` on a non-empty waveform of length `n`, for
`CHUNK_SIZE > 0`, `OVERLAP` in `[0, 1)` and a step of at least `1`: with fuel above `n`
it returns.  The padding loop stops at the least `k` with `k * STEP + CHUNK_SIZE ≥ n`.
When `k * STEP = n` the waveform is left as it is (`pad = 0`) and holds the segments
number `0, …, k - 1`; otherwise it is padded with zeros to the length
`k * STEP + CHUNK_SIZE` and holds the segments number `0, …, k`.  The spectrogram is
the list of the transforms of these segments. -/
theorem compute_run (fuel : Nat) (CHUNK_SIZE : Int) (OVERLAP : ℚ) (self : State)
    (hne : self.data_ ≠ []) (hC : 0 < CHUNK_SIZE) (hO0 : 0 ≤ OVERLAP) (hO : OVERLAP < 1)
    (hS : 1 ≤ STEP CHUNK_SIZE OVERLAP) (hfuel : self.data_.length + 1 ≤ fuel) :
    ∃ k pad K : Nat,
      (self.data_.length : Int) ≤ (k : Int) * STEP CHUNK_SIZE OVERLAP + CHUNK_SIZE
      ∧ (∀ k' : Nat, k' < k →
          (k' : Int) * STEP CHUNK_SIZE OVERLAP + CHUNK_SIZE < (self.data_.length : Int))
      ∧ (((k : Int) * STEP CHUNK_SIZE OVERLAP = (self.data_.length : Int)
            ∧ pad = 0 ∧ K + 1 = k)
          ∨ ((k : Int) * STEP CHUNK_SIZE OVERLAP ≠ (self.data_.length : Int)
            ∧ pad = ((k : Int) * STEP CHUNK_SIZE OVERLAP + CHUNK_SIZE
                      - (self.data_.length : Int)).toNat
            ∧ K = k))
      ∧ (K : Int) * STEP CHUNK_SIZE OVERLAP + CHUNK_SIZE ≤ (self.data_.length : Int) + pad
      ∧ (self.data_.length : Int) + pad
          < ((K : Int) + 1) * STEP CHUNK_SIZE OVERLAP + CHUNK_SIZE
      ∧ compute fuel CHUNK_SIZE OVERLAP self
        = ⟨Status.returned,
            { self with
              data_ := self.data_ ++ List.replicate pad 0
              spectrogram_ := (List.range' 0 (K + 1)).map (fun (c : Nat) =>
                transform self
                  (segment_at (self.data_ ++ List.replicate pad 0)
                    ((c : Int) * STEP CHUNK_SIZE OVERLAP) CHUNK_SIZE)
                  default_min_size) }⟩ := by
  have hn : 1 ≤ self.data_.length := by
    cases hd : self.data_ with
    | nil => exact absurd hd hne
    | cons a l => simp
  generalize hSdef : STEP CHUNK_SIZE OVERLAP = S at hS ⊢
  obtain ⟨k, _, hres, hle, hmin⟩ := padding_loop_spec CHUNK_SIZE S hS self.data_.length fuel 0
    (fun k' hk' => by omega) (by push_cast; omega)
  simp only [Nat.cast_zero, zero_mul] at hres
  have hkn : (k : Int) + 1 ≤ (self.data_.length : Int) := by
    rcases Nat.eq_zero_or_pos k with h0 | hpos
    · subst h0; push_cast; omega
    · have h1 := hmin (k - 1) (by omega)
      have h2 : ((k - 1 : ℕ) : Int) = (k : Int) - 1 := by omega
      rw [h2] at h1
      have h3 : (0 : Int) ≤ (k : Int) - 1 := by omega
      nlinarith
  have hassert : ¬ ¬ (0 ≤ OVERLAP ∧ OVERLAP < 1) := not_not.mpr ⟨hO0, hO⟩
  have hS0 : S ≠ 0 := by omega
  have hkS : (0 : Int) ≤ (k : Int) * S := by positivity
  by_cases heq : (k : Int) * S = (self.data_.length : Int)
  · have hk1 : 1 ≤ k := by
      rcases Nat.eq_zero_or_pos k with h0 | hpos
      · subst h0
        simp only [Nat.cast_zero, zero_mul] at heq
        omega
      · exact hpos
    have hprev := hmin (k - 1) (by omega)
    have hcast : ((k - 1 : ℕ) : Int) = (k : Int) - 1 := by omega
    have hexp : ((k : Int) - 1) * S = (k : Int) * S - S := by ring
    rw [hcast, hexp] at hprev
    refine ⟨k, 0, k - 1, hle, hmin, Or.inl ⟨heq, rfl, by omega⟩, ?_, ?_, ?_⟩
    · rw [hcast, hexp]
      push_cast
      omega
    · rw [hcast]
      have : ((k : Int) - 1 + 1) * S = (k : Int) * S := by ring
      rw [this]
      push_cast
      omega
    · unfold compute
      rw [if_neg hassert]
      simp only [hSdef, hres, ne_eq, heq, not_true_eq_false, if_false]
      unfold chunkify
      have hSle : S ≤ (k : Int) * S := by
        have hkI : (1 : Int) ≤ (k : Int) := by exact_mod_cast hk1
        nlinarith
      have hfit : ¬ ((self.data_.length : Int) < CHUNK_SIZE) := by omega
      simp only [hS0, if_false, hfit]
      have key := chunkify_loop_spec CHUNK_SIZE S hS (k - 1) (k - 1 + 1) fuel 0
        { data_ := self.data_, spectrogram_ := [], window_ := self.window_,
          height_ := self.height_ }
        (by omega) (by omega)
        (by
          show ((k - 1 : ℕ) : Int) * S + CHUNK_SIZE ≤ (self.data_.length : Int)
          rw [hcast, hexp]
          omega)
        (by
          show (self.data_.length : Int) < (((k - 1 : ℕ) : Int) + 1) * S + CHUNK_SIZE
          rw [hcast]
          have : ((k : Int) - 1 + 1) * S = (k : Int) * S := by ring
          rw [this]
          omega)
      simp only [Nat.cast_zero, zero_mul, List.nil_append] at key
      rw [key]
      simp only [List.replicate_zero, List.append_nil]
      rfl
  · refine ⟨k, ((k : Int) * S + CHUNK_SIZE - (self.data_.length : Int)).toNat, k, hle, hmin,
      Or.inr ⟨heq, rfl, rfl⟩, ?_, ?_, ?_⟩
    · omega
    · have : ((k : Int) + 1) * S = (k : Int) * S + S := by ring
      rw [this]
      omega
    · unfold compute
      rw [if_neg hassert]
      simp only [hSdef, hres, ne_eq, heq, not_false_eq_true, if_true]
      unfold chunkify
      have hfit : ¬ (((self.data_ ++ List.replicate
          ((k : Int) * S + CHUNK_SIZE - (self.data_.length : Int)).toNat (0 : Int)).length
            : Int) < CHUNK_SIZE) := by
        simp only [List.length_append, List.length_replicate]
        push_cast
        omega
      simp only [hS0, if_false, hfit]
      have key := chunkify_loop_spec CHUNK_SIZE S hS k (k + 1) fuel 0
        { data_ := self.data_ ++ List.replicate
            ((k : Int) * S + CHUNK_SIZE - (self.data_.length : Int)).toNat 0,
          spectrogram_ := [], window_ := self.window_, height_ := self.height_ }
        (by omega) (by omega)
        (by
          simp only [List.length_append, List.length_replicate]
          push_cast
          omega)
        (by
          simp only [List.length_append, List.length_replicate]
          push_cast
          have : ((k : Int) + 1) * S = (k : Int) * S + S := by ring
          rw [this]
          omega)
      simp only [Nat.cast_zero, zero_mul, List.nil_append] at key
      rw [key]
      rfl

/-- The effect of `compute` when the step is not above `CHUNK_SIZE`, as it is for
every `int` `CHUNK_SIZE` (`STEP_le_CHUNK_SIZE`): the waveform is always padded, to the
length `k * STEP + CHUNK_SIZE` for the least such `k`, and the spectrogram holds the
transforms of the segments number `0, …, k` of the padded waveform. -/
theorem compute_spec (fuel : Nat) (CHUNK_SIZE : Int) (OVERLAP : ℚ) (self : State)
    (hne : self.data_ ≠ []) (hC : 0 < CHUNK_SIZE) (hO0 : 0 ≤ OVERLAP) (hO : OVERLAP < 1)
    (hS : 1 ≤ STEP CHUNK_SIZE OVERLAP) (hSC : STEP CHUNK_SIZE OVERLAP ≤ CHUNK_SIZE)
    (hfuel : self.data_.length + 1 ≤ fuel) :
    ∃ k : Nat,
      (self.data_.length : Int) ≤ (k : Int) * STEP CHUNK_SIZE OVERLAP + CHUNK_SIZE
      ∧ (∀ k' : Nat, k' < k →
          (k' : Int) * STEP CHUNK_SIZE OVERLAP + CHUNK_SIZE < (self.data_.length : Int))
      ∧ compute fuel CHUNK_SIZE OVERLAP self
        = ⟨Status.returned,
            { self with
              data_ := self.data_ ++ List.replicate
                ((k : Int) * STEP CHUNK_SIZE OVERLAP + CHUNK_SIZE
                  - (self.data_.length : Int)).toNat 0
              spectrogram_ := (List.range' 0 (k + 1)).map (fun (c : Nat) =>
                transform self
                  (segment_at
                    (self.data_ ++ List.replicate
                      ((k : Int) * STEP CHUNK_SIZE OVERLAP + CHUNK_SIZE
                        - (self.data_.length : Int)).toNat 0)
                    ((c : Int) * STEP CHUNK_SIZE OVERLAP) CHUNK_SIZE)
                  default_min_size) }⟩ := by
  obtain ⟨k, pad, K, hle, hmin, hcase, _, _, hrun⟩ :=
    compute_run fuel CHUNK_SIZE OVERLAP self hne hC hO0 hO hS hfuel
  refine ⟨k, hle, hmin, ?_⟩
  rcases hcase with ⟨heq, _, hK⟩ | ⟨_, hpad, hK⟩
  · exfalso
    have hprev := hmin K (by omega)
    have hcast : (k : Int) = (K : Int) + 1 := by omega
    rw [hcast] at heq
    have hexp : ((K : Int) + 1) * STEP CHUNK_SIZE OVERLAP
        = (K : Int) * STEP CHUNK_SIZE OVERLAP + STEP CHUNK_SIZE OVERLAP := by ring
    rw [hexp] at heq
    omega
  · rw [hrun, hpad, hK]

/-- A run in which the subtraction rounds: for `CHUNK_SIZE = 1024`, `OVERLAP = 2^-60`
and a waveform of 5000 samples the step is `1024`, and `compute` pads the waveform to
`4 * 1024 + 1024 = 5120` samples and leaves 5 columns. -/
theorem compute_tiny_overlap (fuel : Nat) (self : State) (hlen : self.data_.length = 5000)
    (hfuel : 5001 ≤ fuel) :
    (compute fuel 1024 (1 / 2 ^ 60) self).status = Status.returned
      ∧ (compute fuel 1024 (1 / 2 ^ 60) self).state.data_.length = 5120
      ∧ (compute fuel 1024 (1 / 2 ^ 60) self).state.spectrogram_.length = 5 := by
  have hstep : STEP 1024 (1 / 2 ^ 60) = 1024 := STEP_tiny_overlap.1
  have hne : self.data_ ≠ [] := by
    intro h
    rw [h] at hlen
    simp at hlen
  obtain ⟨k, hle, hmin, hrun⟩ := compute_spec fuel 1024 (1 / 2 ^ 60) self hne (by decide)
    (by norm_num) (by norm_num) (by rw [hstep]; decide) (by rw [hstep]) (by omega)
  rw [hstep, hlen] at hle hmin
  have hk4 : k = 4 := by
    have h4 : 4 ≤ k := by omega
    by_contra hk
    have := hmin 4 (by omega)
    norm_num at this
  subst hk4
  rw [hrun, hstep, hlen]
  refine ⟨rfl, ?_, ?_⟩
  · simp only [List.length_append, List.length_replicate, hlen]
    rfl
  · simp

end Spectrograph

/-! ## Claims about `compute` and `chunkify` -/

namespace Spectrograph

/-- C2: for a non-empty waveform of length `n`, an `int` `CHUNK_SIZE > 0`, `OVERLAP` in
`[0, 1)` and a step `STEP ≥ 1`, where `STEP` is the value that the code computes for
`static_cast<int>(CHUNK_SIZE * (1.0 - OVERLAP))` in double precision, `compute` returns
(fuel above `n` is enough) and the waveform afterwards is the original samples followed
by exactly `L - n` zeros, where `L = k * STEP + CHUNK_SIZE` is the least number of that
form with `L ≥ n`; so the segment number `k` ends exactly at `L` and no original sample
is changed. -/
theorem compute_pads_waveform (fuel : Nat) (CHUNK_SIZE : Int) (OVERLAP : ℚ) (self : State)
    (hne : self.data_ ≠ []) (hC : 0 < CHUNK_SIZE) (hInt : CHUNK_SIZE < 2 ^ 31)
    (hO0 : 0 ≤ OVERLAP) (hO : OVERLAP < 1)
    (hS : 1 ≤ STEP CHUNK_SIZE OVERLAP) (hfuel : self.data_.length + 1 ≤ fuel) :
    (compute fuel CHUNK_SIZE OVERLAP self).status = Status.returned
    ∧ ∃ k : Nat,
        (self.data_.length : Int) ≤ (k : Int) * STEP CHUNK_SIZE OVERLAP + CHUNK_SIZE
        ∧ (∀ k' : Nat,
            (self.data_.length : Int) ≤ (k' : Int) * STEP CHUNK_SIZE OVERLAP + CHUNK_SIZE →
            (k : Int) * STEP CHUNK_SIZE OVERLAP + CHUNK_SIZE
              ≤ (k' : Int) * STEP CHUNK_SIZE OVERLAP + CHUNK_SIZE)
        ∧ (compute fuel CHUNK_SIZE OVERLAP self).state.data_
            = self.data_ ++ List.replicate
                ((k : Int) * STEP CHUNK_SIZE OVERLAP + CHUNK_SIZE
                  - (self.data_.length : Int)).toNat 0
        ∧ ((compute fuel CHUNK_SIZE OVERLAP self).state.data_.length : Int)
            = (k : Int) * STEP CHUNK_SIZE OVERLAP + CHUNK_SIZE := by
  obtain ⟨k, hle, hmin, hrun⟩ :=
    compute_spec fuel CHUNK_SIZE OVERLAP self hne hC hO0 hO hS
      (STEP_le_CHUNK_SIZE _ _ hC.le (by omega) hO0 hO) hfuel
  rw [hrun]
  refine ⟨rfl, k, hle, ?_, rfl, ?_⟩
  · intro k' hk'
    have hkk : k ≤ k' := by
      by_contra hlt
      have := hmin k' (by omega)
      omega
    have h1 : (k : Int) ≤ (k' : Int) := by exact_mod_cast hkk
    nlinarith
  · simp only [List.length_append, List.length_replicate]
    push_cast
    omega

theorem compute_pads_waveform_witness :
    ((([3, 1, 4, 1, 5] : List Int) ≠ []) ∧ (0 : Int) < 4 ∧ (4 : Int) < 2 ^ 31
        ∧ (0 : ℚ) ≤ 1 / 2 ∧ (1 / 2 : ℚ) < 1
        ∧ 1 ≤ STEP 4 (1 / 2) ∧ ([3, 1, 4, 1, 5] : List Int).length + 1 ≤ 6)
      ∧ ((compute 6 4 (1 / 2) ⟨[3, 1, 4, 1, 5], [], fun _ _ => 1, 1⟩).status = Status.returned
        ∧ ∃ k : Nat,
            (([3, 1, 4, 1, 5] : List Int).length : Int) ≤ (k : Int) * STEP 4 (1 / 2) + 4
            ∧ (∀ k' : Nat,
                (([3, 1, 4, 1, 5] : List Int).length : Int) ≤ (k' : Int) * STEP 4 (1 / 2) + 4 →
                (k : Int) * STEP 4 (1 / 2) + 4 ≤ (k' : Int) * STEP 4 (1 / 2) + 4)
            ∧ (compute 6 4 (1 / 2) ⟨[3, 1, 4, 1, 5], [], fun _ _ => 1, 1⟩).state.data_
                = [3, 1, 4, 1, 5] ++ List.replicate
                    ((k : Int) * STEP 4 (1 / 2) + 4
                      - (([3, 1, 4, 1, 5] : List Int).length : Int)).toNat 0
            ∧ ((compute 6 4 (1 / 2) ⟨[3, 1, 4, 1, 5], [], fun _ _ => 1, 1⟩).state.data_.length
                  : Int)
                = (k : Int) * STEP 4 (1 / 2) + 4) := by
  have hstep : STEP 4 (1 / 2) = 2 := STEP_four_half
  have hS : 1 ≤ STEP 4 (1 / 2) := by rw [hstep]; decide
  exact ⟨⟨by simp, by decide, by decide, by norm_num, by norm_num, hS, by simp⟩,
    compute_pads_waveform 6 4 (1 / 2) ⟨[3, 1, 4, 1, 5], [], fun _ _ => 1, 1⟩ (by simp)
      (by decide) (by decide) (by norm_num) (by norm_num) hS (by simp)⟩

/-- C3: for a non-empty waveform and a valid configuration (`CHUNK_SIZE > 0`,
`OVERLAP` in `[0, 1)`) with `STEP ≥ 1`, where `STEP` is the step that the code computes
in double precision, `compute` returns with exactly `(L - CHUNK_SIZE) / STEP + 1`
columns, `L` the padded length, and column `j` is `transform` applied to the padded
samples `[j * STEP, j * STEP + CHUNK_SIZE)`.  For `CHUNK_SIZE = 1024`, `OVERLAP = 0.5`
and a waveform of 5000 samples this is `STEP = 512`, padded length 5120 and
9 columns. -/
theorem compute_columns (fuel : Nat) (CHUNK_SIZE : Int) (OVERLAP : ℚ) (self : State)
    (hne : self.data_ ≠ []) (hC : 0 < CHUNK_SIZE) (hO0 : 0 ≤ OVERLAP) (hO : OVERLAP < 1)
    (hS : 1 ≤ STEP CHUNK_SIZE OVERLAP) (hfuel : self.data_.length + 1 ≤ fuel) :
    (compute fuel CHUNK_SIZE OVERLAP self).status = Status.returned
    ∧ ((compute fuel CHUNK_SIZE OVERLAP self).state.spectrogram_.length : Int)
        = (((compute fuel CHUNK_SIZE OVERLAP self).state.data_.length : Int) - CHUNK_SIZE)
            / STEP CHUNK_SIZE OVERLAP + 1
    ∧ (∀ j : Nat, j < (compute fuel CHUNK_SIZE OVERLAP self).state.spectrogram_.length →
        (compute fuel CHUNK_SIZE OVERLAP self).state.spectrogram_[j]?
          = some (transform self
              (segment_at (compute fuel CHUNK_SIZE OVERLAP self).state.data_
                ((j : Int) * STEP CHUNK_SIZE OVERLAP) CHUNK_SIZE)
              default_min_size))
    ∧ (CHUNK_SIZE = 1024 → OVERLAP = 1 / 2 → self.data_.length = 5000 →
        STEP CHUNK_SIZE OVERLAP = 512
        ∧ (compute fuel CHUNK_SIZE OVERLAP self).state.data_.length = 5120
        ∧ (compute fuel CHUNK_SIZE OVERLAP self).state.spectrogram_.length = 9) := by
  obtain ⟨k, pad, K, hle, hmin, hcase, hK1, hK2, hrun⟩ :=
    compute_run fuel CHUNK_SIZE OVERLAP self hne hC hO0 hO hS hfuel
  rw [hrun]
  have hlen : ((self.data_ ++ List.replicate pad (0 : Int)).length : Int)
      = (self.data_.length : Int) + pad := by
    simp only [List.length_append, List.length_replicate]
    push_cast
    rfl
  have hSpos : 0 < STEP CHUNK_SIZE OVERLAP := by omega
  refine ⟨rfl, ?_, ?_, ?_⟩
  · simp only [List.length_map, List.length_range']
    rw [hlen]
    have h1 : (K : Int)
        ≤ ((self.data_.length : Int) + pad - CHUNK_SIZE) / STEP CHUNK_SIZE OVERLAP :=
      (Int.le_ediv_iff_mul_le hSpos).mpr (by omega)
    have h2 : ((self.data_.length : Int) + pad - CHUNK_SIZE) / STEP CHUNK_SIZE OVERLAP
        < (K : Int) + 1 :=
      (Int.ediv_lt_iff_lt_mul hSpos).mpr (by omega)
    push_cast
    omega
  · intro j hj
    simp only [List.length_map, List.length_range'] at hj
    simp only [List.getElem?_map]
    rw [List.getElem?_range' _ _ hj]
    simp
  · intro h1 h2 h3
    have hstep : STEP CHUNK_SIZE OVERLAP = 512 := by
      rw [h1, h2]
      exact STEP_1024_half
    rw [hstep, h1, h3] at hle hmin hcase
    have hk8 : k = 8 := by
      have h4 : 8 ≤ k := by omega
      by_contra hk
      have := hmin 8 (by omega)
      norm_num at this
    subst hk8
    rcases hcase with ⟨heq, _, _⟩ | ⟨_, hpad, hK⟩
    · norm_num at heq
    · subst hK
      have hpad120 : pad = 120 := by
        rw [hpad]
        rfl
      subst hpad120
      refine ⟨hstep, ?_, ?_⟩
      · simp only [List.length_append, List.length_replicate, h3]
      · simp

theorem compute_columns_witness :
    ((List.replicate 5000 (0 : Int) ≠ []) ∧ (0 : Int) < 1024 ∧ (0 : ℚ) ≤ 1 / 2
        ∧ (1 / 2 : ℚ) < 1 ∧ 1 ≤ STEP 1024 (1 / 2)
        ∧ (List.replicate 5000 (0 : Int)).length + 1 ≤ 5001)
      ∧ (compute 5001 1024 (1 / 2) ⟨List.replicate 5000 0, [], fun _ _ => 1, 1⟩).status
          = Status.returned
      ∧ STEP 1024 (1 / 2) = 512
      ∧ (compute 5001 1024 (1 / 2)
          ⟨List.replicate 5000 0, [], fun _ _ => 1, 1⟩).state.data_.length = 5120
      ∧ (compute 5001 1024 (1 / 2)
          ⟨List.replicate 5000 0, [], fun _ _ => 1, 1⟩).state.spectrogram_.length = 9 := by
  have hstep : STEP 1024 (1 / 2) = 512 := STEP_1024_half
  have hS : 1 ≤ STEP 1024 (1 / 2) := by rw [hstep]; decide
  have hne : List.replicate 5000 (0 : Int) ≠ [] := by
    intro h
    have := congrArg List.length h
    rw [List.length_replicate, List.length_nil] at this
    omega
  have hfuel : (List.replicate 5000 (0 : Int)).length + 1 ≤ 5001 := by
    rw [List.length_replicate]
  have key := compute_columns 5001 1024 (1 / 2) ⟨List.replicate 5000 0, [], fun _ _ => 1, 1⟩
    hne (by decide) (by norm_num) (by norm_num) hS hfuel
  exact ⟨⟨hne, by decide, by norm_num, by norm_num, hS, hfuel⟩, key.1,
    key.2.2.2 rfl rfl (List.length_replicate _ _)⟩

/-- Every column that the loop of `chunkify` appends is the transform of a segment of
exactly `CHUNK_SIZE` samples. -/
theorem chunkify_loop_columns (CHUNK_SIZE STEP : Int) (hC : 0 ≤ CHUNK_SIZE)
    (hS : 0 ≤ STEP) :
    ∀ (fuel : Nat) (self : State) (i : Int), 0 ≤ i →
      ∀ col, col ∈ (chunkify_loop CHUNK_SIZE STEP fuel self i).state.spectrogram_ →
        col ∈ self.spectrogram_
          ∨ ∃ seg : List ℂ, (seg.length : Int) = CHUNK_SIZE
              ∧ col = transform self seg default_min_size := by
  intro fuel
  induction fuel with
  | zero =>
    intro self i _ col hcol
    exact Or.inl hcol
  | succ fuel ih =>
    intro self i hi col hcol
    rw [chunkify_loop] at hcol
    by_cases hcond : i + CHUNK_SIZE ≤ (self.data_.length : Int)
    · rw [if_pos hcond] at hcol
      rcases ih _ (i + STEP) (by omega) col hcol with h | ⟨seg, hseg, hcs⟩
      · simp only [List.mem_append, List.mem_singleton] at h
        rcases h with h | h
        · exact Or.inl h
        · refine Or.inr ⟨_, ?_, h⟩
          simp only [List.length_map, List.length_take, List.length_drop]
          omega
      · exact Or.inr ⟨seg, hseg, hcs⟩
    · rw [if_neg hcond] at hcol
      exact Or.inl hcol

theorem pad_to_power2_snd (signal signal' : List ℂ) (min_size : Int) :
    (pad_to_power2 signal min_size).2 = (pad_to_power2 signal' min_size).2 := rfl

/-- C5: for `CHUNK_SIZE ≥ 2`, when `compute` returns, every column of the spectrogram
has length `2^p`, where `p` is the value that `pad_to_power2` returns for the minimum
size `CHUNK_SIZE` (whatever the signal), and `2^p` is the least power of two that is
`≥ CHUNK_SIZE`; so all columns of one run have the same length. -/
theorem compute_column_length (fuel : Nat) (CHUNK_SIZE : Int) (OVERLAP : ℚ) (self : State)
    (hC : 2 ≤ CHUNK_SIZE)
    (hret : (compute fuel CHUNK_SIZE OVERLAP self).status = Status.returned) :
    ∃ p : Nat, (∀ signal : List complex_d, (pad_to_power2 signal CHUNK_SIZE).2 = p)
      ∧ (∀ col, col ∈ (compute fuel CHUNK_SIZE OVERLAP self).state.spectrogram_ →
          col.length = 2 ^ p)
      ∧ CHUNK_SIZE ≤ 2 ^ p
      ∧ ∀ q : Nat, CHUNK_SIZE ≤ 2 ^ q → p ≤ q := by
  have hfacts : ∀ (s : State) (seg : List ℂ), (seg.length : Int) = CHUNK_SIZE →
      (transform s seg default_min_size).length = 2 ^ (pad_to_power2 seg CHUNK_SIZE).2
      ∧ CHUNK_SIZE ≤ 2 ^ (pad_to_power2 seg CHUNK_SIZE).2
      ∧ ∀ q : Nat, CHUNK_SIZE ≤ 2 ^ q → (pad_to_power2 seg CHUNK_SIZE).2 ≤ q := by
    intro s seg hseg
    obtain ⟨m, hm, hle, hmin, hpad, hlen, _⟩ :=
      transform_spec s seg default_min_size (by decide)
    rw [hseg] at hpad
    rw [hpad]
    refine ⟨hlen, ?_, ?_⟩
    · rw [← hseg]
      exact_mod_cast hle
    · intro q hq
      rw [← hseg] at hq hC
      have hq' : seg.length ≤ 2 ^ q := by exact_mod_cast hq
      have hC' : 2 ≤ seg.length := by exact_mod_cast hC
      show m ≤ q
      rcases hmin with h | h
      · rcases Nat.eq_zero_or_pos q with h0 | hpos
        · subst h0
          simp at hq'
          omega
        · omega
      · have : 2 ^ (m - 1) < 2 ^ q := lt_of_lt_of_le h hq'
        have := (Nat.pow_lt_pow_iff_right (by decide : 1 < 2)).mp this
        omega
  have hseg0 : ((List.replicate CHUNK_SIZE.toNat (0 : ℂ)).length : Int) = CHUNK_SIZE := by
    rw [List.length_replicate]
    omega
  obtain ⟨_, h2, h3⟩ := hfacts self _ hseg0
  refine ⟨(pad_to_power2 (List.replicate CHUNK_SIZE.toNat (0 : ℂ)) CHUNK_SIZE).2,
    fun signal => pad_to_power2_snd _ _ _, ?_, h2, h3⟩
  intro col hcol
  unfold compute at hret hcol
  by_cases hassert : ¬ (0 ≤ OVERLAP ∧ OVERLAP < 1)
  · rw [if_pos hassert] at hret
    simp at hret
  · rw [if_neg hassert] at hret hcol
    have hO := not_not.mp hassert
    have hS := STEP_nonneg CHUNK_SIZE OVERLAP (by omega) hO.2
    have hchunk : ∀ s : State,
        col ∈ (chunkify fuel CHUNK_SIZE (STEP CHUNK_SIZE OVERLAP) s).state.spectrogram_ →
        col.length
          = 2 ^ (pad_to_power2 (List.replicate CHUNK_SIZE.toNat (0 : ℂ)) CHUNK_SIZE).2 := by
      intro s hs
      unfold chunkify at hs
      by_cases hz : STEP CHUNK_SIZE OVERLAP = 0
      · simp only [hz, if_true] at hs
        exact absurd hs (List.not_mem_nil _)
      · simp only [hz, if_false] at hs
        by_cases hfit : (s.data_.length : Int) < CHUNK_SIZE
        · simp only [hfit, if_true] at hs
          exact absurd hs (List.not_mem_nil _)
        · simp only [hfit, if_false] at hs
          rcases chunkify_loop_columns CHUNK_SIZE (STEP CHUNK_SIZE OVERLAP) (by omega) hS fuel
            _ 0 (le_refl 0) col hs with h | ⟨seg, hseg, hcs⟩
          · exact absurd h (List.not_mem_nil _)
          · rw [hcs, (hfacts _ seg hseg).1]
            rfl
    cases hpl : padding_loop CHUNK_SIZE (STEP CHUNK_SIZE OVERLAP) self.data_.length fuel 0 with
    | none =>
      simp [hpl] at hret
    | some new_size =>
      simp only [hpl] at hcol
      split at hcol
      · exact hchunk _ hcol
      · exact hchunk _ hcol

theorem compute_column_length_witness :
    ((2 : Int) ≤ 2
        ∧ (compute 3 2 0 ⟨[7, 9], [], fun _ _ => 1, 1⟩).status = Status.returned)
      ∧ ∃ p : Nat, (∀ signal : List complex_d, (pad_to_power2 signal 2).2 = p)
          ∧ (∀ col, col ∈ (compute 3 2 0 ⟨[7, 9], [], fun _ _ => 1, 1⟩).state.spectrogram_ →
              col.length = 2 ^ p)
          ∧ (2 : Int) ≤ 2 ^ p
          ∧ ∀ q : Nat, (2 : Int) ≤ 2 ^ q → p ≤ q := by
  have hstep : STEP 2 0 = 2 := STEP_two_zero
  have hret : (compute 3 2 0 ⟨[7, 9], [], fun _ _ => 1, 1⟩).status = Status.returned :=
    (compute_spec 3 2 0 ⟨[7, 9], [], fun _ _ => 1, 1⟩ (by simp) (by decide) (by norm_num)
      (by norm_num) (by rw [hstep]; decide) (by rw [hstep]) (by simp)).elim
      (fun k hk => by rw [hk.2.2])
  exact ⟨⟨le_refl 2, hret⟩,
    compute_column_length 3 2 0 ⟨[7, 9], [], fun _ _ => 1, 1⟩ (le_refl 2) hret⟩

/-- C7, as the code has it: whenever `OVERLAP` is outside `[0, 1)`, `compute` stops at
its assertion before any computation, and the waveform and the spectrogram are
unchanged.  (`CHUNK_SIZE` and `STEP` are not checked by the code.) -/
theorem compute_rejects_overlap (fuel : Nat) (CHUNK_SIZE : Int) (OVERLAP : ℚ) (self : State)
    (h : ¬ (0 ≤ OVERLAP ∧ OVERLAP < 1)) :
    (compute fuel CHUNK_SIZE OVERLAP self).status = Status.assertion_failed
      ∧ (compute fuel CHUNK_SIZE OVERLAP self).state = self := by
  unfold compute
  rw [if_pos h]
  exact ⟨rfl, rfl⟩

theorem compute_rejects_overlap_witness :
    (¬ ((0 : ℚ) ≤ 1 ∧ (1 : ℚ) < 1))
      ∧ (compute 10 1024 1 ⟨[1, 2, 3], [[5]], fun _ _ => 1, 1⟩).status
          = Status.assertion_failed
      ∧ (compute 10 1024 1 ⟨[1, 2, 3], [[5]], fun _ _ => 1, 1⟩).state
          = ⟨[1, 2, 3], [[5]], fun _ _ => 1, 1⟩ :=
  ⟨by norm_num,
    compute_rejects_overlap 10 1024 1 ⟨[1, 2, 3], [[5]], fun _ _ => 1, 1⟩ (by norm_num)⟩

theorem padding_loop_step_zero (fuel : Nat) : padding_loop 1 0 2 fuel 0 = none := by
  induction fuel with
  | zero => rfl
  | succ fuel ih =>
    rw [padding_loop, if_pos (by decide)]
    exact ih

/-- C7 as stated fails: `CHUNK_SIZE = 1` with `OVERLAP = 0.5` gives the step `0`, an
invalid configuration, and on a waveform of two samples `compute` does not stop with
an error: whatever the fuel, it is still inside its padding loop. -/
theorem compute_step_zero_counterexample :
    STEP 1 (1 / 2) ≤ 0
      ∧ ∀ fuel : Nat,
          (compute fuel 1 (1 / 2) ⟨[5, 6], [], fun _ _ => 1, 1⟩).status = Status.out_of_fuel
          ∧ (compute fuel 1 (1 / 2) ⟨[5, 6], [], fun _ _ => 1, 1⟩).status
              ≠ Status.assertion_failed := by
  have hstep : STEP 1 (1 / 2) = 0 := STEP_one_half
  refine ⟨by rw [hstep], fun fuel => ?_⟩
  have hrun : (compute fuel 1 (1 / 2) ⟨[5, 6], [], fun _ _ => 1, 1⟩).status
      = Status.out_of_fuel := by
    unfold compute
    have hassert : ¬ ¬ ((0 : ℚ) ≤ 1 / 2 ∧ (1 / 2 : ℚ) < 1) := by norm_num
    rw [if_neg hassert]
    simp only [hstep, List.length_cons, List.length_nil]
    rw [show (0 + 1 + 1 : ℕ) = 2 from rfl, padding_loop_step_zero]
  rw [hrun]
  exact ⟨rfl, by decide⟩

end Spectrograph

/-! ## The grey level of a bin -/

namespace Spectrograph

theorem half_logb_nonneg (c : ℂ) : 0 ≤ 0.5 * Real.logb 10 (Complex.abs c + 1) := by
  have h1 : (1 : ℝ) ≤ Complex.abs c + 1 := by
    have := Complex.abs.nonneg c
    linarith
  have h2 : 0 ≤ Real.logb 10 (Complex.abs c + 1) := Real.logb_nonneg (by norm_num) h1
  positivity

theorem scaled_level_bounds (c : ℂ) (threshold : ℝ) (ht : 0 < threshold) :
    0 ≤ scaled_level c threshold ∧ scaled_level c threshold ≤ 255 := by
  unfold scaled_level
  have h0 := half_logb_nonneg c
  have hmin0 : 0 ≤ min (0.5 * Real.logb 10 (Complex.abs c + 1)) threshold :=
    le_min h0 ht.le
  have hmint : min (0.5 * Real.logb 10 (Complex.abs c + 1)) threshold ≤ threshold :=
    min_le_right _ _
  constructor
  · positivity
  · rw [div_le_iff₀ ht]
    nlinarith

theorem scaled_level_mono (c₁ c₂ : ℂ) (threshold : ℝ) (ht : 0 < threshold)
    (h : Complex.abs c₁ ≤ Complex.abs c₂) :
    scaled_level c₁ threshold ≤ scaled_level c₂ threshold := by
  unfold scaled_level
  have p1 : (0 : ℝ) < Complex.abs c₁ + 1 := by
    have := Complex.abs.nonneg c₁
    linarith
  have p2 : (0 : ℝ) < Complex.abs c₂ + 1 := by
    have := Complex.abs.nonneg c₂
    linarith
  have hlog : Real.logb 10 (Complex.abs c₁ + 1) ≤ Real.logb 10 (Complex.abs c₂ + 1) :=
    (Real.logb_le_logb (by norm_num) p1 p2).mpr (by linarith)
  have hmin : min (0.5 * Real.logb 10 (Complex.abs c₁ + 1)) threshold
      ≤ min (0.5 * Real.logb 10 (Complex.abs c₂ + 1)) threshold :=
    min_le_min (by linarith) (le_refl _)
  apply div_le_div_of_nonneg_right _ ht.le
  linarith

/-- The byte that `get_color` stores in the three colour channels: the integer part
of `255 * val / threshold`. -/
theorem get_color_spec (c : ℂ) (threshold : ℝ) (ht : 0 < threshold) :
    get_color c threshold
      = ⟨⌊scaled_level c threshold⌋.toNat, ⌊scaled_level c threshold⌋.toNat,
          ⌊scaled_level c threshold⌋.toNat, 255⟩ := by
  obtain ⟨hb0, hb1⟩ := scaled_level_bounds c threshold ht
  have hval : (if 0.5 * Real.logb 10 (Utility.mag c + 1) > threshold then threshold
        else 0.5 * Real.logb 10 (Utility.mag c + 1)) / threshold * 255
      = scaled_level c threshold := by
    unfold scaled_level Utility.mag
    by_cases hgt : 0.5 * Real.logb 10 (Complex.abs c + 1) > threshold
    · rw [if_pos hgt, min_eq_right hgt.le]
      ring
    · rw [if_neg hgt, min_eq_left (not_lt.mp hgt)]
      ring
  have hnum : to_uint8 (scaled_level c threshold) = ⌊scaled_level c threshold⌋.toNat := by
    unfold to_uint8
    rw [truncate_of_nonneg _ hb0]
    have h1 : 0 ≤ ⌊scaled_level c threshold⌋ := Int.floor_nonneg.mpr hb0
    have h2 : ⌊scaled_level c threshold⌋ < 256 := by
      rw [Int.floor_lt]
      push_cast
      linarith
    rw [Int.emod_eq_of_lt h1 h2]
  unfold get_color
  simp only [hval, hnum]

/-- C8: for every `threshold > 0` the grey level `num` that `get_color` writes to the
three colour channels is an integer in `[0, 255]`, and it is monotonically
non-decreasing in the magnitude of the bin. -/
theorem get_color_bounded_monotone (threshold : ℝ) (ht : 0 < threshold) :
    ∃ num : complex_d → Nat,
      (∀ c, get_color c threshold = ⟨num c, num c, num c, 255⟩)
      ∧ (∀ c, num c ≤ 255)
      ∧ ∀ c₁ c₂, Utility.mag c₁ ≤ Utility.mag c₂ → num c₁ ≤ num c₂ := by
  refine ⟨fun c => ⌊scaled_level c threshold⌋.toNat,
    fun c => get_color_spec c threshold ht, ?_, ?_⟩
  · intro c
    obtain ⟨_, hb1⟩ := scaled_level_bounds c threshold ht
    have h2 : ⌊scaled_level c threshold⌋ ≤ 255 := by
      have : ⌊scaled_level c threshold⌋ ≤ ⌊(255 : ℝ)⌋ := Int.floor_le_floor hb1
      simpa using this
    show ⌊scaled_level c threshold⌋.toNat ≤ 255
    omega
  · intro c₁ c₂ h
    have hm := scaled_level_mono c₁ c₂ threshold ht h
    exact Int.toNat_le_toNat (Int.floor_le_floor hm)

theorem get_color_bounded_monotone_witness :
    ((0 : ℝ) < 10)
      ∧ ∃ num : complex_d → Nat,
          (∀ c, get_color c 10 = ⟨num c, num c, num c, 255⟩)
          ∧ (∀ c, num c ≤ 255)
          ∧ ∀ c₁ c₂, Utility.mag c₁ ≤ Utility.mag c₂ → num c₁ ≤ num c₂ :=
  ⟨by norm_num, get_color_bounded_monotone 10 (by norm_num)⟩

/-- C9, as the code has it: for `threshold > 0` the grey level of `get_color` is
`floor(255 * val / threshold)` with `val = min(0.5 * log10(|c| + 1), threshold)`: the
conversion to a byte cuts the fraction off, it does not round to the nearest integer. -/
theorem get_color_is_floor (c : complex_d) (threshold : ℝ) (ht : 0 < threshold) :
    ((get_color c threshold).rgbRed : Int)
        = ⌊255 * min (0.5 * Real.logb 10 (Complex.abs c + 1)) threshold / threshold⌋
      ∧ (get_color c threshold).rgbGreen = (get_color c threshold).rgbRed
      ∧ (get_color c threshold).rgbBlue = (get_color c threshold).rgbRed
      ∧ (get_color c threshold).rgbReserved = 255 := by
  rw [get_color_spec c threshold ht]
  refine ⟨?_, rfl, rfl, rfl⟩
  obtain ⟨hb0, _⟩ := scaled_level_bounds c threshold ht
  have h1 : 0 ≤ ⌊scaled_level c threshold⌋ := Int.floor_nonneg.mpr hb0
  show ((⌊scaled_level c threshold⌋.toNat : ℕ) : Int) = _
  rw [Int.toNat_of_nonneg h1]
  rfl

theorem get_color_is_floor_witness :
    ((0 : ℝ) < 10)
      ∧ (((get_color 9 10).rgbRed : Int)
          = ⌊255 * min (0.5 * Real.logb 10 (Complex.abs 9 + 1)) 10 / 10⌋
        ∧ (get_color 9 10).rgbGreen = (get_color 9 10).rgbRed
        ∧ (get_color 9 10).rgbBlue = (get_color 9 10).rgbRed
        ∧ (get_color 9 10).rgbReserved = 255) :=
  ⟨by norm_num, get_color_is_floor 9 10 (by norm_num)⟩

theorem scaled_level_nine : scaled_level 9 10 = 12.75 := by
  unfold scaled_level
  have h1 : Complex.abs 9 + 1 = (10 : ℝ) := by
    have : Complex.abs (9 : ℂ) = 9 := by
      rw [show (9 : ℂ) = ((9 : ℝ) : ℂ) by norm_num, Complex.abs_ofReal]
      norm_num
    rw [this]
    norm_num
  rw [h1, Real.logb_self_eq_one (by norm_num)]
  rw [min_eq_left (by norm_num)]
  norm_num

/-- C9 as stated fails: for the bin `9` and the threshold `10` the value
`255 * val / threshold` is `12.75`; `get_color` returns the grey level `12`, and
rounding to the nearest integer gives `13`. -/
theorem get_color_round_counterexample :
    (get_color 9 10).rgbRed = 12
      ∧ round (255 * min (0.5 * Real.logb 10 (Complex.abs 9 + 1)) 10 / 10) = 13 := by
  have hfl : ⌊scaled_level 9 10⌋ = 12 := by
    rw [scaled_level_nine, Int.floor_eq_iff]
    norm_num
  constructor
  · rw [get_color_spec 9 10 (by norm_num), hfl]
    rfl
  · have h : 255 * min (0.5 * Real.logb 10 (Complex.abs 9 + 1)) 10 / 10 = (12.75 : ℝ) :=
      scaled_level_nine
    rw [h, round_eq, Int.floor_eq_iff]
    norm_num

end Spectrograph

/-! ## The rasterizer in linear mode -/

namespace Spectrograph

theorem next_freq_linear (height_ data_size data_size_used : Int) (log_coef : ℝ) (y : Int) :
    next_freq false height_ data_size data_size_used log_coef y
      = truncate ((y : ℚ) / (height_ : ℚ) * (data_size : ℚ) * 0.5) := by
  unfold next_freq
  simp

/-- In linear mode the bin computed from a row number `r` with `0 ≤ r < height_` is
`floor((r / height_) * 0.5 * data_size)`, and it lies inside a column of `data_size`
entries. -/
theorem next_freq_linear_bounds (height_ data_size data_size_used : Int) (log_coef : ℝ)
    (hh : 1 ≤ height_) (hN : 1 ≤ data_size) (r : Nat) (hr : (r : Int) < height_) :
    next_freq false height_ data_size data_size_used log_coef (r : Int)
        = ⌊((r : ℚ) / (height_ : ℚ)) * 0.5 * (data_size : ℚ)⌋
      ∧ 0 ≤ next_freq false height_ data_size data_size_used log_coef (r : Int)
      ∧ next_freq false height_ data_size data_size_used log_coef (r : Int) < data_size := by
  have hhq : (0 : ℚ) < (height_ : ℚ) := by exact_mod_cast (by omega : (0 : Int) < height_)
  have hNq : (1 : ℚ) ≤ (data_size : ℚ) := by exact_mod_cast hN
  have hrq : (r : ℚ) < (height_ : ℚ) := by exact_mod_cast hr
  have hr0 : (0 : ℚ) ≤ (r : ℚ) := by positivity
  have hfrac0 : (0 : ℚ) ≤ (r : ℚ) / (height_ : ℚ) := div_nonneg hr0 hhq.le
  have hfrac1 : (r : ℚ) / (height_ : ℚ) < 1 := (div_lt_one hhq).mpr hrq
  have hx0 : (0 : ℚ) ≤ (r : ℚ) / (height_ : ℚ) * (data_size : ℚ) * 0.5 := by positivity
  have hx1 : (r : ℚ) / (height_ : ℚ) * (data_size : ℚ) * 0.5 < (data_size : ℚ) := by
    nlinarith
  have e : next_freq false height_ data_size data_size_used log_coef (r : Int)
      = ⌊(r : ℚ) / (height_ : ℚ) * (data_size : ℚ) * 0.5⌋ := by
    rw [next_freq_linear]
    push_cast
    exact truncate_of_nonneg _ hx0
  refine ⟨?_, ?_, ?_⟩
  · rw [e]
    congr 1
    ring
  · rw [e]
    exact Int.floor_nonneg.mpr hx0
  · rw [e, Int.floor_lt]
    exact hx1

theorem draw_column_fold_linear (height_ data_size data_size_used : Int) (log_coef : ℝ)
    (column : List ℂ) (hh : 1 ≤ height_) (hN : 1 ≤ data_size)
    (hcol : (column.length : Int) = data_size) (c : Nat) (hc : (c : Int) ≤ height_) :
    (List.range' 1 c).foldl
      (fun (st : Option (Int × List RGBQUAD)) (y : Nat) =>
        match st with
        | none => none
        | some (freq, pixels) =>
          if 0 ≤ freq ∧ freq < (column.length : Int) then
            some (next_freq false height_ data_size data_size_used log_coef (y : Int),
              pixels ++ [get_color (column.getD freq.toNat 0) 10.0])
          else none)
      (some (0, []))
    = some (next_freq false height_ data_size data_size_used log_coef (c : Int),
        (List.range c).map (fun (r : Nat) =>
          get_color (column.getD
            (next_freq false height_ data_size data_size_used log_coef (r : Int)).toNat 0)
            10.0)) := by
  induction c with
  | zero =>
    simp only [List.range'_zero, List.foldl_nil, List.range_zero, List.map_nil]
    rw [next_freq_linear]
    simp [truncate]
  | succ c ih =>
    rw [List.range'_1_concat, List.foldl_append, ih (by push_cast at hc; omega)]
    obtain ⟨_, hb0, hb1⟩ := next_freq_linear_bounds height_ data_size data_size_used log_coef
      hh hN c (by push_cast at hc; omega)
    simp only [List.foldl_cons, List.foldl_nil]
    rw [if_pos ⟨hb0, by rw [hcol]; exact hb1⟩, List.range_succ, List.map_append,
      Nat.add_comm 1 c]
    rfl

theorem draw_column_linear (height_ data_size data_size_used : Int) (log_coef : ℝ)
    (column : List ℂ) (hh : 1 ≤ height_) (hN : 1 ≤ data_size)
    (hcol : (column.length : Int) = data_size) :
    draw_column false height_ data_size data_size_used log_coef column
      = some ((List.range height_.toNat).map (fun (r : Nat) =>
          get_color (column.getD
            (next_freq false height_ data_size data_size_used log_coef (r : Int)).toNat 0)
            10.0)) := by
  unfold draw_column
  rw [draw_column_fold_linear height_ data_size data_size_used log_coef column hh hN hcol
    height_.toNat (by omega)]
  rfl

theorem draw_columns_linear (height_ data_size data_size_used : Int) (log_coef : ℝ)
    (hh : 1 ≤ height_) (hN : 1 ≤ data_size) (cols : List (List ℂ))
    (hcols : ∀ col, col ∈ cols → (col.length : Int) = data_size) :
    draw_columns false height_ data_size data_size_used log_coef cols
      = some (cols.map (fun column => (List.range height_.toNat).map (fun (r : Nat) =>
          get_color (column.getD
            (next_freq false height_ data_size data_size_used log_coef (r : Int)).toNat 0)
            10.0))) := by
  induction cols with
  | nil => rfl
  | cons col rest ih =>
    rw [draw_columns, draw_column_linear height_ data_size data_size_used log_coef col hh hN
      (hcols col (List.mem_cons_self _ _)),
      ih (fun c hc => hcols c (List.mem_cons_of_mem _ hc))]
    rfl

/-- The bitmap that `save_image` builds in linear mode, when the spectrogram is not
empty, all its columns have the same positive length and the height is positive. -/
theorem save_image_linear_spec (self : State) (N : Nat) (hh : 1 ≤ self.height_)
    (hN : 1 ≤ N) (hne : self.spectrogram_ ≠ [])
    (hcols : ∀ col, col ∈ self.spectrogram_ → col.length = N) :
    save_image self false
      = some (self.spectrogram_.map (fun column => (List.range self.height_.toNat).map
          (fun (r : Nat) => get_color (column.getD
            ⌊((r : ℚ) / (self.height_ : ℚ)) * 0.5 * (N : ℚ)⌋.toNat 0) 10.0))) := by
  unfold save_image
  cases hs : self.spectrogram_ with
  | nil => exact absurd hs hne
  | cons front rest =>
    have hfront : front.length = N := hcols front (by rw [hs]; exact List.mem_cons_self _ _)
    simp only [hfront]
    rw [draw_columns_linear self.height_ (N : Int) _ _ hh (by exact_mod_cast hN)
      (front :: rest) (fun c hc => by rw [hcols c (by rw [hs]; exact hc)])]
    congr 1
    apply List.map_congr_left
    intro column _
    apply List.map_congr_left
    intro r hr
    have hr' : (r : Int) < self.height_ := by
      have := List.mem_range.mp hr
      omega
    rw [(next_freq_linear_bounds self.height_ (N : Int) _ _ hh (by exact_mod_cast hN) r hr').1]
    rfl

/-- C10, as the code has it: in linear mode, for a height of at least `1`, a non-empty
spectrogram whose columns all have the length `N ≥ 1`, every column `x` and every row
`y` in `1..height`, `save_image` builds the bitmap, and the pixel it writes for row `y`
(image row `y - 1`) is the intensity of bin `floor(((y - 1) / height) * 0.5 * N)` of
column `x`: the bin is computed from the previous row number, and the first row shows
bin `0`. -/
theorem save_image_linear_pixel (self : State) (N : Nat) (hh : 1 ≤ self.height_)
    (hN : 1 ≤ N) (hcols : ∀ col, col ∈ self.spectrogram_ → col.length = N)
    (x : Nat) (hx : x < self.spectrogram_.length)
    (y : Nat) (hy1 : 1 ≤ y) (hy : (y : Int) ≤ self.height_) :
    ∃ bitmap, save_image self false = some bitmap
      ∧ bitmap.length = self.spectrogram_.length
      ∧ (bitmap.getD x [])[y - 1]?
          = some (get_color ((self.spectrogram_.getD x []).getD
              ⌊(((y - 1 : ℕ) : ℚ) / (self.height_ : ℚ)) * 0.5 * (N : ℚ)⌋.toNat 0) 10.0) := by
  have hne : self.spectrogram_ ≠ [] := by
    intro h
    rw [h] at hx
    exact Nat.not_lt_zero _ hx
  refine ⟨_, save_image_linear_spec self N hh hN hne hcols, by rw [List.length_map], ?_⟩
  rw [List.getD_eq_getElem _ _ (by rw [List.length_map]; exact hx), List.getElem_map,
    List.getElem?_map, List.getElem?_range (by omega), List.getD_eq_getElem _ _ hx]
  rfl

theorem save_image_linear_pixel_witness :
    ((1 : Int) ≤ 2 ∧ 1 ≤ 4
        ∧ (∀ col, col ∈ ([[0, 99, 0, 0]] : List (List complex_d)) → col.length = 4)
        ∧ 0 < ([[0, 99, 0, 0]] : List (List complex_d)).length ∧ 1 ≤ 2 ∧ ((2 : ℕ) : Int) ≤ 2)
      ∧ ∃ bitmap, save_image ⟨[], [[0, 99, 0, 0]], fun _ _ => 1, 2⟩ false = some bitmap
          ∧ bitmap.length = ([[0, 99, 0, 0]] : List (List complex_d)).length
          ∧ (bitmap.getD 0 [])[2 - 1]?
              = some (get_color ((([[0, 99, 0, 0]] : List (List complex_d)).getD 0 []).getD
                  ⌊(((2 - 1 : ℕ) : ℚ) / ((2 : Int) : ℚ)) * 0.5 * ((4 : ℕ) : ℚ)⌋.toNat 0)
                  10.0) := by
  have hcols : ∀ col, col ∈ ([[0, 99, 0, 0]] : List (List complex_d)) → col.length = 4 := by
    intro col hcol
    rw [List.mem_singleton] at hcol
    rw [hcol]
    rfl
  exact ⟨⟨by decide, by decide, hcols, by decide, by decide, by decide⟩,
    save_image_linear_pixel ⟨[], [[0, 99, 0, 0]], fun _ _ => 1, 2⟩ 4 (by decide) (by decide)
      hcols 0 (by decide) 2 (by decide) (by decide)⟩

theorem scaled_level_zero : scaled_level 0 10 = 0 := by
  unfold scaled_level
  simp

theorem scaled_level_ninety_nine : scaled_level 99 10 = 25.5 := by
  unfold scaled_level
  have h1 : Complex.abs 99 + 1 = (10 : ℝ) ^ (2 : ℕ) := by
    have : Complex.abs (99 : ℂ) = 99 := by
      rw [show (99 : ℂ) = ((99 : ℝ) : ℂ) by norm_num, Complex.abs_ofReal]
      norm_num
    rw [this]
    norm_num
  rw [h1, Real.logb_pow, Real.logb_self_eq_one (by norm_num)]
  rw [min_eq_left (by norm_num)]
  norm_num

/-- C10 as stated fails: with `height_ = 2` and the single column `[0, 99, 0, 0]`
(`N = 4`), the pixel that `save_image` writes for row `y = 1` (image row `0`) is the
intensity of bin `0`, black, whereas bin `floor((1 / 2) * 0.5 * 4) = 1` holds `99`,
whose intensity is the grey level `25`. -/
theorem save_image_row_counterexample :
    ∃ bitmap, save_image ⟨[], [[0, 99, 0, 0]], fun _ _ => 1, 2⟩ false = some bitmap
      ∧ (bitmap.getD 0 [])[1 - 1]? = some ⟨0, 0, 0, 255⟩
      ∧ get_color (([0, 99, 0, 0] : List complex_d).getD
          ⌊((1 : ℚ) / 2) * 0.5 * 4⌋.toNat 0) 10.0 = ⟨25, 25, 25, 255⟩ := by
  have hcols : ∀ col, col ∈ ([[0, 99, 0, 0]] : List (List complex_d)) → col.length = 4 := by
    intro col hcol
    rw [List.mem_singleton] at hcol
    rw [hcol]
    rfl
  have hten : (10.0 : ℝ) = 10 := by norm_num
  refine ⟨_, save_image_linear_spec ⟨[], [[0, 99, 0, 0]], fun _ _ => 1, 2⟩ 4 (by decide)
    (by decide) (by simp) hcols, ?_, ?_⟩
  · have hfl : ⌊scaled_level 0 10⌋ = 0 := by
      rw [scaled_level_zero]
      simp
    have hbin : ⌊(((0 : ℕ) : ℚ) / ((2 : Int) : ℚ)) * 0.5 * ((4 : ℕ) : ℚ)⌋ = 0 := by
      rw [Int.floor_eq_iff]
      norm_num
    have hrange : List.range (2 : Int).toNat = [0, 1] := by decide
    simp only [List.map_cons, List.map_nil, List.getD_cons_zero, hrange, hbin,
      Int.toNat_zero, Nat.sub_self, List.getElem?_cons_zero, hten]
    rw [get_color_spec 0 10 (by norm_num), hfl]
    rfl
  · have hbin : ⌊((1 : ℚ) / 2) * 0.5 * 4⌋ = 1 := by
      rw [Int.floor_eq_iff]
      norm_num
    have hfl : ⌊scaled_level 99 10⌋ = 25 := by
      rw [scaled_level_ninety_nine, Int.floor_eq_iff]
      norm_num
    rw [hbin, hten]
    show get_color 99 10 = _
    rw [get_color_spec 99 10 (by norm_num), hfl]
    rfl

end Spectrograph

/-! ## Claims about the bit reversal and about the padding exponent -/

namespace Spectrograph

/-- C20: for every exponent `p`, in particular every `p ≥ 1`, the reordering
`i ↦ reverse_bits(i, p)` of the first loop of `transform` is an involution on
`[0, 2^p)`, hence a bijection of
`[0, 2^p)`: it stays below `2^p`, it is injective, and every slot `j` is the image of
exactly one index.  So the loop fills every slot of the buffer exactly once: slot `j`
ends up holding the windowed sample number `reverse_bits(j, p)`, and none is lost. -/
theorem reverse_bits_involution_bijection (p : Nat) :
    (∀ i, i < 2 ^ p → reverse_bits (reverse_bits i p) p = i)
    ∧ (∀ i, i < 2 ^ p → reverse_bits i p < 2 ^ p)
    ∧ (∀ i k, i < 2 ^ p → k < 2 ^ p → reverse_bits i p = reverse_bits k p → i = k)
    ∧ (∀ j, j < 2 ^ p → ∃ i, i < 2 ^ p ∧ reverse_bits i p = j
        ∧ ∀ k, k < 2 ^ p → reverse_bits k p = j → k = i)
    ∧ ∀ (self : State) (signal : List complex_d), signal.length = 2 ^ p →
        (window_and_sort self p signal (List.replicate signal.length 0)).length = 2 ^ p
        ∧ ∀ j, j < 2 ^ p →
          (window_and_sort self p signal (List.replicate signal.length 0)).getD j 0
            = signal.getD (reverse_bits j p) 0
              * ((self.window_ ((reverse_bits j p : ℕ) : Int) (signal.length : Int) : ℝ) : ℂ) := by
  have hinj : ∀ i k, i < 2 ^ p → k < 2 ^ p → reverse_bits i p = reverse_bits k p → i = k := by
    intro i k hi hk h
    have h1 := reverse_bits_involutive p i hi
    have h2 := reverse_bits_involutive p k hk
    rw [h] at h1
    rw [← h1, h2]
  refine ⟨fun i hi => reverse_bits_involutive p i hi, fun i _ => reverse_bits_lt i p, hinj,
    ?_, ?_⟩
  · intro j hj
    refine ⟨reverse_bits j p, reverse_bits_lt j p, reverse_bits_involutive p j hj, ?_⟩
    intro k hk hkj
    rw [← hkj, reverse_bits_involutive p k hk]
  · intro self signal hlen
    refine ⟨by rw [length_window_and_sort, List.length_replicate, hlen], ?_⟩
    intro j hj
    have h := stageInv_window_and_sort self p signal hlen j hj 0 (by simp)
    simpa [dft_one] using h

theorem reverse_bits_involution_bijection_witness :
    (∀ i, i < 2 ^ 3 → reverse_bits (reverse_bits i 3) 3 = i)
      ∧ reverse_bits 1 3 = 4 ∧ reverse_bits 3 3 = 6 ∧ reverse_bits 6 3 = 3 :=
  ⟨(reverse_bits_involution_bijection 3).1, by decide, by decide, by decide⟩

end Spectrograph

namespace Spectrograph

theorem length_stages_loop (t : List ℂ) (n : Nat) (hn : 0 < n) :
    (stages_loop t n hn).length = t.length := by
  generalize hk : t.length + 1 - n = k
  induction k using Nat.strong_induction_on generalizing t n with
  | _ k ih =>
    rw [stages_loop]
    split
    · rw [ih (t.length + 1 - n * 2) (by rw [← hk]; omega) _ _ _
        (by rw [length_segments_loop]), length_segments_loop]
    · rfl

/-- What `transform` with a negative `min_size` does to a signal of at most one sample:
`pad_to_power2` returns the exponent `1`, the signal is padded to two entries, and both
entries of the result are the windowed first sample. -/
theorem transform_short (self : State) (signal : List ℂ) (min_size : Int)
    (hlen : signal.length ≤ 1) (hmin : min_size < 0) :
    (pad_to_power2 signal (signal.length : Int)).2 = 1
      ∧ (transform self signal min_size).length = 2
      ∧ (transform self signal min_size).getD 0 0
          = signal.getD 0 0 * ((self.window_ 0 2 : ℝ) : ℂ)
      ∧ (transform self signal min_size).getD 1 0
          = signal.getD 0 0 * ((self.window_ 0 2 : ℝ) : ℂ) := by
  obtain ⟨m, hm, hle, hmin', hpad, hl, hval⟩ := transform_spec self signal min_size hmin
  have hm1 : m = 1 := by
    rcases hmin' with h | h
    · exact h
    · have : 0 < 2 ^ (m - 1) := by positivity
      omega
  subst hm1
  have h0 : (signal ++ List.replicate (2 ^ 1 - signal.length) (0 : ℂ)).getD 0 0
      = signal.getD 0 0 := by
    rcases Nat.eq_zero_or_pos signal.length with hz | hpos
    · rw [List.length_eq_zero.mp hz]
      rfl
    · rw [List.getD_append _ _ _ _ hpos]
  have h1 : (signal ++ List.replicate (2 ^ 1 - signal.length) (0 : ℂ)).getD 1 0 = 0 := by
    rcases Nat.eq_zero_or_pos signal.length with hz | hpos
    · rw [List.length_eq_zero.mp hz]
      rfl
    · have hone : signal.length = 1 := by omega
      rw [List.getD_append_right _ _ _ _ (by omega), hone]
      rfl
  have e2 : (2 : ℕ) ^ 1 = 2 := rfl
  rw [e2] at hval h0 h1 hl
  refine ⟨by rw [hpad], hl, ?_, ?_⟩
  · rw [hval 0 (by decide)]
    unfold dft
    rw [Finset.sum_range_succ, Finset.sum_range_succ, Finset.sum_range_zero]
    beta_reduce
    rw [h0, h1]
    simp
  · rw [hval 1 (by decide)]
    unfold dft
    rw [Finset.sum_range_succ, Finset.sum_range_succ, Finset.sum_range_zero]
    beta_reduce
    rw [h0, h1]
    simp

/-- C14, the code at a segment of one sample: for the segment `[5]`, the rectangular
window and the default `min_size`, `pad_to_power2` returns the exponent `1`, not `0`,
so the test `if (!power)` of `transform` does not fire; the segment is padded to two
entries and transformed, and the result is `[5, 5]`, not the unchanged `[5]`. -/
theorem transform_single_sample :
    (([5] : List complex_d).length ≤ 1 ∧ default_min_size < 0)
      ∧ (pad_to_power2 ([5] : List complex_d) (([5] : List complex_d).length : Int)).2 = 1
      ∧ transform ⟨[], [], fun _ _ => 1, 1⟩ [5] default_min_size = [5, 5]
      ∧ transform ⟨[], [], fun _ _ => 1, 1⟩ [5] default_min_size ≠ [5] := by
  obtain ⟨h1, h2, h3, h4⟩ := transform_short ⟨[], [], fun _ _ => 1, 1⟩ [5] default_min_size
    (by simp) (by decide)
  have heq : transform ⟨[], [], fun _ _ => 1, 1⟩ [5] default_min_size = [5, 5] := by
    apply eq_of_getD_eq _ _ (by rw [h2]; rfl)
    intro k hk
    rw [h2] at hk
    rcases Nat.lt_succ_iff_lt_or_eq.mp hk with hk0 | hk1
    · have : k = 0 := by omega
      subst this
      rw [h3]
      simp
    · subst hk1
      rw [h4]
      simp
  refine ⟨⟨by simp, by decide⟩, h1, heq, ?_⟩
  rw [heq]
  intro h
  have := congrArg List.length h
  simp at this

theorem length_transform (self : State) (signal : List ℂ) (min_size : Int) :
    (transform self signal min_size).length
      = (pad_to_power2 signal
          (if min_size < 0 then (signal.length : Int) else min_size)).1.length := by
  unfold transform
  simp only
  generalize (if min_size < 0 then (signal.length : Int) else min_size) = ms
  by_cases hp : (pad_to_power2 signal ms).2 = 0
  · rw [if_pos hp]
  · rw [if_neg hp, length_stages_loop, length_window_and_sort, List.length_replicate]

/-- C15, the code at a non-negative `min_size` below the segment length: for the
segment `[1, 2, 3, 4]` and `min_size = 2`, `pad_to_power2` stops at once with the
exponent `1` (since `2 ≥ min_size`), `pad` leaves the four samples as they are, and
`transform` goes on with a buffer of four entries although `2^1 < 4`; the least
exponent with `2^p ≥ max(2, 4)` is `2`. -/
theorem transform_small_min_size :
    ((0 : Int) ≤ 2 ∧ (2 : Int) < (([1, 2, 3, 4] : List complex_d).length : Int))
      ∧ pad_to_power2 ([1, 2, 3, 4] : List complex_d)
          (if (2 : Int) < 0 then (([1, 2, 3, 4] : List complex_d).length : Int) else 2)
        = ([1, 2, 3, 4], 1)
      ∧ (transform ⟨[], [], fun _ _ => 1, 1⟩ [1, 2, 3, 4] 2).length = 4
      ∧ ¬ (([1, 2, 3, 4] : List complex_d).length ≤ 2 ^ 1)
      ∧ (∀ q : Nat, max (2 : Int) (([1, 2, 3, 4] : List complex_d).length : Int) ≤ 2 ^ q
          → 2 ≤ q) := by
  have hpad : pad_to_power2 ([1, 2, 3, 4] : List complex_d)
      (if (2 : Int) < 0 then (([1, 2, 3, 4] : List complex_d).length : Int) else 2)
        = ([1, 2, 3, 4], 1) := by
    unfold pad_to_power2
    rw [if_neg (by decide), pad_to_power2_loop, dif_neg (by decide)]
    simp [pad]
  refine ⟨⟨by decide, by simp⟩, hpad, ?_, by simp, ?_⟩
  · rw [length_transform, hpad]
    rfl
  · intro q hq
    simp only [List.length_cons, List.length_nil] at hq
    by_contra hlt
    have hq1 : q ≤ 1 := by omega
    have : (2 : Int) ^ q ≤ 2 ^ 1 := pow_le_pow_right₀ (by norm_num) hq1
    have h4 : (4 : Int) ≤ 2 ^ q := by
      have := le_trans (le_max_right (2 : Int) ((0 + 1 + 1 + 1 + 1 : ℕ) : Int)) hq
      simpa using this
    omega

end Spectrograph

/-! ## Claims about `compute` on an empty waveform and on a padded waveform -/

namespace Spectrograph

/-- What `compute` does to an empty waveform, for `CHUNK_SIZE > 0`, `OVERLAP` in
`[0, 1)` and a step other than `0`: the padding loop is not entered, the test
`new_size != data_.size()` compares `0` with `0`, so nothing is appended, and
`chunkify` asks `reserve` for the wrapped capacity. -/
theorem compute_empty (fuel : Nat) (CHUNK_SIZE : Int) (OVERLAP : ℚ) (self : State)
    (hempty : self.data_ = []) (hC : 0 < CHUNK_SIZE) (hO0 : 0 ≤ OVERLAP) (hO : OVERLAP < 1)
    (hS : STEP CHUNK_SIZE OVERLAP ≠ 0) :
    compute (fuel + 1) CHUNK_SIZE OVERLAP self
      = ⟨Status.allocation_failed, { self with spectrogram_ := [] }⟩ := by
  have hassert : ¬ ¬ (0 ≤ OVERLAP ∧ OVERLAP < 1) := not_not.mpr ⟨hO0, hO⟩
  have hlen : self.data_.length = 0 := by rw [hempty]; rfl
  unfold compute
  rw [if_neg hassert]
  simp only [hlen, padding_loop]
  have h1 : ¬ ((0 : Int) + CHUNK_SIZE < ((0 : ℕ) : Int)) := by push_cast; omega
  rw [if_neg h1]
  simp only [Nat.cast_zero, ne_eq, not_true_eq_false, if_false]
  unfold chunkify
  simp only [hS, if_false, hlen, Nat.cast_zero, hC, if_true]

/-- C16, the code at the empty waveform: with `CHUNK_SIZE = 4` and `OVERLAP = 0.5`
(`STEP = 2`, a valid configuration), `compute` appends no zero to an empty waveform,
whatever the fuel: the waveform stays empty instead of growing to the length `4`, the
spectrogram has no column, and `compute` does not return normally. -/
theorem compute_empty_waveform_not_padded :
    ((0 : Int) < 4 ∧ (0 : ℚ) ≤ 1 / 2 ∧ (1 / 2 : ℚ) < 1 ∧ 1 ≤ STEP 4 (1 / 2))
      ∧ ∀ fuel : Nat,
          (compute fuel 4 (1 / 2) ⟨[], [], fun _ _ => 1, 1⟩).state.data_ = []
          ∧ (compute fuel 4 (1 / 2) ⟨[], [], fun _ _ => 1, 1⟩).state.spectrogram_ = []
          ∧ (compute fuel 4 (1 / 2) ⟨[], [], fun _ _ => 1, 1⟩).status ≠ Status.returned := by
  have hstep : STEP 4 (1 / 2) = 2 := STEP_four_half
  refine ⟨⟨by decide, by norm_num, by norm_num, by rw [hstep]; decide⟩, ?_⟩
  intro fuel
  cases fuel with
  | zero =>
    have hassert : ¬ ¬ ((0 : ℚ) ≤ 1 / 2 ∧ (1 / 2 : ℚ) < 1) := by norm_num
    unfold compute
    rw [if_neg hassert]
    simp [padding_loop]
  | succ fuel =>
    rw [compute_empty fuel 4 (1 / 2) ⟨[], [], fun _ _ => 1, 1⟩ rfl (by decide) (by norm_num)
      (by norm_num) (by rw [hstep]; decide)]
    exact ⟨rfl, rfl, by decide⟩

/-- C19: for a non-empty waveform and a configuration with `STEP ≥ 1`, a second call
of `compute` with the same arguments, on the object as the first call left it, returns
and leaves the object as it was: no further zero is appended to the waveform (its
length stays `L`), and the spectrogram it rebuilds is equal, column by column, to the
one of the first call. -/
theorem compute_idempotent (fuel fuel' : Nat) (CHUNK_SIZE : Int) (OVERLAP : ℚ)
    (self : State) (hne : self.data_ ≠ []) (hC : 0 < CHUNK_SIZE) (hO0 : 0 ≤ OVERLAP)
    (hO : OVERLAP < 1) (hS : 1 ≤ STEP CHUNK_SIZE OVERLAP)
    (hfuel : self.data_.length + 1 ≤ fuel)
    (hfuel' : (compute fuel CHUNK_SIZE OVERLAP self).state.data_.length + 1 ≤ fuel') :
    (compute fuel CHUNK_SIZE OVERLAP self).status = Status.returned
      ∧ (compute fuel' CHUNK_SIZE OVERLAP (compute fuel CHUNK_SIZE OVERLAP self).state).status
          = Status.returned
      ∧ (compute fuel' CHUNK_SIZE OVERLAP (compute fuel CHUNK_SIZE OVERLAP self).state).state
          = (compute fuel CHUNK_SIZE OVERLAP self).state
      ∧ (compute fuel' CHUNK_SIZE OVERLAP
            (compute fuel CHUNK_SIZE OVERLAP self).state).state.data_.length
          = (compute fuel CHUNK_SIZE OVERLAP self).state.data_.length
      ∧ ∀ j : Nat,
          (compute fuel' CHUNK_SIZE OVERLAP
              (compute fuel CHUNK_SIZE OVERLAP self).state).state.spectrogram_[j]?
            = (compute fuel CHUNK_SIZE OVERLAP self).state.spectrogram_[j]? := by
  obtain ⟨k, pad, K, hle, hmin, hcase, hK1, hK2, hrun⟩ :=
    compute_run fuel CHUNK_SIZE OVERLAP self hne hC hO0 hO hS hfuel
  rw [hrun] at hfuel' ⊢
  have hlen : ((self.data_ ++ List.replicate pad (0 : Int)).length : Int)
      = (self.data_.length : Int) + pad := by
    simp only [List.length_append, List.length_replicate]
    push_cast
    rfl
  have hne' : self.data_ ++ List.replicate pad (0 : Int) ≠ [] := by
    intro h
    exact hne (List.append_eq_nil.mp h).1
  obtain ⟨k', pad', K', hle', hmin', hcase', _, _, hrun'⟩ :=
    compute_run fuel' CHUNK_SIZE OVERLAP _ hne' hC hO0 hO hS hfuel'
  simp only [hlen] at hle' hmin' hcase'
  have hboth : pad' = 0 ∧ K' = K := by
    rcases hcase with ⟨heq, hpad, hK⟩ | ⟨hneq, hpad, hK⟩
    · subst hpad
      simp only [Nat.cast_zero, add_zero] at hle' hmin' hcase'
      have hk : k' = k := by
        rcases Nat.lt_trichotomy k' k with h | h | h
        · have := hmin k' h
          omega
        · exact h
        · have := hmin' k h
          omega
      subst hk
      rcases hcase' with ⟨_, hpad', hK'⟩ | ⟨hneq', _, _⟩
      · exact ⟨hpad', by omega⟩
      · exact absurd heq hneq'
    · have hpadI : (self.data_.length : Int) + pad
          = (k : Int) * STEP CHUNK_SIZE OVERLAP + CHUNK_SIZE := by
        rw [hpad]
        omega
      rw [hpadI] at hle' hmin' hcase'
      have hk : k' = k := by
        have h1 : k ≤ k' := by
          by_contra hlt
          have h2 : (k' : Int) + 1 ≤ (k : Int) := by omega
          nlinarith
        by_contra hne2
        have := hmin' k (by omega)
        omega
      subst hk
      rcases hcase' with ⟨heq', _, _⟩ | ⟨_, hpad', hK'⟩
      · omega
      · refine ⟨?_, by omega⟩
        rw [hpad']
        simp
  obtain ⟨hp, hKK⟩ := hboth
  subst hp
  subst hKK
  rw [hrun']
  simp only [List.replicate_zero, List.append_nil, transform_with_spectrogram]
  exact ⟨trivial, trivial, rfl, trivial, fun j => rfl⟩

end Spectrograph

namespace Spectrograph

theorem compute_idempotent_witness :
    ((([3, 1, 4, 1, 5] : List Int) ≠ []) ∧ (0 : Int) < 4 ∧ (0 : ℚ) ≤ 1 / 2 ∧ (1 / 2 : ℚ) < 1
        ∧ 1 ≤ STEP 4 (1 / 2) ∧ ([3, 1, 4, 1, 5] : List Int).length + 1 ≤ 6
        ∧ (compute 6 4 (1 / 2) ⟨[3, 1, 4, 1, 5], [], fun _ _ => 1, 1⟩).state.data_.length + 1
            ≤ 7)
      ∧ (compute 7 4 (1 / 2)
            (compute 6 4 (1 / 2) ⟨[3, 1, 4, 1, 5], [], fun _ _ => 1, 1⟩).state).status
          = Status.returned
      ∧ (compute 7 4 (1 / 2)
            (compute 6 4 (1 / 2) ⟨[3, 1, 4, 1, 5], [], fun _ _ => 1, 1⟩).state).state
          = (compute 6 4 (1 / 2) ⟨[3, 1, 4, 1, 5], [], fun _ _ => 1, 1⟩).state := by
  have hstep : STEP 4 (1 / 2) = 2 := STEP_four_half
  have hS : 1 ≤ STEP 4 (1 / 2) := by rw [hstep]; decide
  have hlen : (compute 6 4 (1 / 2) ⟨[3, 1, 4, 1, 5], [], fun _ _ => 1, 1⟩).state.data_.length
      = 6 := by
    obtain ⟨k, hle, hmin, hrun⟩ := compute_spec 6 4 (1 / 2)
      ⟨[3, 1, 4, 1, 5], [], fun _ _ => 1, 1⟩ (by simp) (by decide) (by norm_num)
      (by norm_num) hS (by rw [hstep]; decide) (by simp)
    rw [hrun]
    simp only [hstep, List.length_cons, List.length_nil, Nat.zero_add] at hle hmin ⊢
    have hk : k = 1 := by
      have h1 : 1 ≤ k := by
        push_cast at hle
        omega
      by_contra hk
      have := hmin 1 (by omega)
      norm_num at this
    subst hk
    rfl
  have key := compute_idempotent 6 7 4 (1 / 2) ⟨[3, 1, 4, 1, 5], [], fun _ _ => 1, 1⟩
    (by simp) (by decide) (by norm_num) (by norm_num) hS (by simp) (by rw [hlen])
  exact ⟨⟨by simp, by decide, by norm_num, by norm_num, hS, by simp, by rw [hlen]⟩,
    key.2.1, key.2.2.1⟩

/-! ## The all-zero waveform -/

theorem getD_of_all_zero (l : List ℂ) (h : ∀ z, z ∈ l → z = 0) (i : Nat) :
    l.getD i 0 = 0 := by
  by_cases hi : i < l.length
  · rw [List.getD_eq_getElem _ _ hi]
    exact h _ (List.getElem_mem hi)
  · rw [List.getD_eq_default _ _ (by omega)]

/-- The transform of a signal of zeros is a buffer of zeros. -/
theorem transform_zero (self : State) (signal : List ℂ) (min_size : Int) (hmin : min_size < 0)
    (hzero : ∀ z, z ∈ signal → z = 0) :
    ∀ z, z ∈ transform self signal min_size → z = 0 := by
  obtain ⟨m, _, _, _, _, hlen, hval⟩ := transform_spec self signal min_size hmin
  intro z hz
  obtain ⟨k, hk, hkz⟩ := List.getElem_of_mem hz
  rw [← hkz, ← List.getD_eq_getElem _ 0 hk, hval k (by rw [← hlen]; exact hk)]
  unfold dft
  apply Finset.sum_eq_zero
  intro t _
  have hpad : (signal ++ List.replicate (2 ^ m - signal.length) (0 : ℂ)).getD t 0 = 0 :=
    getD_of_all_zero _ (fun z hz => by
      rcases List.mem_append.mp hz with h | h
      · exact hzero z h
      · exact (List.mem_replicate.mp h).2) t
  beta_reduce
  rw [hpad]
  simp

theorem segment_at_zero (data_ : List Int) (i CHUNK_SIZE : Int)
    (hzero : ∀ s, s ∈ data_ → s = 0) : ∀ z, z ∈ segment_at data_ i CHUNK_SIZE → z = 0 := by
  intro z hz
  unfold segment_at at hz
  obtain ⟨s, hs, hsz⟩ := List.mem_map.mp hz
  have hs' : s ∈ data_ := List.mem_of_mem_drop (List.mem_of_mem_take hs)
  rw [← hsz, hzero s hs']
  simp

theorem get_color_zero : get_color 0 10.0 = ⟨0, 0, 0, 255⟩ := by
  have hten : (10.0 : ℝ) = 10 := by norm_num
  rw [hten, get_color_spec 0 10 (by norm_num), scaled_level_zero]
  simp

/-- Every pixel that the inner loop of `save_image` writes is the colour of an entry
of the column, or of the default value `0`. -/
theorem draw_column_pixels (log_mode : Bool) (height_ data_size data_size_used : Int)
    (log_coef : ℝ) (column : List ℂ) (pixels : List RGBQUAD)
    (h : draw_column log_mode height_ data_size data_size_used log_coef column = some pixels) :
    ∀ px, px ∈ pixels → ∃ f : Nat, px = get_color (column.getD f 0) 10.0 := by
  have key : ∀ (l : List Nat) (st : Option (Int × List RGBQUAD)),
      (∀ fr ps, st = some (fr, ps) →
        ∀ px, px ∈ ps → ∃ f : Nat, px = get_color (column.getD f 0) 10.0) →
      ∀ fr ps, l.foldl
        (fun (st : Option (Int × List RGBQUAD)) (y : Nat) =>
          match st with
          | none => none
          | some (freq, pixels) =>
            if 0 ≤ freq ∧ freq < (column.length : Int) then
              some (next_freq log_mode height_ data_size data_size_used log_coef (y : Int),
                pixels ++ [get_color (column.getD freq.toNat 0) 10.0])
            else none) st = some (fr, ps) →
        ∀ px, px ∈ ps → ∃ f : Nat, px = get_color (column.getD f 0) 10.0 := by
    intro l
    induction l with
    | nil =>
      intro st hst fr ps hfold
      exact hst fr ps hfold
    | cons y l ih =>
      intro st hst fr ps hfold
      rw [List.foldl_cons] at hfold
      refine ih _ ?_ fr ps hfold
      intro fr' ps' hstep px hpx
      cases st with
      | none => simp at hstep
      | some v =>
        obtain ⟨f0, ps0⟩ := v
        simp only at hstep
        split at hstep
        · simp only [Option.some.injEq, Prod.mk.injEq] at hstep
          rw [← hstep.2] at hpx
          rcases List.mem_append.mp hpx with h1 | h1
          · exact hst f0 ps0 rfl px h1
          · exact ⟨f0.toNat, List.mem_singleton.mp h1⟩
        · simp at hstep
  unfold draw_column at h
  obtain ⟨v, hv, hvp⟩ := Option.map_eq_some'.mp h
  obtain ⟨fr, ps⟩ := v
  simp only at hvp
  subst hvp
  exact key _ _ (fun fr' ps' hst px hpx => by
    simp only [Option.some.injEq, Prod.mk.injEq] at hst
    rw [← hst.2] at hpx
    exact absurd hpx (List.not_mem_nil _)) fr ps hv

theorem draw_columns_pixels (log_mode : Bool) (height_ data_size data_size_used : Int)
    (log_coef : ℝ) (cols : List (List ℂ)) :
    ∀ bitmap, draw_columns log_mode height_ data_size data_size_used log_coef cols
        = some bitmap →
      ∀ c, c ∈ bitmap → ∀ px, px ∈ c →
        ∃ column, column ∈ cols ∧ ∃ f : Nat, px = get_color (column.getD f 0) 10.0 := by
  induction cols with
  | nil =>
    intro bitmap h c hc
    rw [draw_columns] at h
    simp only [Option.some.injEq] at h
    rw [← h] at hc
    exact absurd hc (List.not_mem_nil _)
  | cons column rest ih =>
    intro bitmap h c hc px hpx
    rw [draw_columns] at h
    cases hd : draw_column log_mode height_ data_size data_size_used log_coef column with
    | none => simp [hd] at h
    | some pixels =>
      cases hr : draw_columns log_mode height_ data_size data_size_used log_coef rest with
      | none => simp [hd, hr] at h
      | some bm =>
        simp only [hd, hr, Option.some.injEq] at h
        rw [← h] at hc
        rcases List.mem_cons.mp hc with h1 | h1
        · rw [h1] at hpx
          obtain ⟨f, hf⟩ := draw_column_pixels _ _ _ _ _ _ _ hd px hpx
          exact ⟨column, List.mem_cons_self _ _, f, hf⟩
        · obtain ⟨col', hcol', hf⟩ := ih bm hr c h1 px hpx
          exact ⟨col', List.mem_cons_of_mem _ hcol', hf⟩

/-- Every pixel of a bitmap that `save_image` builds is the colour of an entry of a
column of the spectrogram, or of the default value `0`. -/
theorem save_image_pixels (self : State) (log_mode : Bool) (bitmap : List (List RGBQUAD))
    (h : save_image self log_mode = some bitmap) :
    ∀ c, c ∈ bitmap → ∀ px, px ∈ c →
      ∃ column, column ∈ self.spectrogram_ ∧ ∃ f : Nat,
        px = get_color (column.getD f 0) 10.0 := by
  unfold save_image at h
  cases hs : self.spectrogram_ with
  | nil => simp [hs] at h
  | cons front rest =>
    rw [hs] at h
    simp only at h
    exact draw_columns_pixels _ _ _ _ _ _ bitmap h

end Spectrograph

namespace Spectrograph

/-- After `compute` on a non-empty waveform with a valid configuration, all columns of
the spectrogram have one and the same length, a power of two that is at least `2`. -/
theorem compute_columns_same_length (fuel : Nat) (CHUNK_SIZE : Int) (OVERLAP : ℚ)
    (self : State) (hne : self.data_ ≠ []) (hC : 0 < CHUNK_SIZE) (hO0 : 0 ≤ OVERLAP)
    (hO : OVERLAP < 1) (hS : 1 ≤ STEP CHUNK_SIZE OVERLAP)
    (hfuel : self.data_.length + 1 ≤ fuel) :
    ∃ N : Nat, 2 ≤ N
      ∧ ∀ col, col ∈ (compute fuel CHUNK_SIZE OVERLAP self).state.spectrogram_ →
          col.length = N := by
  obtain ⟨_, pad, k, _, _, _, hK1, _, hrun⟩ :=
    compute_run fuel CHUNK_SIZE OVERLAP self hne hC hO0 hO hS hfuel
  rw [hrun]
  obtain ⟨m0, hm0, hres0, _, _⟩ :=
    pad_to_power2_loop_spec CHUNK_SIZE 1 2 (by decide) (by norm_num)
  have hp0 : (pad_to_power2 ([] : List ℂ) CHUNK_SIZE).2 = m0 := by
    unfold pad_to_power2
    rw [hres0]
  refine ⟨2 ^ m0, ?_, ?_⟩
  · calc 2 = 2 ^ 1 := rfl
      _ ≤ 2 ^ m0 := Nat.pow_le_pow_right (by decide) hm0
  · intro col hcol
    obtain ⟨c, hc, hcc⟩ := List.mem_map.mp hcol
    have hck : c < k + 1 := by
      have := List.mem_range'_1.mp hc
      omega
    have hS0 : (0 : Int) ≤ STEP CHUNK_SIZE OVERLAP := by omega
    have hcS : (c : Int) * STEP CHUNK_SIZE OVERLAP ≤ (k : Int) * STEP CHUNK_SIZE OVERLAP := by
      have : (c : Int) ≤ (k : Int) := by exact_mod_cast Nat.lt_succ_iff.mp hck
      nlinarith
    have hc0 : (0 : Int) ≤ (c : Int) * STEP CHUNK_SIZE OVERLAP := by positivity
    have hseg : ((segment_at (self.data_ ++ List.replicate pad 0)
        ((c : Int) * STEP CHUNK_SIZE OVERLAP) CHUNK_SIZE).length : Int) = CHUNK_SIZE := by
      unfold segment_at
      simp only [List.length_map, List.length_take, List.length_drop, List.length_append,
        List.length_replicate]
      omega
    obtain ⟨m, _, _, _, hpad, hlen, _⟩ := transform_spec self
      (segment_at (self.data_ ++ List.replicate pad 0)
        ((c : Int) * STEP CHUNK_SIZE OVERLAP) CHUNK_SIZE) default_min_size (by decide)
    rw [hseg] at hpad
    have hm : m = m0 := by
      rw [← hp0, pad_to_power2_snd ([] : List ℂ) _ CHUNK_SIZE, hpad]
    rw [← hcc, hlen, hm]

/-- C12: for a waveform of zeros of any length, `CHUNK_SIZE > 0`, `OVERLAP` in `[0, 1)`
with `STEP ≥ 1` and any window function, every bin of every column of the spectrogram
that `compute` leaves behind is exactly `0` (when the waveform is not empty `compute`
returns and there is at least one column); `get_color` with the threshold `10.0` maps
each such bin to the grey level `0`, and every pixel of a bitmap that `save_image`
builds from that spectrogram, in either mode, has the intensity `0`.  In linear mode,
for a non-empty waveform and a height of at least `1`, `save_image` does build the
bitmap, one column of `height_` pixels for every column of the spectrogram. -/
theorem compute_zero_waveform (fuel : Nat) (CHUNK_SIZE : Int) (OVERLAP : ℚ) (self : State)
    (hzero : ∀ s, s ∈ self.data_ → s = 0) (hC : 0 < CHUNK_SIZE) (hO0 : 0 ≤ OVERLAP)
    (hO : OVERLAP < 1) (hS : 1 ≤ STEP CHUNK_SIZE OVERLAP)
    (hfuel : self.data_.length + 1 ≤ fuel) :
    (self.data_ ≠ [] →
        (compute fuel CHUNK_SIZE OVERLAP self).status = Status.returned
        ∧ (compute fuel CHUNK_SIZE OVERLAP self).state.spectrogram_ ≠ [])
      ∧ (∀ col, col ∈ (compute fuel CHUNK_SIZE OVERLAP self).state.spectrogram_ →
          ∀ z, z ∈ col → z = 0 ∧ get_color z 10.0 = ⟨0, 0, 0, 255⟩)
      ∧ (∀ (log_mode : Bool) (bitmap : List (List RGBQUAD)),
          save_image (compute fuel CHUNK_SIZE OVERLAP self).state log_mode = some bitmap →
          ∀ c, c ∈ bitmap → ∀ px, px ∈ c → px = ⟨0, 0, 0, 255⟩)
      ∧ (self.data_ ≠ [] → 1 ≤ self.height_ →
          ∃ bitmap, save_image (compute fuel CHUNK_SIZE OVERLAP self).state false = some bitmap
            ∧ bitmap.length = (compute fuel CHUNK_SIZE OVERLAP self).state.spectrogram_.length
            ∧ ∀ c, c ∈ bitmap → (c.length : Int) = self.height_) := by
  have hcols : ∀ col, col ∈ (compute fuel CHUNK_SIZE OVERLAP self).state.spectrogram_ →
      ∀ z, z ∈ col → z = 0 := by
    by_cases hne : self.data_ = []
    · obtain ⟨f, rfl⟩ : ∃ f, fuel = f + 1 := ⟨fuel - 1, by omega⟩
      rw [compute_empty f CHUNK_SIZE OVERLAP self hne hC hO0 hO (by omega)]
      intro col hcol
      exact absurd hcol (List.not_mem_nil _)
    · obtain ⟨_, pad, K, _, _, _, _, _, hrun⟩ :=
        compute_run fuel CHUNK_SIZE OVERLAP self hne hC hO0 hO hS hfuel
      rw [hrun]
      intro col hcol z hz
      obtain ⟨c, _, hc⟩ := List.mem_map.mp hcol
      rw [← hc] at hz
      refine transform_zero self _ default_min_size (by decide) ?_ z hz
      apply segment_at_zero
      intro s hs
      rcases List.mem_append.mp hs with h | h
      · exact hzero s h
      · exact (List.mem_replicate.mp h).2
  have hnonempty : self.data_ ≠ [] →
      (compute fuel CHUNK_SIZE OVERLAP self).status = Status.returned
      ∧ (compute fuel CHUNK_SIZE OVERLAP self).state.spectrogram_ ≠ []
      ∧ (compute fuel CHUNK_SIZE OVERLAP self).state.height_ = self.height_ := by
    intro hne
    obtain ⟨_, pad, K, _, _, _, _, _, hrun⟩ :=
      compute_run fuel CHUNK_SIZE OVERLAP self hne hC hO0 hO hS hfuel
    rw [hrun]
    refine ⟨rfl, ?_, rfl⟩
    intro h
    have := congrArg List.length h
    simp at this
  refine ⟨fun hne => ⟨(hnonempty hne).1, (hnonempty hne).2.1⟩, ?_, ?_, ?_⟩
  · intro col hcol z hz
    have hz0 := hcols col hcol z hz
    refine ⟨hz0, ?_⟩
    rw [hz0]
    exact get_color_zero
  · intro log_mode bitmap hsave c hc px hpx
    obtain ⟨column, hcolumn, f, hf⟩ := save_image_pixels _ log_mode bitmap hsave c hc px hpx
    rw [hf, getD_of_all_zero column (hcols column hcolumn) f]
    exact get_color_zero
  · intro hne hh
    obtain ⟨N, hN, hlen⟩ :=
      compute_columns_same_length fuel CHUNK_SIZE OVERLAP self hne hC hO0 hO hS hfuel
    obtain ⟨_, hsp, hht⟩ := hnonempty hne
    have hspec := save_image_linear_spec (compute fuel CHUNK_SIZE OVERLAP self).state N
      (by rw [hht]; exact hh) (by omega) hsp hlen
    refine ⟨_, hspec, by rw [List.length_map], ?_⟩
    intro c hc
    obtain ⟨column, _, hcc⟩ := List.mem_map.mp hc
    rw [← hcc, List.length_map, List.length_range, hht]
    omega

theorem compute_zero_waveform_witness :
    ((∀ s, s ∈ ([0, 0, 0] : List Int) → s = 0) ∧ (0 : Int) < 2 ∧ (0 : ℚ) ≤ 0 ∧ (0 : ℚ) < 1
        ∧ 1 ≤ STEP 2 0 ∧ ([0, 0, 0] : List Int).length + 1 ≤ 4)
      ∧ (compute 4 2 0 ⟨[0, 0, 0], [], fun i n => (i : ℝ) + (n : ℝ), 3⟩).status
          = Status.returned
      ∧ (compute 4 2 0 ⟨[0, 0, 0], [], fun i n => (i : ℝ) + (n : ℝ), 3⟩).state.spectrogram_
          ≠ []
      ∧ ∀ col,
          col ∈ (compute 4 2 0
            ⟨[0, 0, 0], [], fun i n => (i : ℝ) + (n : ℝ), 3⟩).state.spectrogram_ →
          ∀ z, z ∈ col → z = 0 ∧ get_color z 10.0 = ⟨0, 0, 0, 255⟩ := by
  have hstep : STEP 2 0 = 2 := STEP_two_zero
  have hS : 1 ≤ STEP 2 0 := by rw [hstep]; decide
  have hz : ∀ s, s ∈ ([0, 0, 0] : List Int) → s = 0 := by
    intro s hs
    simpa using hs
  have key := compute_zero_waveform 4 2 0 ⟨[0, 0, 0], [], fun i n => (i : ℝ) + (n : ℝ), 3⟩
    hz (by decide) (by norm_num) (by norm_num) hS (by simp)
  exact ⟨⟨hz, by decide, by norm_num, by norm_num, hS, by simp⟩,
    (key.1 (by simp)).1, (key.1 (by simp)).2, key.2.1⟩

end Spectrograph

/-! ## Energy and symmetry of the spectrum -/

namespace Spectrograph

theorem zeta_eq_exp_real (n : Nat) :
    zeta n = Complex.exp ((((-(2 * Real.pi) / (n : ℝ)) : ℝ) : ℂ) * Complex.I) := by
  unfold zeta
  congr 1
  push_cast
  ring

theorem normSq_zeta (n : Nat) : Complex.normSq (zeta n) = 1 := by
  rw [Complex.normSq_eq_abs, zeta_eq_exp_real, Complex.abs_exp_ofReal_mul_I]
  norm_num

theorem normSq_zeta_pow (n r : Nat) : Complex.normSq (zeta n ^ r) = 1 := by
  rw [map_pow, normSq_zeta, one_pow]

theorem normSq_butterfly (a b t : ℂ) (ht : Complex.normSq t = 1) :
    Complex.normSq (a + t * b) + Complex.normSq (a - t * b)
      = 2 * (Complex.normSq a + Complex.normSq b) := by
  have h1 : Complex.normSq (t * b) = Complex.normSq b := by
    rw [map_mul, ht, one_mul]
  rw [← h1]
  simp only [Complex.normSq_apply, Complex.add_re, Complex.add_im, Complex.sub_re,
    Complex.sub_im]
  ring

theorem sum_range_halves (f : Nat → ℝ) (h : Nat) :
    ∑ k in Finset.range (2 * h), f k
      = ∑ r in Finset.range h, f r + ∑ r in Finset.range h, f (r + h) := by
  rw [two_mul, Finset.sum_range_add]
  congr 1
  apply Finset.sum_congr rfl
  intro r _
  rw [add_comm]

theorem sum_range_double_real (f : Nat → ℝ) (h : Nat) :
    ∑ t in Finset.range (2 * h), f t
      = ∑ u in Finset.range h, f (2 * u) + ∑ u in Finset.range h, f (2 * u + 1) := by
  induction h with
  | zero => simp
  | succ h ih =>
    rw [show 2 * (h + 1) = 2 * h + 1 + 1 by ring, Finset.sum_range_succ,
      Finset.sum_range_succ, ih, Finset.sum_range_succ, Finset.sum_range_succ]
    ring

/-- Parseval for a transform whose length is a power of two: the energy of the
spectrum is the length times the energy of the samples. -/
theorem parseval_dft (p : Nat) :
    ∀ y : Nat → ℂ,
      ∑ k in Finset.range (2 ^ p), Complex.normSq (dft (2 ^ p) y k)
        = (2 ^ p : ℝ) * ∑ j in Finset.range (2 ^ p), Complex.normSq (y j) := by
  induction p with
  | zero =>
    intro y
    simp [dft_one]
  | succ p ih =>
    intro y
    have hh : 0 < 2 ^ p := by positivity
    have hpow : 2 ^ (p + 1) = 2 * 2 ^ p := by ring
    rw [hpow, sum_range_halves, sum_range_double_real (fun j => Complex.normSq (y j)),
      ← Finset.sum_add_distrib]
    have hstep : ∀ r, r ∈ Finset.range (2 ^ p) →
        Complex.normSq (dft (2 * 2 ^ p) y r) + Complex.normSq (dft (2 * 2 ^ p) y (r + 2 ^ p))
          = 2 * (Complex.normSq (dft (2 ^ p) (fun u => y (2 * u)) r)
              + Complex.normSq (dft (2 ^ p) (fun u => y (2 * u + 1)) r)) := by
      intro r _
      rw [dft_double, dft_double_upper _ hh]
      exact normSq_butterfly _ _ _ (normSq_zeta_pow _ _)
    rw [Finset.sum_congr rfl hstep, ← Finset.mul_sum, Finset.sum_add_distrib,
      ih (fun u => y (2 * u)), ih (fun u => y (2 * u + 1))]
    ring

/-- The result of `transform` with a negative `min_size` on a signal whose length is a
power of two, at least `2`: no padding, and entry `k` is the transform of the windowed
samples. -/
theorem transform_pow2_spec (self : State) (signal : List ℂ) (p : Nat) (hp : 1 ≤ p)
    (hN : signal.length = 2 ^ p) (min_size : Int) (hmin : min_size < 0) :
    (transform self signal min_size).length = 2 ^ p
      ∧ ∀ k, k < 2 ^ p → (transform self signal min_size).getD k 0
          = dft (2 ^ p)
              (fun i => signal.getD i 0
                * ((self.window_ (i : Int) ((2 ^ p : ℕ) : Int) : ℝ) : ℂ)) k := by
  obtain ⟨m, hm, hle, hmin', _, hlen, hval⟩ := transform_spec self signal min_size hmin
  have hmp : m = p := by
    rw [hN] at hle hmin'
    have h1 : p ≤ m := (Nat.pow_le_pow_iff_right (by decide)).mp hle
    rcases hmin' with h | h
    · omega
    · have h2 : m - 1 < p := (Nat.pow_lt_pow_iff_right (by decide)).mp h
      omega
  subst hmp
  have hz : 2 ^ m - signal.length = 0 := by omega
  rw [hz, List.replicate_zero, List.append_nil] at hval
  exact ⟨hlen, hval⟩

/-- C13: Parseval relation for `transform` in exact arithmetic.  For a signal whose
length `N` is a power of two, `N ≥ 2`, and any real window, the sum over `k` of
`|output[k]|^2` is `N` times the sum over `j` of `|signal[j] * window_(j, N)|^2`; with
the rectangular window installed through `set_window` it is `N` times the energy of
the samples. -/
theorem transform_parseval (self : State) (signal : List complex_d) (p : Nat) (hp : 1 ≤ p)
    (hN : signal.length = 2 ^ p) (min_size : Int) (hmin : min_size < 0) :
    (∑ k in Finset.range signal.length,
        Complex.abs ((transform self signal min_size).getD k 0) ^ 2
      = (signal.length : ℝ) * ∑ j in Finset.range signal.length,
          Complex.abs (signal.getD j 0
            * ((self.window_ (j : Int) (signal.length : Int) : ℝ) : ℂ)) ^ 2)
    ∧ (∑ k in Finset.range signal.length,
        Complex.abs
          ((transform (set_window self (fun _ _ => 1)) signal min_size).getD k 0) ^ 2
      = (signal.length : ℝ) * ∑ j in Finset.range signal.length,
          Complex.abs (signal.getD j 0) ^ 2) := by
  have main : ∀ s : State,
      ∑ k in Finset.range signal.length,
          Complex.abs ((transform s signal min_size).getD k 0) ^ 2
        = (signal.length : ℝ) * ∑ j in Finset.range signal.length,
            Complex.abs (signal.getD j 0
              * ((s.window_ (j : Int) (signal.length : Int) : ℝ) : ℂ)) ^ 2 := by
    intro s
    obtain ⟨_, hval⟩ := transform_pow2_spec s signal p hp hN min_size hmin
    rw [hN]
    have h1 : ∑ k in Finset.range (2 ^ p),
        Complex.abs ((transform s signal min_size).getD k 0) ^ 2
        = ∑ k in Finset.range (2 ^ p), Complex.normSq (dft (2 ^ p)
            (fun i => signal.getD i 0
              * ((s.window_ (i : Int) ((2 ^ p : ℕ) : Int) : ℝ) : ℂ)) k) := by
      apply Finset.sum_congr rfl
      intro k hk
      rw [hval k (Finset.mem_range.mp hk), Complex.sq_abs]
    rw [h1, parseval_dft]
    push_cast
    congr 1
    apply Finset.sum_congr rfl
    intro j _
    rw [Complex.sq_abs]
  refine ⟨main self, ?_⟩
  rw [main (set_window self (fun _ _ => 1))]
  congr 1
  apply Finset.sum_congr rfl
  intro j _
  simp [set_window]

theorem transform_parseval_witness :
    (1 ≤ 2 ∧ ([1, 2, 3, 4] : List complex_d).length = 2 ^ 2 ∧ default_min_size < 0)
      ∧ ∑ k in Finset.range ([1, 2, 3, 4] : List complex_d).length,
          Complex.abs
            ((transform (set_window ⟨[], [], fun _ _ => 2, 1⟩ (fun _ _ => 1)) [1, 2, 3, 4]
              default_min_size).getD k 0) ^ 2
        = (([1, 2, 3, 4] : List complex_d).length : ℝ)
          * ∑ j in Finset.range ([1, 2, 3, 4] : List complex_d).length,
              Complex.abs (([1, 2, 3, 4] : List complex_d).getD j 0) ^ 2 :=
  ⟨⟨by decide, rfl, by decide⟩,
    (transform_parseval ⟨[], [], fun _ _ => 2, 1⟩ [1, 2, 3, 4] 2 (by decide) rfl
      default_min_size (by decide)).2⟩

end Spectrograph

namespace Spectrograph

theorem conj_zeta (n : Nat) : (starRingEnd ℂ) (zeta n) = (zeta n)⁻¹ := by
  rw [Complex.inv_def, normSq_zeta]
  simp

/-- The transform of a real sequence is conjugate-symmetric. -/
theorem dft_conj_symm (n : Nat) (y : Nat → ℂ)
    (hreal : ∀ t, (starRingEnd ℂ) (y t) = y t) :
    (∀ k, 1 ≤ k → k < n → dft n y (n - k) = (starRingEnd ℂ) (dft n y k))
      ∧ (dft n y 0).im = 0 := by
  have hconj : ∀ k, (starRingEnd ℂ) (dft n y k)
      = ∑ t in Finset.range n, y t * ((zeta n) ^ (k * t))⁻¹ := by
    intro k
    unfold dft
    rw [map_sum]
    apply Finset.sum_congr rfl
    intro t _
    rw [map_mul, map_pow, hreal, conj_zeta, inv_pow]
  constructor
  · intro k hk1 hkn
    have hn : 0 < n := by omega
    rw [hconj]
    unfold dft
    apply Finset.sum_congr rfl
    intro t _
    congr 1
    apply eq_inv_of_mul_eq_one_left
    rw [← pow_add, ← add_mul, Nat.sub_add_cancel hkn.le, pow_mul, zeta_pow_self n hn, one_pow]
  · apply Complex.conj_eq_iff_im.mp
    rw [hconj]
    unfold dft
    apply Finset.sum_congr rfl
    intro t _
    simp

theorem conj_getD_of_real (l : List ℂ) (h : ∀ z, z ∈ l → z.im = 0) (i : Nat) :
    (starRingEnd ℂ) (l.getD i 0) = l.getD i 0 := by
  apply Complex.conj_eq_iff_im.mpr
  by_cases hi : i < l.length
  · rw [List.getD_eq_getElem _ _ hi]
    exact h _ (List.getElem_mem hi)
  · rw [List.getD_eq_default _ _ (by omega)]
    rfl

/-- C17: for a real-valued segment (such as the segments that `chunkify` extracts from
the integer waveform), any real window and a negative `min_size`, `transform` produces
a spectrum `X` whose length is the padded length `N = 2^p` of the segment (`p ≥ 1` the
least exponent with `2^p` at least the length of the segment, so `N ≥ 2`), `X` is the
discrete Fourier transform of the zero-padded, windowed segment, and `X` is
conjugate-symmetric in exact arithmetic: `X[N - k] = conj(X[k])` for every `k` in
`[1, N)`, and `X[0]` is real. -/
theorem transform_conjugate_symmetric (self : State) (signal : List complex_d)
    (min_size : Int) (hmin : min_size < 0) (hreal : ∀ z, z ∈ signal → z.im = 0) :
    ∃ p : Nat, 1 ≤ p ∧ signal.length ≤ 2 ^ p ∧ (p = 1 ∨ 2 ^ (p - 1) < signal.length)
      ∧ (transform self signal min_size).length = 2 ^ p
      ∧ (∀ k, k < 2 ^ p → (transform self signal min_size).getD k 0
          = dft (2 ^ p)
              (fun i => (signal ++ List.replicate (2 ^ p - signal.length) 0).getD i 0
                * ((self.window_ (i : Int) ((2 ^ p : ℕ) : Int) : ℝ) : ℂ)) k)
      ∧ (∀ k, 1 ≤ k → k < 2 ^ p →
          (transform self signal min_size).getD (2 ^ p - k) 0
            = (starRingEnd ℂ) ((transform self signal min_size).getD k 0))
      ∧ ((transform self signal min_size).getD 0 0).im = 0 := by
  obtain ⟨m, hm1, hle, hleast, _, hlen, hval⟩ := transform_spec self signal min_size hmin
  have hy : ∀ t, (starRingEnd ℂ)
      ((signal ++ List.replicate (2 ^ m - signal.length) (0 : ℂ)).getD t 0
        * ((self.window_ (t : Int) ((2 ^ m : ℕ) : Int) : ℝ) : ℂ))
      = (signal ++ List.replicate (2 ^ m - signal.length) (0 : ℂ)).getD t 0
        * ((self.window_ (t : Int) ((2 ^ m : ℕ) : Int) : ℝ) : ℂ) := by
    intro t
    rw [map_mul, Complex.conj_ofReal, conj_getD_of_real _ (fun z hz => by
      rcases List.mem_append.mp hz with h | h
      · exact hreal z h
      · rw [(List.mem_replicate.mp h).2]
        rfl)]
  obtain ⟨hsym, hzero⟩ := dft_conj_symm (2 ^ m) _ hy
  have hpos : 0 < 2 ^ m := by positivity
  refine ⟨m, hm1, hle, hleast, hlen, hval, ?_, ?_⟩
  · intro k hk1 hkn
    rw [hval k hkn, hval (2 ^ m - k) (by omega)]
    exact hsym k hk1 hkn
  · rw [hval 0 hpos]
    exact hzero

theorem transform_conjugate_symmetric_witness :
    (default_min_size < 0
        ∧ ∀ z, z ∈ segment_at [3, -1, 4, 1, 5] 1 3 → z.im = 0)
      ∧ ∃ p : Nat, 1 ≤ p ∧ (segment_at [3, -1, 4, 1, 5] 1 3).length ≤ 2 ^ p
        ∧ (p = 1 ∨ 2 ^ (p - 1) < (segment_at [3, -1, 4, 1, 5] 1 3).length)
        ∧ (transform ⟨[], [], fun _ _ => 1, 1⟩ (segment_at [3, -1, 4, 1, 5] 1 3)
            default_min_size).length = 2 ^ p
        ∧ (∀ k, k < 2 ^ p →
            (transform ⟨[], [], fun _ _ => 1, 1⟩ (segment_at [3, -1, 4, 1, 5] 1 3)
                default_min_size).getD k 0
              = dft (2 ^ p)
                  (fun i => (segment_at [3, -1, 4, 1, 5] 1 3
                      ++ List.replicate
                          (2 ^ p - (segment_at [3, -1, 4, 1, 5] 1 3).length) 0).getD i 0
                    * (((1 : ℝ)) : ℂ)) k)
        ∧ (∀ k, 1 ≤ k → k < 2 ^ p →
            (transform ⟨[], [], fun _ _ => 1, 1⟩ (segment_at [3, -1, 4, 1, 5] 1 3)
                default_min_size).getD (2 ^ p - k) 0
              = (starRingEnd ℂ)
                  ((transform ⟨[], [], fun _ _ => 1, 1⟩ (segment_at [3, -1, 4, 1, 5] 1 3)
                    default_min_size).getD k 0))
        ∧ ((transform ⟨[], [], fun _ _ => 1, 1⟩ (segment_at [3, -1, 4, 1, 5] 1 3)
            default_min_size).getD 0 0).im = 0 := by
  have hreal : ∀ z, z ∈ segment_at [3, -1, 4, 1, 5] 1 3 → z.im = 0 := by
    intro z hz
    unfold segment_at at hz
    obtain ⟨s, _, hs⟩ := List.mem_map.mp hz
    rw [← hs]
    exact Complex.intCast_im s
  exact ⟨⟨by decide, hreal⟩,
    transform_conjugate_symmetric ⟨[], [], fun _ _ => 1, 1⟩ (segment_at [3, -1, 4, 1, 5] 1 3)
      default_min_size (by decide) hreal⟩

end Spectrograph

/-! ## The bins that the rasterizer reads -/

namespace Spectrograph

theorem row_freq_zero (log_mode : Bool) (height_ data_size : Int) :
    row_freq log_mode height_ data_size 0 = 0 := by
  unfold row_freq
  rw [if_pos rfl]

theorem row_freq_succ (log_mode : Bool) (height_ data_size : Int) (r : Nat) :
    row_freq log_mode height_ data_size (r + 1)
      = next_freq log_mode height_ data_size (used_size data_size)
          (log_scale height_ data_size) ((r + 1 : ℕ) : Int) := by
  unfold row_freq
  rw [if_neg (Nat.succ_ne_zero r)]

/-- The inner loop of `save_image` after `c` rows, in either mode: when the indices of
these rows are inside the column, the loop has written the colours of the bins
`row_freq 0, …, row_freq (c - 1)`, and `freq` holds `row_freq c`. -/
theorem draw_column_fold (log_mode : Bool) (height_ data_size : Int) (column : List ℂ)
    (c : Nat)
    (hb : ∀ r : Nat, r < c → 0 ≤ row_freq log_mode height_ data_size r
      ∧ row_freq log_mode height_ data_size r < (column.length : Int)) :
    (List.range' 1 c).foldl
      (fun (st : Option (Int × List RGBQUAD)) (y : Nat) =>
        match st with
        | none => none
        | some (freq, pixels) =>
          if 0 ≤ freq ∧ freq < (column.length : Int) then
            some (next_freq log_mode height_ data_size (used_size data_size)
                (log_scale height_ data_size) (y : Int),
              pixels ++ [get_color (column.getD freq.toNat 0) 10.0])
          else none)
      (some (0, []))
    = some (row_freq log_mode height_ data_size c,
        (List.range c).map (fun (r : Nat) =>
          get_color (column.getD (row_freq log_mode height_ data_size r).toNat 0) 10.0)) := by
  induction c with
  | zero =>
    simp only [List.range'_zero, List.foldl_nil, List.range_zero, List.map_nil,
      row_freq_zero]
  | succ c ih =>
    rw [List.range'_1_concat, List.foldl_append, ih (fun r hr => hb r (by omega))]
    simp only [List.foldl_cons, List.foldl_nil]
    rw [if_pos (hb c (by omega)), List.range_succ, List.map_append, Nat.add_comm 1 c,
      row_freq_succ]
    rfl

theorem draw_column_spec (log_mode : Bool) (height_ data_size : Int) (column : List ℂ)
    (hb : ∀ r : Nat, r < height_.toNat → 0 ≤ row_freq log_mode height_ data_size r
      ∧ row_freq log_mode height_ data_size r < (column.length : Int)) :
    draw_column log_mode height_ data_size (used_size data_size)
        (log_scale height_ data_size) column
      = some ((List.range height_.toNat).map (fun (r : Nat) =>
          get_color (column.getD (row_freq log_mode height_ data_size r).toNat 0) 10.0)) := by
  unfold draw_column
  rw [draw_column_fold log_mode height_ data_size column height_.toNat hb]
  rfl

theorem draw_columns_spec (log_mode : Bool) (height_ data_size : Int)
    (cols : List (List ℂ))
    (hb : ∀ column, column ∈ cols → ∀ r : Nat, r < height_.toNat →
      0 ≤ row_freq log_mode height_ data_size r
      ∧ row_freq log_mode height_ data_size r < (column.length : Int)) :
    draw_columns log_mode height_ data_size (used_size data_size)
        (log_scale height_ data_size) cols
      = some (cols.map (fun column => (List.range height_.toNat).map (fun (r : Nat) =>
          get_color (column.getD (row_freq log_mode height_ data_size r).toNat 0) 10.0))) := by
  induction cols with
  | nil => rfl
  | cons col rest ih =>
    rw [draw_columns, draw_column_spec log_mode height_ data_size col
      (hb col (List.mem_cons_self _ _)),
      ih (fun c hc => hb c (List.mem_cons_of_mem _ hc))]
    rfl

/-- The bitmap that `save_image` builds, in either mode, when the spectrogram is not
empty, all its columns have the length `N` and the indices `row_freq r` of all rows lie
inside `[0, N)`: the pixel of column `x` and image row `r` is the colour of the bin
`row_freq r` of column `x`. -/
theorem save_image_spec (self : State) (log_mode : Bool) (N : Nat)
    (hne : self.spectrogram_ ≠ [])
    (hcols : ∀ col, col ∈ self.spectrogram_ → col.length = N)
    (hb : ∀ r : Nat, r < self.height_.toNat →
      0 ≤ row_freq log_mode self.height_ (N : Int) r
      ∧ row_freq log_mode self.height_ (N : Int) r < (N : Int)) :
    save_image self log_mode
      = some (self.spectrogram_.map (fun column => (List.range self.height_.toNat).map
          (fun (r : Nat) => get_color
            (column.getD (row_freq log_mode self.height_ (N : Int) r).toNat 0) 10.0))) := by
  unfold save_image
  cases hs : self.spectrogram_ with
  | nil => exact absurd hs hne
  | cons front rest =>
    have hfront : front.length = N := hcols front (by rw [hs]; exact List.mem_cons_self _ _)
    simp only [hfront]
    exact draw_columns_spec log_mode self.height_ (N : Int) (front :: rest)
      (fun c hc r hr => by
        rw [hcols c (by rw [hs]; exact hc)]
        exact hb r hr)

end Spectrograph

namespace Spectrograph

theorem used_size_spec (N : Nat) :
    0 ≤ used_size (N : Int) ∧ 4 * used_size (N : Int) ≤ (N : Int)
      ∧ (4 ≤ N → 1 ≤ used_size (N : Int)) := by
  have hx0 : (0 : ℚ) ≤ (((N : ℕ) : Int) : ℚ) * 0.25 := by
    have : (0 : ℚ) ≤ (((N : ℕ) : Int) : ℚ) := by positivity
    positivity
  have e : used_size (N : Int) = ⌊(((N : ℕ) : Int) : ℚ) * 0.25⌋ := by
    unfold used_size
    exact truncate_of_nonneg _ hx0
  rw [e]
  refine ⟨Int.floor_nonneg.mpr hx0, ?_, ?_⟩
  · have h1 : ((⌊(((N : ℕ) : Int) : ℚ) * 0.25⌋ : Int) : ℚ) ≤ (((N : ℕ) : Int) : ℚ) * 0.25 :=
      Int.floor_le _
    have h2 : ((4 * ⌊(((N : ℕ) : Int) : ℚ) * 0.25⌋ : Int) : ℚ) ≤ (((N : ℕ) : Int) : ℚ) := by
      push_cast
      push_cast at h1
      linarith
    exact_mod_cast h2
  · intro hN
    rw [Int.le_floor]
    have : (4 : ℚ) ≤ (N : ℚ) := by exact_mod_cast hN
    push_cast
    linarith

/-- In linear mode the bin read for an image row `r < height_` is
`floor((r / height_) * 0.5 * N)`; it is not negative and lies in the lower half of the
`N` bins. -/
theorem row_freq_linear_bounds (height_ : Int) (N : Nat) (hh : 1 ≤ height_) (hN : 1 ≤ N)
    (r : Nat) (hr : (r : Int) < height_) :
    row_freq false height_ (N : Int) r = ⌊((r : ℚ) / (height_ : ℚ)) * 0.5 * (N : ℚ)⌋
      ∧ 0 ≤ row_freq false height_ (N : Int) r
      ∧ 2 * row_freq false height_ (N : Int) r < (N : Int) := by
  have hhq : (0 : ℚ) < (height_ : ℚ) := by exact_mod_cast (by omega : (0 : Int) < height_)
  have hNq : (1 : ℚ) ≤ (N : ℚ) := by exact_mod_cast hN
  have hrq : (r : ℚ) < (height_ : ℚ) := by exact_mod_cast hr
  have hr0 : (0 : ℚ) ≤ (r : ℚ) := by positivity
  have hfrac1 : (r : ℚ) / (height_ : ℚ) < 1 := (div_lt_one hhq).mpr hrq
  have hfrac0 : (0 : ℚ) ≤ (r : ℚ) / (height_ : ℚ) := div_nonneg hr0 hhq.le
  have e : row_freq false height_ (N : Int) r
      = ⌊((r : ℚ) / (height_ : ℚ)) * 0.5 * (N : ℚ)⌋ := by
    rcases Nat.eq_zero_or_pos r with h0 | hpos
    · subst h0
      rw [row_freq_zero]
      simp
    · obtain ⟨r', rfl⟩ : ∃ r', r = r' + 1 := ⟨r - 1, by omega⟩
      rw [row_freq_succ]
      exact (next_freq_linear_bounds height_ (N : Int) _ _ hh (by exact_mod_cast hN)
        (r' + 1) hr).1
  have hx0 : (0 : ℚ) ≤ ((r : ℚ) / (height_ : ℚ)) * 0.5 * (N : ℚ) := by positivity
  have hx1 : ((r : ℚ) / (height_ : ℚ)) * 0.5 * (N : ℚ) < 0.5 * (N : ℚ) := by nlinarith
  refine ⟨e, ?_, ?_⟩
  · rw [e]
    exact Int.floor_nonneg.mpr hx0
  · rw [e]
    have h1 : ((⌊((r : ℚ) / (height_ : ℚ)) * 0.5 * (N : ℚ)⌋ : Int) : ℚ)
        ≤ ((r : ℚ) / (height_ : ℚ)) * 0.5 * (N : ℚ) := Int.floor_le _
    have h2 : ((2 * ⌊((r : ℚ) / (height_ : ℚ)) * 0.5 * (N : ℚ)⌋ : Int) : ℚ)
        < (((N : ℕ) : Int) : ℚ) := by
      push_cast
      linarith
    exact_mod_cast h2

/-- In log mode, when `data_size_used ≥ 1`, the bin computed from a row number `r`
with `1 ≤ r < height_` lies in `[0, data_size_used - 1]`. -/
theorem next_freq_log_bounds (height_ data_size : Int) (hd : 1 ≤ used_size data_size)
    (r : Nat) (hr1 : 1 ≤ r) (hr : (r : Int) < height_) :
    0 ≤ next_freq true height_ data_size (used_size data_size)
        (log_scale height_ data_size) (r : Int)
      ∧ next_freq true height_ data_size (used_size data_size)
        (log_scale height_ data_size) (r : Int) < used_size data_size := by
  have hLarg : (1 : ℝ) < (((height_ + 1 : Int)) : ℝ) := by
    have : (1 : Int) < height_ + 1 := by omega
    exact_mod_cast this
  have hL : 0 < Real.log (((height_ + 1 : Int)) : ℝ) := Real.log_pos hLarg
  have hlarg1 : (1 : ℝ) < (((height_ + 1 - (r : Int) : Int)) : ℝ) := by
    have : (1 : Int) < height_ + 1 - (r : Int) := by omega
    exact_mod_cast this
  have hl0 : 0 < Real.log (((height_ + 1 - (r : Int) : Int)) : ℝ) := Real.log_pos hlarg1
  have hlt : Real.log (((height_ + 1 - (r : Int) : Int)) : ℝ)
      < Real.log (((height_ + 1 : Int)) : ℝ) := by
    apply Real.log_lt_log (by linarith)
    have : height_ + 1 - (r : Int) < height_ + 1 := by omega
    exact_mod_cast this
  have hd' : (1 : ℝ) ≤ ((used_size data_size : Int) : ℝ) := by exact_mod_cast hd
  have hx0 : 0 ≤ log_scale height_ data_size
      * Real.log (((height_ + 1 - (r : Int) : Int)) : ℝ) := by
    unfold log_scale
    have : (0 : ℝ) ≤ 1.0 / Real.log (((height_ + 1 : Int)) : ℝ) := by
      apply div_nonneg (by norm_num) hL.le
    have h2 : (0 : ℝ) ≤ ((used_size data_size : Int) : ℝ) := by linarith
    positivity
  have hx1 : log_scale height_ data_size
      * Real.log (((height_ + 1 - (r : Int) : Int)) : ℝ)
      < ((used_size data_size : Int) : ℝ) := by
    unfold log_scale
    have hone : (1.0 : ℝ) = 1 := by norm_num
    rw [hone]
    have hratio : Real.log (((height_ + 1 - (r : Int) : Int)) : ℝ)
        / Real.log (((height_ + 1 : Int)) : ℝ) < 1 := (div_lt_one hL).mpr hlt
    have e : 1 / Real.log (((height_ + 1 : Int)) : ℝ) * ((used_size data_size : Int) : ℝ)
        * Real.log (((height_ + 1 - (r : Int) : Int)) : ℝ)
        = ((used_size data_size : Int) : ℝ)
          * (Real.log (((height_ + 1 - (r : Int) : Int)) : ℝ)
            / Real.log (((height_ + 1 : Int)) : ℝ)) := by
      field_simp
    rw [e]
    nlinarith
  have e : next_freq true height_ data_size (used_size data_size)
      (log_scale height_ data_size) (r : Int)
      = used_size data_size - 1
        - ⌊log_scale height_ data_size
            * Real.log (((height_ + 1 - (r : Int) : Int)) : ℝ)⌋ := by
    unfold next_freq
    rw [if_pos rfl, truncate_of_nonneg _ hx0]
  have hf0 : 0 ≤ ⌊log_scale height_ data_size
      * Real.log (((height_ + 1 - (r : Int) : Int)) : ℝ)⌋ := Int.floor_nonneg.mpr hx0
  have hf1 : ⌊log_scale height_ data_size
      * Real.log (((height_ + 1 - (r : Int) : Int)) : ℝ)⌋ < used_size data_size :=
    Int.floor_lt.mpr hx1
  rw [e]
  constructor <;> omega

/-- In log mode, for a height of at least `1` and at least `4` bins, the bin read for
an image row `r < height_` is not negative and smaller than `data_size_used`, which is
at most a quarter of the bins. -/
theorem row_freq_log_bounds (height_ : Int) (N : Nat) (hN : 4 ≤ N)
    (r : Nat) (hr : (r : Int) < height_) :
    0 ≤ row_freq true height_ (N : Int) r
      ∧ row_freq true height_ (N : Int) r < used_size (N : Int)
      ∧ 4 * used_size (N : Int) ≤ (N : Int) := by
  obtain ⟨_, h4, h1⟩ := used_size_spec N
  have hd := h1 hN
  rcases Nat.eq_zero_or_pos r with h0 | hpos
  · subst h0
    rw [row_freq_zero]
    exact ⟨le_refl 0, by omega, h4⟩
  · obtain ⟨r', rfl⟩ : ∃ r', r = r' + 1 := ⟨r - 1, by omega⟩
    rw [row_freq_succ]
    obtain ⟨a, b⟩ := next_freq_log_bounds height_ (N : Int) hd (r' + 1) (by omega) hr
    exact ⟨a, b, h4⟩

end Spectrograph

namespace Spectrograph

/-- C11, as the code has it: for a height of at least `1` and a non-empty spectrogram
whose columns all have the length `N`, in log mode with `N ≥ 4` every bin index that
`save_image` reads is smaller than `data_size_used = trunc(0.25 * N)`; in linear mode
with `N ≥ 1` every bin index read is `floor((r / height) * 0.5 * N)` for an image row
`r`, which is smaller than `N / 2`: the linear rasterizer visits the lower half of the
bins, not only the lowest quarter.  In both cases the pixel of row `r` is the colour
of bin `row_freq r`. -/
theorem save_image_bins_read (self : State) (N : Nat) (hh : 1 ≤ self.height_)
    (hne : self.spectrogram_ ≠ [])
    (hcols : ∀ col, col ∈ self.spectrogram_ → col.length = N) :
    (4 ≤ N →
        save_image self true
          = some (self.spectrogram_.map (fun column => (List.range self.height_.toNat).map
              (fun (r : Nat) => get_color
                (column.getD (row_freq true self.height_ (N : Int) r).toNat 0) 10.0)))
        ∧ ∀ r : Nat, (r : Int) < self.height_ →
            0 ≤ row_freq true self.height_ (N : Int) r
            ∧ row_freq true self.height_ (N : Int) r < used_size (N : Int))
      ∧ (1 ≤ N →
        save_image self false
          = some (self.spectrogram_.map (fun column => (List.range self.height_.toNat).map
              (fun (r : Nat) => get_color
                (column.getD (row_freq false self.height_ (N : Int) r).toNat 0) 10.0)))
        ∧ ∀ r : Nat, (r : Int) < self.height_ →
            row_freq false self.height_ (N : Int) r
                = ⌊((r : ℚ) / (self.height_ : ℚ)) * 0.5 * (N : ℚ)⌋
            ∧ 0 ≤ row_freq false self.height_ (N : Int) r
            ∧ 2 * row_freq false self.height_ (N : Int) r < (N : Int)) := by
  constructor
  · intro hN
    have hb : ∀ r : Nat, (r : Int) < self.height_ →
        0 ≤ row_freq true self.height_ (N : Int) r
        ∧ row_freq true self.height_ (N : Int) r < used_size (N : Int) := by
      intro r hr
      obtain ⟨a, b, _⟩ := row_freq_log_bounds self.height_ N hN r hr
      exact ⟨a, b⟩
    refine ⟨save_image_spec self true N hne hcols (fun r hr => ?_), hb⟩
    obtain ⟨a, b, c⟩ := row_freq_log_bounds self.height_ N hN r (by omega)
    exact ⟨a, by omega⟩
  · intro hN
    refine ⟨save_image_spec self false N hne hcols (fun r hr => ?_),
      fun r hr => row_freq_linear_bounds self.height_ N hh hN r hr⟩
    obtain ⟨_, a, b⟩ := row_freq_linear_bounds self.height_ N hh hN r (by omega)
    exact ⟨a, by omega⟩

theorem save_image_bins_read_witness :
    ((1 : Int) ≤ 3 ∧ ([[1, 2, 3, 4, 5, 6, 7, 8]] : List (List complex_d)) ≠ []
        ∧ (∀ col, col ∈ ([[1, 2, 3, 4, 5, 6, 7, 8]] : List (List complex_d)) → col.length = 8)
        ∧ 4 ≤ 8)
      ∧ ∀ r : Nat, (r : Int) < 3 →
          0 ≤ row_freq true 3 ((8 : ℕ) : Int) r
          ∧ row_freq true 3 ((8 : ℕ) : Int) r < used_size ((8 : ℕ) : Int) := by
  have hcols : ∀ col, col ∈ ([[1, 2, 3, 4, 5, 6, 7, 8]] : List (List complex_d)) →
      col.length = 8 := by
    intro col hcol
    rw [List.mem_singleton] at hcol
    rw [hcol]
    rfl
  exact ⟨⟨by decide, by simp, hcols, by decide⟩,
    ((save_image_bins_read ⟨[], [[1, 2, 3, 4, 5, 6, 7, 8]], fun _ _ => 1, 3⟩ 8 (by decide)
      (by simp) hcols).1 (by decide)).2⟩

/-- C11 as stated fails in linear mode: with `height_ = 2` and the single column
`[0, 99, 0, 0]` (`N = 4`, `data_size_used = 1`), the second image row is drawn from
bin `1`, which is not below `data_size_used`; the pixel has the grey level `25` of the
value `99` stored in that bin. -/
theorem save_image_quarter_counterexample :
    used_size ((4 : ℕ) : Int) = 1
      ∧ row_freq false 2 ((4 : ℕ) : Int) 1 = 1
      ∧ ¬ (row_freq false 2 ((4 : ℕ) : Int) 1 < used_size ((4 : ℕ) : Int))
      ∧ ∃ bitmap, save_image ⟨[], [[0, 99, 0, 0]], fun _ _ => 1, 2⟩ false = some bitmap
          ∧ (bitmap.getD 0 [])[1]? = some ⟨25, 25, 25, 255⟩ := by
  have hu : used_size ((4 : ℕ) : Int) = 1 := by
    obtain ⟨_, h4, h1⟩ := used_size_spec 4
    have := h1 (le_refl 4)
    omega
  have hr : row_freq false 2 ((4 : ℕ) : Int) 1 = 1 := by
    rw [(row_freq_linear_bounds 2 4 (by decide) (by decide) 1 (by decide)).1,
      Int.floor_eq_iff]
    norm_num
  have hcols : ∀ col, col ∈ ([[0, 99, 0, 0]] : List (List complex_d)) → col.length = 4 := by
    intro col hcol
    rw [List.mem_singleton] at hcol
    rw [hcol]
    rfl
  have hb : ∀ r : Nat, r < (2 : Int).toNat →
      0 ≤ row_freq false 2 ((4 : ℕ) : Int) r
      ∧ row_freq false 2 ((4 : ℕ) : Int) r < ((4 : ℕ) : Int) := by
    intro r hr'
    have hr2 : (r : Int) < 2 := by
      have : (2 : Int).toNat = 2 := rfl
      omega
    obtain ⟨_, a, b⟩ := row_freq_linear_bounds 2 4 (by decide) (by decide) r hr2
    exact ⟨a, by omega⟩
  refine ⟨hu, hr, by rw [hr, hu]; decide, _,
    save_image_spec ⟨[], [[0, 99, 0, 0]], fun _ _ => 1, 2⟩ false 4 (by simp) hcols hb, ?_⟩
  have hrange : List.range (2 : Int).toNat = [0, 1] := by decide
  have hten : (10.0 : ℝ) = 10 := by norm_num
  have hfl : ⌊scaled_level 99 10⌋ = 25 := by
    rw [scaled_level_ninety_nine, Int.floor_eq_iff]
    norm_num
  simp only [List.map_cons, List.map_nil, List.getD_cons_zero, hrange, hr,
    List.getElem?_cons_succ, List.getElem?_cons_zero, hten]
  have hget : (([0, 99, 0, 0] : List complex_d)).getD (1 : Int).toNat 0 = 99 := rfl
  rw [hget, get_color_spec 99 10 (by norm_num), hfl]
  rfl

/-- In log mode a spectrum of two bins has `data_size_used = 0`, and for a height of
at least `2` the index computed for the second image row is `-1`: that is why index
safety needs at least four bins. -/
theorem row_freq_log_two_bins (height_ : Int) :
    used_size ((2 : ℕ) : Int) = 0 ∧ row_freq true height_ ((2 : ℕ) : Int) 1 = -1 := by
  have hu : used_size ((2 : ℕ) : Int) = 0 := by
    unfold used_size
    rw [truncate_of_nonneg _ (by norm_num), Int.floor_eq_iff]
    norm_num
  refine ⟨hu, ?_⟩
  unfold row_freq
  rw [if_neg (by decide)]
  unfold next_freq log_scale
  rw [if_pos rfl, hu]
  simp [truncate]

/-- C18: index safety of `save_image`.  For a height of at least `1`, a non-empty
spectrogram whose columns all have the length `N ≥ 4`, and both values of `log_mode`,
no read `spectrogram_[x][freq]` leaves its column (`save_image` builds the bitmap), and
every index `freq` used satisfies `0 ≤ freq` and `freq < N / 2`; the first image row
reads bin `0`, and the image row `r ≥ 1` reads the index computed at the end of the
iteration `y = r`, so the index computed in the last iteration `y = height` is not
read. -/
theorem save_image_index_safe (self : State) (log_mode : Bool) (N : Nat)
    (hh : 1 ≤ self.height_) (hN : 4 ≤ N) (hne : self.spectrogram_ ≠ [])
    (hcols : ∀ col, col ∈ self.spectrogram_ → col.length = N) :
    save_image self log_mode
        = some (self.spectrogram_.map (fun column => (List.range self.height_.toNat).map
            (fun (r : Nat) => get_color
              (column.getD (row_freq log_mode self.height_ (N : Int) r).toNat 0) 10.0)))
      ∧ (∀ r : Nat, (r : Int) < self.height_ →
          0 ≤ row_freq log_mode self.height_ (N : Int) r
          ∧ 2 * row_freq log_mode self.height_ (N : Int) r < (N : Int))
      ∧ row_freq log_mode self.height_ (N : Int) 0 = 0
      ∧ ∀ r : Nat, 1 ≤ r →
          row_freq log_mode self.height_ (N : Int) r
            = next_freq log_mode self.height_ (N : Int) (used_size (N : Int))
                (log_scale self.height_ (N : Int)) (r : Int) := by
  have hb : ∀ r : Nat, (r : Int) < self.height_ →
      0 ≤ row_freq log_mode self.height_ (N : Int) r
      ∧ 2 * row_freq log_mode self.height_ (N : Int) r < (N : Int) := by
    intro r hr
    cases log_mode with
    | true =>
      obtain ⟨a, b, c⟩ := row_freq_log_bounds self.height_ N hN r hr
      exact ⟨a, by omega⟩
    | false =>
      obtain ⟨_, a, b⟩ := row_freq_linear_bounds self.height_ N hh (by omega) r hr
      exact ⟨a, b⟩
  refine ⟨save_image_spec self log_mode N hne hcols (fun r hr => ?_), hb,
    row_freq_zero _ _ _, ?_⟩
  · obtain ⟨a, b⟩ := hb r (by omega)
    exact ⟨a, by omega⟩
  · intro r hr
    obtain ⟨r', rfl⟩ : ∃ r', r = r' + 1 := ⟨r - 1, by omega⟩
    exact row_freq_succ _ _ _ _

theorem save_image_index_safe_witness :
    ((1 : Int) ≤ 3 ∧ 4 ≤ 4 ∧ ([[0, 99, 0, 0], [1, 2, 3, 4]] : List (List complex_d)) ≠ []
        ∧ (∀ col, col ∈ ([[0, 99, 0, 0], [1, 2, 3, 4]] : List (List complex_d)) →
            col.length = 4))
      ∧ (∃ bitmap,
          save_image ⟨[], [[0, 99, 0, 0], [1, 2, 3, 4]], fun _ _ => 1, 3⟩ true = some bitmap)
      ∧ ∀ r : Nat, (r : Int) < 3 →
          0 ≤ row_freq true 3 ((4 : ℕ) : Int) r
          ∧ 2 * row_freq true 3 ((4 : ℕ) : Int) r < ((4 : ℕ) : Int) := by
  have hcols : ∀ col, col ∈ ([[0, 99, 0, 0], [1, 2, 3, 4]] : List (List complex_d)) →
      col.length = 4 := by
    intro col hcol
    simp only [List.mem_cons, List.mem_singleton, List.not_mem_nil, or_false] at hcol
    rcases hcol with h | h <;> rw [h] <;> rfl
  have key := save_image_index_safe ⟨[], [[0, 99, 0, 0], [1, 2, 3, 4]], fun _ _ => 1, 3⟩
    true 4 (by decide) (by decide) (by simp) hcols
  exact ⟨⟨by decide, by decide, by simp, hcols⟩, ⟨_, key.1⟩, key.2.1⟩

end Spectrograph
